import Mathlib

/-!
Verification of the jsonex extraction engine (Go package `jsonex`).

The Go source is shallowly embedded: the byte stream is a `List Nat`
(byte values 0..255) together with a cursor position, the scanner's
buffered reads collapse to positional lookups (`bytesReader` feeds the
scanner the same byte sequence the slice holds, and the buffer size
only tunes read-ahead, never observable behaviour), and every Go
function of the parsing core becomes a Lean function of the same
structure.  Loops and recursive descent are driven by an explicit fuel
parameter so that all definitions are structurally recursive and
kernel-computable; fuel exhaustion is a distinguished error that never
occurs at the generous bounds used by the top-level entry points on
the inputs appearing in the theorems.
-/

namespace Jsonex

/-- Error taxonomy of `errors.go`: Syntax, Unicode, Escape, EOF, InvalidJSON. -/
inductive ErrKind where
  | syn
  | uni
  | esc
  | eof
  | inv
deriving DecidableEq, Repr

/-- Errors crossing the embedded API: `io.EOF` (a plain sentinel in Go, not a
`*jsonex.Error`), a `jsonex.Error` with kind and message, an error produced by
the external standard-library deserializer (opaque to this package), and the
fuel-exhaustion artifact of the embedding. -/
inductive Err where
  | ioEOF
  | jsonErr (kind : ErrKind) (msg : String)
  | stdlibErr
  | outOfFuel
deriving DecidableEq, Repr

instance {ε α : Type} [DecidableEq ε] [DecidableEq α] : DecidableEq (Except ε α) :=
  fun a b =>
    match a, b with
    | .ok x, .ok y =>
      if h : x = y then .isTrue (by rw [h]) else .isFalse (by intro hc; cases hc; exact h rfl)
    | .error x, .error y =>
      if h : x = y then .isTrue (by rw [h]) else .isFalse (by intro hc; cases hc; exact h rfl)
    | .ok _, .error _ => .isFalse (by intro hc; cases hc)
    | .error _, .ok _ => .isFalse (by intro hc; cases hc)

def synErr (m : String) : Err := .jsonErr .syn m

def uniErr (m : String) : Err := .jsonErr .uni m

def escErr (m : String) : Err := .jsonErr .esc m

def eofErr (m : String) : Err := .jsonErr .eof m

def invErr (m : String) : Err := .jsonErr .inv m

/-- The depth-limit error produced by `checkDepth` (parser.go). -/
def depthErr : Err := synErr ("maximum nesting depth exceeded")

/-- `isDepthError` (parser.go): a `*Error` of Syntax kind with the exact
depth message; `io.EOF` and foreign errors are not depth errors. -/
def isDepthError : Err → Bool
  | .jsonErr k m => k == ErrKind.syn && m == "maximum nesting depth exceeded"
  | _ => false

/-- `options` (options.go).  The fields are Go `int`s. -/
structure Options where
  maxDepth : Int
  bufferSize : Int
deriving DecidableEq, Repr

/-- `defaultOptions` (options.go). -/
def defaultOptions : Options := ⟨1000, 4096⟩

/-- `WithMaxDepth` (options.go): only positive values take effect. -/
def withMaxDepth (depth : Int) : Options → Options :=
  fun o => if depth > 0 then { o with maxDepth := depth } else o

/-- `WithBufferSize` (options.go): only positive values take effect. -/
def withBufferSize (size : Int) : Options → Options :=
  fun o => if size > 0 then { o with bufferSize := size } else o

/-- `applyOptions` (options.go): fold the option functions over the defaults. -/
def applyOptions (opts : List (Options → Options)) : Options :=
  opts.foldl (fun o f => f o) defaultOptions

/-- `parseLongest`'s custom-configuration test (parser.go line 67). -/
def hasCustomOptions (o : Options) : Bool :=
  o.maxDepth != 1000 || o.bufferSize != 4096

/-- Whitespace accepted by `scanner.skipWhitespace` (scanner.go): space, tab,
newline, carriage return. -/
def isWS (b : Nat) : Bool := b == 32 || b == 9 || b == 10 || b == 13

/-- `scanner.skipWhitespace` (scanner.go): peek-and-consume whitespace; a
`peek` at end of input fails with `io.EOF`. -/
def skipWhitespaceF : Nat → List Nat → Nat → Except Err Nat
  | 0, _, _ => .error .outOfFuel
  | f + 1, data, pos =>
    match data.get? pos with
    | none => .error .ioEOF
    | some b => if isWS b then skipWhitespaceF f data (pos + 1) else .ok pos

/-- `scanner.findJSONStart` (scanner.go): skip whitespace, peek; return on
an opening brace or bracket, otherwise consume one byte and repeat. -/
def findJSONStartF : Nat → List Nat → Nat → Except Err (Nat × Nat)
  | 0, _, _ => .error .outOfFuel
  | f + 1, data, pos =>
    match skipWhitespaceF f data pos with
    | .error e => .error e
    | .ok p =>
      match data.get? p with
      | none => .error .ioEOF
      | some b =>
        if b == 123 || b == 91 then .ok (b, p)
        else findJSONStartF f data (p + 1)

/-- Literal matcher used by `parseBoolean`/`parseNull` (parser.go): consume
the expected bytes one by one, re-emitting them. -/
def expectLit (data : List Nat) (pos : Nat) (lit : List Nat) (emsg : String) :
    Except Err (List Nat × Nat) :=
  match lit with
  | [] => .ok ([], pos)
  | c :: rest =>
    match data.get? pos with
    | none => .error .ioEOF
    | some b =>
      if b == c then
        match expectLit data (pos + 1) rest emsg with
        | .error e => .error e
        | .ok (o, p) => .ok (c :: o, p)
      else .error (synErr emsg)

/-- `parser.parseBoolean` (parser.go). -/
def parseBooleanF (data : List Nat) (pos : Nat) : Except Err (List Nat × Nat) :=
  match data.get? pos with
  | none => .error .ioEOF
  | some b =>
    if b == 116 then expectLit data pos [116, 114, 117, 101] ("invalid boolean value")
    else if b == 102 then expectLit data pos [102, 97, 108, 115, 101] ("invalid boolean value")
    else .error (synErr ("expected boolean value"))

/-- `parser.parseNull` (parser.go). -/
def parseNullF (data : List Nat) (pos : Nat) : Except Err (List Nat × Nat) :=
  expectLit data pos [110, 117, 108, 108] ("invalid null value")

/-- Number-grammar characters greedily consumed by `parseNumber` (parser.go). -/
def isNumChar (b : Nat) : Bool :=
  (48 ≤ b && b ≤ 57) || b == 45 || b == 43 || b == 46 || b == 101 || b == 69

/-- `parser.parseNumber` (parser.go): consume number characters until a
non-number byte or end of input (io.EOF breaks the loop without error). -/
def parseNumberF : Nat → List Nat → Nat → Except Err (List Nat × Nat)
  | 0, _, _ => .error .outOfFuel
  | f + 1, data, pos =>
    match data.get? pos with
    | none => .ok ([], pos)
    | some b =>
      if isNumChar b then
        match parseNumberF f data (pos + 1) with
        | .error e => .error e
        | .ok (o, p) => .ok (b :: o, p)
      else .ok ([], pos)

/-- `isHexDigit` (escape handling file). -/
def isHexDigit (b : Nat) : Bool :=
  (48 ≤ b && b ≤ 57) || (65 ≤ b && b ≤ 70) || (97 ≤ b && b ≤ 102)

/-- One hex byte of a `\uXXXX` escape as read by `parseString`
(parser.go lines 449-457): missing byte is io.EOF, non-hex is an Escape
error. -/
def readHexByte (data : List Nat) (pos : Nat) : Except Err Nat :=
  match data.get? pos with
  | none => .error .ioEOF
  | some h =>
    if isHexDigit h then .ok h
    else .error (escErr ("invalid hex digit in unicode escape"))

/-- The four hex bytes of a `\uXXXX` escape, validated one at a time and
re-emitted by `parseString` (parser.go lines 445-458). -/
def readHex4 (data : List Nat) (pos : Nat) : Except Err (List Nat) :=
  match readHexByte data pos with
  | .error e => .error e
  | .ok h1 =>
    match readHexByte data (pos + 1) with
    | .error e => .error e
    | .ok h2 =>
      match readHexByte data (pos + 2) with
      | .error e => .error e
      | .ok h3 =>
        match readHexByte data (pos + 3) with
        | .error e => .error e
        | .ok h4 => .ok [h1, h2, h3, h4]

/-- Uppercase hex digit byte used by `parseString`'s control-character
re-escaping (parser.go lines 525-530). -/
def hexDigitUpper (n : Nat) : Nat := if n < 10 then 48 + n else 65 + n - 10

/-- Re-emission of a raw control byte (< 0x20) inside a string
(parser.go lines 496-531). -/
def controlEscape (b : Nat) : List Nat :=
  if b == 10 then [92, 110]
  else if b == 9 then [92, 116]
  else if b == 13 then [92, 114]
  else if b == 8 then [92, 98]
  else if b == 12 then [92, 102]
  else [92, 117, 48, 48, if b < 16 then 48 else 49, hexDigitUpper (b % 16)]

/-- UTF-8 sequence length from the leading byte (parser.go lines 469-478):
`110xxxxx` gives 2, `1110xxxx` gives 3, `11110xxx` gives 4, else invalid. -/
def utf8SeqLen (b : Nat) : Option Nat :=
  if b &&& 0xE0 == 0xC0 then some 2
  else if b &&& 0xF0 == 0xE0 then some 3
  else if b &&& 0xF8 == 0xF0 then some 4
  else none

/-- Continuation bytes of a multi-byte UTF-8 sequence as read by
`parseString` (parser.go lines 480-490): each must exist and match
`10xxxxxx`. -/
def readContinuation (data : List Nat) (pos : Nat) : Nat → Except Err (List Nat)
  | 0 => .ok []
  | n + 1 =>
    match data.get? pos with
    | none => .error .ioEOF
    | some c =>
      if c &&& 0xC0 == 0x80 then
        match readContinuation data (pos + 1) n with
        | .error e => .error e
        | .ok rest => .ok (c :: rest)
      else .error (uniErr ("invalid UTF-8 continuation byte"))

/-- Body loop of `parser.parseString` (parser.go lines 396-537): consume
bytes until an unescaped quote, normalizing escapes, re-escaping raw
control bytes, and copying complete UTF-8 sequences. -/
def parseStringLoopF : Nat → List Nat → Nat → Except Err (List Nat × Nat)
  | 0, _, _ => .error .outOfFuel
  | f + 1, data, pos =>
    match data.get? pos with
    | none => .error .ioEOF
    | some b =>
      if b == 34 then .ok ([34], pos + 1)
      else if b == 92 then
        match data.get? (pos + 1) with
        | none => .error .ioEOF
        | some c =>
          if c == 34 then
            match parseStringLoopF f data (pos + 2) with
            | .error e => .error e
            | .ok (o, p) => .ok (92 :: 34 :: o, p)
          else if c == 92 then
            match parseStringLoopF f data (pos + 2) with
            | .error e => .error e
            | .ok (o, p) => .ok (92 :: 92 :: o, p)
          else if c == 47 then
            match parseStringLoopF f data (pos + 2) with
            | .error e => .error e
            | .ok (o, p) => .ok (47 :: o, p)
          else if c == 98 then
            match parseStringLoopF f data (pos + 2) with
            | .error e => .error e
            | .ok (o, p) => .ok (92 :: 98 :: o, p)
          else if c == 102 then
            match parseStringLoopF f data (pos + 2) with
            | .error e => .error e
            | .ok (o, p) => .ok (92 :: 102 :: o, p)
          else if c == 110 then
            match parseStringLoopF f data (pos + 2) with
            | .error e => .error e
            | .ok (o, p) => .ok (92 :: 110 :: o, p)
          else if c == 114 then
            match parseStringLoopF f data (pos + 2) with
            | .error e => .error e
            | .ok (o, p) => .ok (92 :: 114 :: o, p)
          else if c == 116 then
            match parseStringLoopF f data (pos + 2) with
            | .error e => .error e
            | .ok (o, p) => .ok (92 :: 116 :: o, p)
          else if c == 117 then
            match readHex4 data (pos + 2) with
            | .error e => .error e
            | .ok hs =>
              match parseStringLoopF f data (pos + 6) with
              | .error e => .error e
              | .ok (o, p) => .ok (92 :: 117 :: hs ++ o, p)
          else .error (escErr ("invalid escape sequence"))
      else if 128 ≤ b then
        match utf8SeqLen b with
        | none => .error (uniErr ("invalid UTF-8 start byte"))
        | some n =>
          match readContinuation data (pos + 1) (n - 1) with
          | .error e => .error e
          | .ok conts =>
            match parseStringLoopF f data (pos + n) with
            | .error e => .error e
            | .ok (o, p) => .ok (b :: conts ++ o, p)
      else if b < 32 then
        match parseStringLoopF f data (pos + 1) with
        | .error e => .error e
        | .ok (o, p) => .ok (controlEscape b ++ o, p)
      else
        match parseStringLoopF f data (pos + 1) with
        | .error e => .error e
        | .ok (o, p) => .ok (b :: o, p)

/-- `parser.parseString` (parser.go): expect an opening quote, then run the
body loop; on success the emission is quote, normalized content, quote. -/
def parseStringF (f : Nat) (data : List Nat) (pos : Nat) : Except Err (List Nat × Nat) :=
  match data.get? pos with
  | none => .error .ioEOF
  | some b =>
    if b == 34 then
      match parseStringLoopF f data (pos + 1) with
      | .error e => .error e
      | .ok (o, p) => .ok (34 :: o, p)
    else .error (synErr ("expected quote"))

mutual

/-- `parser.parseObject` (parser.go): increment depth, check the limit
before parsing the body, consume the brace, handle the empty object, then
parse the first pair and loop on separators. -/
def parseObjectF : Nat → List Nat → Nat → Nat → Options → Except Err (List Nat × Nat)
  | 0, _, _, _, _ => .error .outOfFuel
  | f + 1, data, pos, depth, opts =>
    if ((depth + 1 : Nat) : Int) ≥ opts.maxDepth then .error depthErr
    else
      match data.get? pos with
      | none => .error .ioEOF
      | some b =>
        if b == 123 then
          match skipWhitespaceF f data (pos + 1) with
          | .error e => .error e
          | .ok p1 =>
            match data.get? p1 with
            | none => .error .ioEOF
            | some c =>
              if c == 125 then .ok ([123, 125], p1 + 1)
              else
                match parseKeyValuePairF f data p1 (depth + 1) opts with
                | .error e => .error e
                | .ok (kv, p2) =>
                  match parseObjectLoopF f data p2 (depth + 1) opts with
                  | .error e => .error e
                  | .ok (rest, p3) => .ok (123 :: kv ++ rest, p3)
        else .error (synErr ("expected open brace"))
termination_by structural f => f

/-- Member loop of `parseObject` from its second iteration on: expect a
comma (parse another pair) or a closing brace. -/
def parseObjectLoopF : Nat → List Nat → Nat → Nat → Options → Except Err (List Nat × Nat)
  | 0, _, _, _, _ => .error .outOfFuel
  | f + 1, data, pos, depth, opts =>
    match skipWhitespaceF f data pos with
    | .error e => .error e
    | .ok p1 =>
      match data.get? p1 with
      | none => .error .ioEOF
      | some c =>
        if c == 125 then .ok ([125], p1 + 1)
        else if c == 44 then
          match parseKeyValuePairF f data (p1 + 1) depth opts with
          | .error e => .error e
          | .ok (kv, p2) =>
            match parseObjectLoopF f data p2 depth opts with
            | .error e => .error e
            | .ok (rest, p3) => .ok (44 :: kv ++ rest, p3)
        else .error (synErr ("expected comma or close brace"))
termination_by structural f => f

/-- `parser.parseArray` (parser.go): same shape as `parseObject` with
elements instead of pairs. -/
def parseArrayF : Nat → List Nat → Nat → Nat → Options → Except Err (List Nat × Nat)
  | 0, _, _, _, _ => .error .outOfFuel
  | f + 1, data, pos, depth, opts =>
    if ((depth + 1 : Nat) : Int) ≥ opts.maxDepth then .error depthErr
    else
      match data.get? pos with
      | none => .error .ioEOF
      | some b =>
        if b == 91 then
          match skipWhitespaceF f data (pos + 1) with
          | .error e => .error e
          | .ok p1 =>
            match data.get? p1 with
            | none => .error .ioEOF
            | some c =>
              if c == 93 then .ok ([91, 93], p1 + 1)
              else
                match parseElementF f data p1 (depth + 1) opts with
                | .error e => .error e
                | .ok (el, p2) =>
                  match parseArrayLoopF f data p2 (depth + 1) opts with
                  | .error e => .error e
                  | .ok (rest, p3) => .ok (91 :: el ++ rest, p3)
        else .error (synErr ("expected open bracket"))
termination_by structural f => f

/-- Element loop of `parseArray` from its second iteration on: expect a
comma (parse another element) or a closing bracket. -/
def parseArrayLoopF : Nat → List Nat → Nat → Nat → Options → Except Err (List Nat × Nat)
  | 0, _, _, _, _ => .error .outOfFuel
  | f + 1, data, pos, depth, opts =>
    match skipWhitespaceF f data pos with
    | .error e => .error e
    | .ok p1 =>
      match data.get? p1 with
      | none => .error .ioEOF
      | some c =>
        if c == 93 then .ok ([93], p1 + 1)
        else if c == 44 then
          match parseElementF f data (p1 + 1) depth opts with
          | .error e => .error e
          | .ok (el, p2) =>
            match parseArrayLoopF f data p2 depth opts with
            | .error e => .error e
            | .ok (rest, p3) => .ok (44 :: el ++ rest, p3)
        else .error (synErr ("expected comma or close bracket"))
termination_by structural f => f

/-- `parser.parseKeyValuePair` (parser.go): whitespace, string key,
whitespace, colon, whitespace, element value. -/
def parseKeyValuePairF : Nat → List Nat → Nat → Nat → Options → Except Err (List Nat × Nat)
  | 0, _, _, _, _ => .error .outOfFuel
  | f + 1, data, pos, depth, opts =>
    match skipWhitespaceF f data pos with
    | .error e => .error e
    | .ok p1 =>
      match parseStringF f data p1 with
      | .error e => .error e
      | .ok (key, p2) =>
        match skipWhitespaceF f data p2 with
        | .error e => .error e
        | .ok p3 =>
          match data.get? p3 with
          | none => .error .ioEOF
          | some c =>
            if c == 58 then
              match skipWhitespaceF f data (p3 + 1) with
              | .error e => .error e
              | .ok p4 =>
                match parseElementF f data p4 depth opts with
                | .error e => .error e
                | .ok (v, p5) => .ok (key ++ 58 :: v, p5)
            else .error (synErr ("expected colon"))
termination_by structural f => f

/-- `parser.parseElement` (parser.go): skip whitespace and dispatch on one
byte of lookahead. -/
def parseElementF : Nat → List Nat → Nat → Nat → Options → Except Err (List Nat × Nat)
  | 0, _, _, _, _ => .error .outOfFuel
  | f + 1, data, pos, depth, opts =>
    match skipWhitespaceF f data pos with
    | .error e => .error e
    | .ok p1 =>
      match data.get? p1 with
      | none => .error .ioEOF
      | some b =>
        if b == 123 then parseObjectF f data p1 depth opts
        else if b == 91 then parseArrayF f data p1 depth opts
        else if b == 34 then parseStringF f data p1
        else if b == 116 || b == 102 then parseBooleanF data p1
        else if b == 110 then parseNullF data p1
        else if (48 ≤ b && b ≤ 57) || b == 45 then parseNumberF f data p1
        else .error (synErr ("unexpected character"))
termination_by structural f => f

end

/-- `parser.parseValue` (parser.go): dispatch on the start byte found by
`findJSONStart`; the parser's depth was just reset to 0 by `parseNext`. -/
def parseValueF (f : Nat) (data : List Nat) (pos : Nat) (startByte : Nat)
    (opts : Options) : Except Err (List Nat × Nat) :=
  if startByte == 123 then parseObjectF f data pos 0 opts
  else if startByte == 91 then parseArrayF f data pos 0 opts
  else .error (synErr ("expected open brace or bracket"))

/-- `parser.parseNext` (parser.go): find the next JSON start, reset depth,
parse one complete value; the returned position is the scanner's cursor
after the value. -/
def parseNextF (f : Nat) (data : List Nat) (pos : Nat) (opts : Options) :
    Except Err (List Nat × Nat) :=
  match findJSONStartF f data pos with
  | .error e => .error e
  | .ok (b, p0) => parseValueF f data p0 b opts

/-- Fuel bound used by the batch entry points: ample for any input of the
given length (each unit of structural descent consumes input). -/
def fuelFor (data : List Nat) : Nat := 8 * data.length + 16

/-- `tryParseFromPosition` (parser.go): parse from `data[i:]` with a fresh
scanner and parser; scanning the suffix from 0 is scanning `data` from `i`. -/
def tryParseFromPosition (data : List Nat) (i : Nat) (opts : Options) :
    Except Err (List Nat × Nat) :=
  if data.length ≤ i then .error (eofErr ("empty data"))
  else parseNextF (fuelFor data) data i opts

/-- Length of the best candidate so far (`bestLength` in `parseLongest`). -/
def bestLen : Option (List Nat) → Nat
  | some o => o.length
  | none => 0

/-- Scan loop of `parseLongest` (parser.go lines 70-86): at each offset
holding an opening brace or bracket, try a parse; keep the strictly longest
re-emitted result; with custom options a depth error aborts the scan. -/
def parseLongestLoopF : Nat → List Nat → Options → Nat → Option (List Nat) →
    Except Err (Option (List Nat))
  | 0, _, _, _, _ => .error .outOfFuel
  | f + 1, data, opts, i, best =>
    if i < data.length then
      match data.get? i with
      | some b =>
        if b == 123 || b == 91 then
          match tryParseFromPosition data i opts with
          | .ok (out, _) =>
            if out.length > bestLen best then
              parseLongestLoopF f data opts (i + 1) (some out)
            else parseLongestLoopF f data opts (i + 1) best
          | .error e =>
            if hasCustomOptions opts && isDepthError e then .error e
            else parseLongestLoopF f data opts (i + 1) best
        else parseLongestLoopF f data opts (i + 1) best
      | none => parseLongestLoopF f data opts (i + 1) best
    else .ok best

/-- `parseLongest` (parser.go): run the scan; a surviving best candidate is
returned, otherwise InvalidJSON. -/
def parseLongest (data : List Nat) (opts : Options) : Except Err (List Nat) :=
  match parseLongestLoopF (data.length + 1) data opts 0 none with
  | .error e => .error e
  | .ok (some out) => .ok out
  | .ok none => .error (invErr ("no valid JSON found"))

/-! Unicode codec (unicode utility file, embedded from source). -/

/-- `isHighSurrogate`: 0xD800-0xDBFF. -/
def isHighSurrogate (r : Nat) : Bool := 0xD800 ≤ r && r ≤ 0xDBFF

/-- `isLowSurrogate`: 0xDC00-0xDFFF. -/
def isLowSurrogate (r : Nat) : Bool := 0xDC00 ≤ r && r ≤ 0xDFFF

/-- `isSurrogate`: 0xD800-0xDFFF. -/
def isSurrogate (r : Nat) : Bool := 0xD800 ≤ r && r ≤ 0xDFFF

/-- `isValidUnicodeCodePoint`: in range and not a surrogate (code points are
Nat here, so the Go `r < 0` branch cannot arise). -/
def isValidUnicodeCodePoint (r : Nat) : Bool := r ≤ 0x10FFFF && !isSurrogate r

/-- `decodeSurrogatePair`: combine a UTF-16 surrogate pair into a code
point, or the replacement rune 0xFFFD on invalid inputs. -/
def decodeSurrogatePair (high low : Nat) : Nat :=
  if !isHighSurrogate high || !isLowSurrogate low then 0xFFFD
  else 0x10000 + ((high - 0xD800) <<< 10) + (low - 0xDC00)

/-- Standard UTF-8 encoding of a valid Unicode scalar value (the
`utf8.EncodeRune` byte layout). -/
def utf8EncodeScalar (r : Nat) : List Nat :=
  if r < 0x80 then [r]
  else if r < 0x800 then [0xC0 ||| (r >>> 6), 0x80 ||| (r &&& 0x3F)]
  else if r < 0x10000 then
    [0xE0 ||| (r >>> 12), 0x80 ||| ((r >>> 6) &&& 0x3F), 0x80 ||| (r &&& 0x3F)]
  else
    [0xF0 ||| (r >>> 18), 0x80 ||| ((r >>> 12) &&& 0x3F),
     0x80 ||| ((r >>> 6) &&& 0x3F), 0x80 ||| (r &&& 0x3F)]

/-- `encodeUTF8Rune`: invalid code points become the U+FFFD replacement
bytes, valid ones their UTF-8 encoding.  This is also the behaviour of
`strings.Builder.WriteRune` / `utf8.EncodeRune` on invalid runes, used by
`decodeEscapeSequences` (unmarshal.go). -/
def encodeUTF8Rune (r : Nat) : List Nat :=
  if !isValidUnicodeCodePoint r then [0xEF, 0xBF, 0xBD]
  else utf8EncodeScalar r

/-! Escape processing (escape utility file, embedded from source). -/

/-- `hasEscapeSequences`: any backslash present. -/
def hasEscapeSequences (data : List Nat) : Bool := data.any (fun b => b == 92)

/-- Numeric value of a hex digit byte (both cases). -/
def hexVal (b : Nat) : Nat :=
  if 48 ≤ b && b ≤ 57 then b - 48
  else if 65 ≤ b && b ≤ 70 then b - 55
  else b - 87

/-- `strconv.ParseUint(_, 16, 16)` on exactly four bytes: some value iff
all four are hex digits. -/
def parseHex4 (hs : List Nat) : Option Nat :=
  match hs with
  | [h1, h2, h3, h4] =>
    if isHexDigit h1 && isHexDigit h2 && isHexDigit h3 && isHexDigit h4 then
      some (((hexVal h1 * 16 + hexVal h2) * 16 + hexVal h3) * 16 + hexVal h4)
    else none
  | _ => none

/-- `decodeUnicodeEscape`: exactly four bytes, all hex digits, value of the
hex string; errors are Escape errors. -/
def decodeUnicodeEscape (hex : List Nat) : Except Err Nat :=
  if hex.length != 4 then .error (escErr ("unicode escape must be 4 characters"))
  else if !(hex.all isHexDigit) then
    .error (escErr ("invalid hex character in unicode escape"))
  else
    match parseHex4 hex with
    | some v => .ok v
    | none => .error (escErr ("invalid unicode escape"))

/-- Four bytes of `data` starting at `pos` (the Go slice `data[pos:pos+4]`). -/
def slice4 (data : List Nat) (pos : Nat) : List Nat := (data.drop pos).take 4

/-- Loop of `processEscape` (escape utility file): decode every escape
sequence, combining surrogate pairs and rejecting lone surrogates. -/
def processEscapeLoopF : Nat → List Nat → Nat → Except Err (List Nat)
  | 0, _, _ => .error .outOfFuel
  | f + 1, data, pos =>
    match data.get? pos with
    | none => .ok []
    | some b =>
      if b != 92 then
        match processEscapeLoopF f data (pos + 1) with
        | .error e => .error e
        | .ok rest => .ok (b :: rest)
      else
        match data.get? (pos + 1) with
        | none => .error (escErr ("incomplete escape sequence"))
        | some c =>
          if c == 34 then
            match processEscapeLoopF f data (pos + 2) with
            | .error e => .error e
            | .ok rest => .ok (34 :: rest)
          else if c == 92 then
            match processEscapeLoopF f data (pos + 2) with
            | .error e => .error e
            | .ok rest => .ok (92 :: rest)
          else if c == 47 then
            match processEscapeLoopF f data (pos + 2) with
            | .error e => .error e
            | .ok rest => .ok (47 :: rest)
          else if c == 98 then
            match processEscapeLoopF f data (pos + 2) with
            | .error e => .error e
            | .ok rest => .ok (8 :: rest)
          else if c == 102 then
            match processEscapeLoopF f data (pos + 2) with
            | .error e => .error e
            | .ok rest => .ok (12 :: rest)
          else if c == 110 then
            match processEscapeLoopF f data (pos + 2) with
            | .error e => .error e
            | .ok rest => .ok (10 :: rest)
          else if c == 114 then
            match processEscapeLoopF f data (pos + 2) with
            | .error e => .error e
            | .ok rest => .ok (13 :: rest)
          else if c == 116 then
            match processEscapeLoopF f data (pos + 2) with
            | .error e => .error e
            | .ok rest => .ok (9 :: rest)
          else if c == 117 then
            if data.length ≤ pos + 5 then
              .error (escErr ("incomplete unicode escape sequence"))
            else
              match decodeUnicodeEscape (slice4 data (pos + 2)) with
              | .error _ => .error (escErr ("invalid unicode escape sequence"))
              | .ok r =>
                if isHighSurrogate r then
                  if data.length ≤ pos + 11 ∨ data.get? (pos + 6) != some 92 ∨
                      data.get? (pos + 7) != some 117 then
                    .error (escErr ("incomplete surrogate pair"))
                  else
                    match decodeUnicodeEscape (slice4 data (pos + 8)) with
                    | .error _ => .error (escErr ("invalid low surrogate"))
                    | .ok lowR =>
                      if !isLowSurrogate lowR then
                        .error (escErr ("invalid surrogate pair"))
                      else
                        match processEscapeLoopF f data (pos + 12) with
                        | .error e => .error e
                        | .ok rest =>
                          .ok (encodeUTF8Rune (decodeSurrogatePair r lowR) ++ rest)
                else if isLowSurrogate r then
                  .error (escErr ("unexpected low surrogate"))
                else
                  match processEscapeLoopF f data (pos + 6) with
                  | .error e => .error e
                  | .ok rest => .ok (encodeUTF8Rune r ++ rest)
          else .error (escErr ("invalid escape character"))

/-- `processEscape` (escape utility file): fast path when no backslash is
present, otherwise run the decoding loop. -/
def processEscape (data : List Nat) : Except Err (List Nat) :=
  if data.length == 0 then .ok data
  else if !hasEscapeSequences data then .ok data
  else processEscapeLoopF (data.length + 1) data 0

/-- `strings.ToUpper(strconv.FormatUint(b,16))` for b < 0x20: one or two
uppercase hex digits, no zero padding. -/
def hexUpperNoPad (b : Nat) : List Nat :=
  if b < 16 then [hexDigitUpper b] else [49, hexDigitUpper (b - 16)]

/-- Per-byte encoding of `encodeEscape` (escape utility file). -/
def encodeEscapeByte (b : Nat) : List Nat :=
  if b == 34 then [92, 34]
  else if b == 92 then [92, 92]
  else if b == 8 then [92, 98]
  else if b == 12 then [92, 102]
  else if b == 10 then [92, 110]
  else if b == 13 then [92, 114]
  else if b == 9 then [92, 116]
  else if b < 32 then 92 :: 117 :: hexUpperNoPad b
  else [b]

/-- `encodeEscape` (escape utility file): escape special characters byte by
byte. -/
def encodeEscape : List Nat → List Nat
  | [] => []
  | b :: rest => encodeEscapeByte b ++ encodeEscape rest

/-! Leaf re-decoding pass (unmarshal.go). -/

/-- Loop of `decodeEscapeSequences` (unmarshal.go): re-decode residual
backslash sequences in an already-deserialized string, combining
surrogate-pair `\uXXXX` escapes and writing invalid (lone-surrogate)
code units as U+FFFD, exactly as `strings.Builder.WriteRune` does.
Bytes that do not begin a recognized sequence are copied verbatim. -/
def decEscLoopF : Nat → List Nat → Nat → List Nat
  | 0, _, _ => []
  | f + 1, s, i =>
    match s.get? i with
    | none => []
    | some b =>
      if b == 92 && i + 1 < s.length then
        match s.get? (i + 1) with
        | none => b :: decEscLoopF f s (i + 1)
        | some c =>
          if c == 34 then 34 :: decEscLoopF f s (i + 2)
          else if c == 92 then 92 :: decEscLoopF f s (i + 2)
          else if c == 47 then 47 :: decEscLoopF f s (i + 2)
          else if c == 98 then 8 :: decEscLoopF f s (i + 2)
          else if c == 102 then 12 :: decEscLoopF f s (i + 2)
          else if c == 110 then 10 :: decEscLoopF f s (i + 2)
          else if c == 114 then 13 :: decEscLoopF f s (i + 2)
          else if c == 116 then 9 :: decEscLoopF f s (i + 2)
          else if c == 117 then
            if i + 5 < s.length then
              match parseHex4 (slice4 s (i + 2)) with
              | some cp =>
                if 0xD800 ≤ cp && cp ≤ 0xDBFF && i + 11 < s.length &&
                    s.get? (i + 6) == some 92 && s.get? (i + 7) == some 117 then
                  match parseHex4 (slice4 s (i + 8)) with
                  | some lcp =>
                    if 0xDC00 ≤ lcp && lcp ≤ 0xDFFF then
                      encodeUTF8Rune (0x10000 + ((cp &&& 0x3FF) <<< 10) + (lcp &&& 0x3FF)) ++
                        decEscLoopF f s (i + 12)
                    else encodeUTF8Rune cp ++ decEscLoopF f s (i + 6)
                  | none => encodeUTF8Rune cp ++ decEscLoopF f s (i + 6)
                else encodeUTF8Rune cp ++ decEscLoopF f s (i + 6)
              | none => b :: decEscLoopF f s (i + 1)
            else b :: decEscLoopF f s (i + 1)
          else b :: decEscLoopF f s (i + 1)
      else b :: decEscLoopF f s (i + 1)

/-- `decodeEscapeSequences` (unmarshal.go). -/
def decodeEscapeSequences (s : List Nat) : List Nat :=
  decEscLoopF (s.length + 1) s 0

/-! Generic value model delivered to callers.  Go deserializes into
`map[string]interface{}` / `[]interface{}` trees; mutual inductives stand
in for the dynamic typing. -/

mutual

inductive JVal where
  | str : List Nat → JVal
  | num : List Nat → JVal
  | boolean : Bool → JVal
  | null : JVal
  | obj : JMembers → JVal
  | arr : JElems → JVal

inductive JMembers where
  | nil : JMembers
  | cons : List Nat → JVal → JMembers → JMembers

inductive JElems where
  | nil : JElems
  | cons : JVal → JElems → JElems

end

/-- First member bound to a key (observer for stating results). -/
def jMembersLookup : JMembers → List Nat → Option JVal
  | .nil, _ => none
  | .cons k v rest, key => if k == key then some v else jMembersLookup rest key

/-- Field observer on a value. -/
def jField (v : JVal) (key : List Nat) : Option JVal :=
  match v with
  | .obj ms => jMembersLookup ms key
  | _ => none

/-- String-leaf observer. -/
def jStr : JVal → Option (List Nat)
  | .str s => some s
  | _ => none

/-- Observable string field of an extraction result: what a caller reads
from the decoded map under `key`. -/
def obsField (r : Except Err JVal) (key : List Nat) : Option (List Nat) :=
  match r with
  | .ok v => (jField v key).bind jStr
  | .error _ => none

mutual

/-- `processEscapeSequences` (unmarshal.go): recursively walk map values
and slice elements; string leaves get `decodeEscapeSequences`, nested
containers are walked, everything else is untouched. -/
def escNormalize : JVal → JVal
  | .obj ms => .obj (escNormMembers ms)
  | .arr es => .arr (escNormElems es)
  | v => v

def escNormMembers : JMembers → JMembers
  | .nil => .nil
  | .cons k (.str s) rest => .cons k (.str (decodeEscapeSequences s)) (escNormMembers rest)
  | .cons k v rest => .cons k (escNormalize v) (escNormMembers rest)

def escNormElems : JElems → JElems
  | .nil => .nil
  | .cons (.str s) rest => .cons (.str (decodeEscapeSequences s)) (escNormElems rest)
  | .cons v rest => .cons (escNormalize v) (escNormElems rest)

end

/-! External standard deserializer, modelled from the spec. -/

/-- Whitespace of the JSON grammar (RFC 8259). -/
def stdIsWS (b : Nat) : Bool := b == 32 || b == 9 || b == 10 || b == 13

/-- Position after skipping grammar whitespace (never fails). -/
def stdSkipWs (data : List Nat) (pos : Nat) : Nat :=
  pos + ((data.drop pos).takeWhile stdIsWS).length

/-- Digit byte. -/
def isDigit (b : Nat) : Bool := 48 ≤ b && b ≤ 57

/-- Length of the digit run starting at `pos`. -/
def digitRun (data : List Nat) (pos : Nat) : Nat :=
  ((data.drop pos).takeWhile isDigit).length

/-- Fraction and exponent parts of the standard number production. -/
def stdNumberFrac (data : List Nat) (ip : Nat) : Except Err Nat :=
  let fp :=
    if data.get? ip == some 46 then
      if digitRun data (ip + 1) == 0 then none
      else some (ip + 1 + digitRun data (ip + 1))
    else some ip
  match fp with
  | none => .error .stdlibErr
  | some fpos =>
    if data.get? fpos == some 101 ∨ data.get? fpos == some 69 then
      let sp :=
        if data.get? (fpos + 1) == some 43 ∨ data.get? (fpos + 1) == some 45 then fpos + 2
        else fpos + 1
      if digitRun data sp == 0 then .error .stdlibErr
      else .ok (sp + digitRun data sp)
    else .ok fpos

/-- Modelled from the spec: number production of the RFC 8259 grammar as
accepted by the external standard JSON deserializer (spec section 6,
"generic JSON value deserializer"; the deserializer itself is not part of
this repository's source).  `-? (0 | [1-9][0-9]*) (. [0-9]+)? ([eE][+-]?[0-9]+)?`. -/
def stdNumberEnd (data : List Nat) (pos : Nat) : Except Err Nat :=
  let p1 := if data.get? pos == some 45 then pos + 1 else pos
  match data.get? p1 with
  | none => .error .stdlibErr
  | some d =>
    if d == 48 then stdNumberFrac data (p1 + 1)
    else if isDigit d then stdNumberFrac data (p1 + digitRun data p1)
    else .error .stdlibErr

/-- Modelled from the spec: string decoding of the external standard JSON
deserializer (spec sections 4.2 and 6): escapes are decoded once per RFC
8259, `\uXXXX` pairs of surrogates are combined with the spec 4.2 formula,
and an invalid (lone) surrogate code unit is written as the U+FFFD
replacement bytes per the spec 4.2 encode rule, matching the lenient
behaviour of Go's `encoding/json`.  Raw control bytes are rejected; other
raw bytes are copied. -/
def stdStrLoopF : Nat → List Nat → Nat → Except Err (List Nat × Nat)
  | 0, _, _ => .error .outOfFuel
  | f + 1, data, pos =>
    match data.get? pos with
    | none => .error .stdlibErr
    | some b =>
      if b == 34 then .ok ([], pos + 1)
      else if b == 92 then
        match data.get? (pos + 1) with
        | none => .error .stdlibErr
        | some c =>
          if c == 34 then
            match stdStrLoopF f data (pos + 2) with
            | .error e => .error e
            | .ok (o, p) => .ok (34 :: o, p)
          else if c == 92 then
            match stdStrLoopF f data (pos + 2) with
            | .error e => .error e
            | .ok (o, p) => .ok (92 :: o, p)
          else if c == 47 then
            match stdStrLoopF f data (pos + 2) with
            | .error e => .error e
            | .ok (o, p) => .ok (47 :: o, p)
          else if c == 98 then
            match stdStrLoopF f data (pos + 2) with
            | .error e => .error e
            | .ok (o, p) => .ok (8 :: o, p)
          else if c == 102 then
            match stdStrLoopF f data (pos + 2) with
            | .error e => .error e
            | .ok (o, p) => .ok (12 :: o, p)
          else if c == 110 then
            match stdStrLoopF f data (pos + 2) with
            | .error e => .error e
            | .ok (o, p) => .ok (10 :: o, p)
          else if c == 114 then
            match stdStrLoopF f data (pos + 2) with
            | .error e => .error e
            | .ok (o, p) => .ok (13 :: o, p)
          else if c == 116 then
            match stdStrLoopF f data (pos + 2) with
            | .error e => .error e
            | .ok (o, p) => .ok (9 :: o, p)
          else if c == 117 then
            match parseHex4 (slice4 data (pos + 2)) with
            | none => .error .stdlibErr
            | some cp =>
              if isHighSurrogate cp && data.get? (pos + 6) == some 92 &&
                  data.get? (pos + 7) == some 117 then
                match parseHex4 (slice4 data (pos + 8)) with
                | some lcp =>
                  if isLowSurrogate lcp then
                    match stdStrLoopF f data (pos + 12) with
                    | .error e => .error e
                    | .ok (o, p) =>
                      .ok (encodeUTF8Rune (0x10000 + ((cp - 0xD800) <<< 10) + (lcp - 0xDC00)) ++ o, p)
                  else
                    match stdStrLoopF f data (pos + 6) with
                    | .error e => .error e
                    | .ok (o, p) => .ok (encodeUTF8Rune cp ++ o, p)
                | none =>
                  match stdStrLoopF f data (pos + 6) with
                  | .error e => .error e
                  | .ok (o, p) => .ok (encodeUTF8Rune cp ++ o, p)
              else
                match stdStrLoopF f data (pos + 6) with
                | .error e => .error e
                | .ok (o, p) => .ok (encodeUTF8Rune cp ++ o, p)
          else .error .stdlibErr
      else if b < 32 then .error .stdlibErr
      else
        match stdStrLoopF f data (pos + 1) with
        | .error e => .error e
        | .ok (o, p) => .ok (b :: o, p)

/-- A standard string literal starting at `pos` (must be a quote). -/
def stdStringF (f : Nat) (data : List Nat) (pos : Nat) : Except Err (List Nat × Nat) :=
  if data.get? pos == some 34 then stdStrLoopF f data (pos + 1)
  else .error .stdlibErr

/-- Expect exact literal bytes. -/
def stdLit (data : List Nat) (pos : Nat) : List Nat → Except Err Nat
  | [] => .ok pos
  | c :: rest =>
    if data.get? pos == some c then stdLit data (pos + 1) rest
    else .error .stdlibErr

mutual

/-- Modelled from the spec: value production of the external standard JSON
deserializer (spec section 6): any RFC 8259 value, one byte of lookahead. -/
def stdValueF : Nat → List Nat → Nat → Except Err (JVal × Nat)
  | 0, _, _ => .error .outOfFuel
  | f + 1, data, pos =>
    match data.get? pos with
    | none => .error .stdlibErr
    | some b =>
      if b == 123 then
        let p1 := stdSkipWs data (pos + 1)
        if data.get? p1 == some 125 then .ok (.obj .nil, p1 + 1)
        else
          match stdMembersF f data p1 with
          | .error e => .error e
          | .ok (ms, p) => .ok (.obj ms, p)
      else if b == 91 then
        let p1 := stdSkipWs data (pos + 1)
        if data.get? p1 == some 93 then .ok (.arr .nil, p1 + 1)
        else
          match stdElemsF f data p1 with
          | .error e => .error e
          | .ok (es, p) => .ok (.arr es, p)
      else if b == 34 then
        match stdStringF f data pos with
        | .error e => .error e
        | .ok (s, p) => .ok (.str s, p)
      else if b == 116 then
        match stdLit data pos [116, 114, 117, 101] with
        | .error e => .error e
        | .ok p => .ok (.boolean true, p)
      else if b == 102 then
        match stdLit data pos [102, 97, 108, 115, 101] with
        | .error e => .error e
        | .ok p => .ok (.boolean false, p)
      else if b == 110 then
        match stdLit data pos [110, 117, 108, 108] with
        | .error e => .error e
        | .ok p => .ok (.null, p)
      else if b == 45 ∨ isDigit b then
        match stdNumberEnd data pos with
        | .error e => .error e
        | .ok p => .ok (.num ((data.drop pos).take (p - pos)), p)
      else .error .stdlibErr
termination_by structural f => f

/-- Members of a non-empty standard object: key, colon, value, then comma
or closing brace. -/
def stdMembersF : Nat → List Nat → Nat → Except Err (JMembers × Nat)
  | 0, _, _ => .error .outOfFuel
  | f + 1, data, pos =>
    match stdStringF f data pos with
    | .error e => .error e
    | .ok (key, p1) =>
      let p2 := stdSkipWs data p1
      if data.get? p2 == some 58 then
        let p3 := stdSkipWs data (p2 + 1)
        match stdValueF f data p3 with
        | .error e => .error e
        | .ok (v, p4) =>
          let p5 := stdSkipWs data p4
          if data.get? p5 == some 44 then
            match stdMembersF f data (stdSkipWs data (p5 + 1)) with
            | .error e => .error e
            | .ok (rest, p6) => .ok (.cons key v rest, p6)
          else if data.get? p5 == some 125 then .ok (.cons key v .nil, p5 + 1)
          else .error .stdlibErr
      else .error .stdlibErr
termination_by structural f => f

/-- Elements of a non-empty standard array. -/
def stdElemsF : Nat → List Nat → Nat → Except Err (JElems × Nat)
  | 0, _, _ => .error .outOfFuel
  | f + 1, data, pos =>
    match stdValueF f data pos with
    | .error e => .error e
    | .ok (v, p1) =>
      let p2 := stdSkipWs data p1
      if data.get? p2 == some 44 then
        match stdElemsF f data (stdSkipWs data (p2 + 1)) with
        | .error e => .error e
        | .ok (rest, p3) => .ok (.cons v rest, p3)
      else if data.get? p2 == some 93 then .ok (.cons v .nil, p2 + 1)
      else .error .stdlibErr
termination_by structural f => f

end

/-- Modelled from the spec: the external standard JSON deserializer
(`json.Unmarshal` of the host standard library, spec section 6): one value
surrounded only by whitespace; anything else is an error foreign to this
package. -/
def stdParse (data : List Nat) : Except Err JVal :=
  match stdValueF (8 * data.length + 16) data (stdSkipWs data 0) with
  | .error e => .error e
  | .ok (v, p) => if stdSkipWs data p == data.length then .ok v else .error .stdlibErr

/-! Batch and streaming entry points (unmarshal.go, decoder file). -/

/-- Go-space bytes trimmed by `bytes.TrimSpace` (ASCII subset: the inputs
considered here are ASCII). -/
def isGoSpace (b : Nat) : Bool :=
  b == 32 || b == 9 || b == 10 || b == 11 || b == 12 || b == 13

/-- `bytes.TrimSpace`. -/
def trimSpace (data : List Nat) : List Nat :=
  ((data.dropWhile isGoSpace).reverse.dropWhile isGoSpace).reverse

/-- Robust path of `Unmarshal` (unmarshal.go lines 34-48): longest-match
extraction, standard decode of the extracted bytes, then the leaf
re-decoding pass. -/
def unmarshalRobust (data : List Nat) (opts : Options) : Except Err JVal :=
  match parseLongest data opts with
  | .error e => .error e
  | .ok jsonBytes =>
    match stdParse jsonBytes with
    | .error e => .error e
    | .ok v => .ok (escNormalize v)

/-- `Unmarshal` (unmarshal.go): empty-input check; fast path under fully
default configuration when the whitespace-trimmed input is unchanged and
starts with a brace or bracket (a failed fast parse falls through); then
the robust path. -/
def unmarshalModel (data : List Nat) (opts : Options) : Except Err JVal :=
  if data.length == 0 then .error (invErr ("empty input data"))
  else
    let fast : Option JVal :=
      if opts.maxDepth == 1000 && opts.bufferSize == 4096 then
        let trimmed := trimSpace data
        if 0 < trimmed.length &&
            (trimmed.get? 0 == some 123 || trimmed.get? 0 == some 91) then
          if trimmed == data then
            match stdParse trimmed with
            | .ok v => some v
            | .error _ => none
          else none
        else none
      else none
    match fast with
    | some v => .ok v
    | none => unmarshalRobust data opts

/-- `Decoder.Decode` (decoder file): extract the next complete value with
`parseNext`, then decode the re-emitted bytes with the standard
deserializer; the position is the scanner's cursor for the next call. -/
def decoderDecode (data : List Nat) (pos : Nat) (opts : Options) :
    Except Err (JVal × Nat) :=
  match parseNextF (fuelFor data) data pos opts with
  | .error e => .error e
  | .ok (bs, p) =>
    match stdParse bs with
    | .error e => .error e
    | .ok v => .ok (v, p)

/-! Canonical inputs used in the theorems. -/

/-- A value nested to depth N: N opening brackets followed by N closing
brackets. -/
def nestBytes (n : Nat) : List Nat := List.replicate n 91 ++ List.replicate n 93

/-- `junk {"a":1} noise [1,2] end` as bytes. -/
def streamEx : List Nat :=
  [106, 117, 110, 107, 32, 123, 34, 97, 34, 58, 49, 125, 32,
   110, 111, 105, 115, 101, 32, 91, 49, 44, 50, 93, 32, 101, 110, 100]

/-- `{"a":"\\n"}` as bytes: a member whose RFC-decoded value is backslash
then `n`. -/
def escEx : List Nat := [123, 34, 97, 34, 58, 34, 92, 92, 110, 34, 125]

/-- `x {"a":"\\n"}` as bytes: the same member behind leading noise, forcing
the robust path. -/
def escExNoisy : List Nat := 120 :: 32 :: escEx

/-- `x {"t":"\uD800"}` as bytes: a lone high surrogate escape behind noise. -/
def loneSurEx : List Nat :=
  [120, 32, 123, 34, 116, 34, 58, 34, 92, 117, 68, 56, 48, 48, 34, 125]

/-- `{"t":"😀"}` as bytes: a surrogate-pair escape. -/
def emojiEx : List Nat :=
  [123, 34, 116, 34, 58, 34, 92, 117, 68, 56, 51, 68, 92, 117, 68, 69, 48, 48, 34, 125]

/-! Observers used to state properties of the scan loop and of value trees. -/

/-- Candidate offset: the byte there is an opening brace or bracket
(glossary "Candidate" of the spec; the loop guard of `parseLongest`). -/
def isCand (data : List Nat) (i : Nat) : Bool :=
  match data.get? i with
  | some b => b == 123 || b == 91
  | none => false

/-- Re-emitted bytes of the candidate parse at offset `i`, when it succeeds. -/
def candOut (data : List Nat) (opts : Options) (i : Nat) : Option (List Nat) :=
  match tryParseFromPosition data i opts with
  | .ok (out, _) => some out
  | .error _ => none

/-- Whether the candidate parse at offset `i` fails with the depth error. -/
def candDepthErr (data : List Nat) (opts : Options) (i : Nat) : Bool :=
  match tryParseFromPosition data i opts with
  | .ok _ => false
  | .error e => isDepthError e

/-- Backslash-free byte string. -/
def noBackslash (s : List Nat) : Bool := s.all (fun b => b != 92)

mutual

/-- All string leaves sitting in member/element position are backslash
free (after the single standard decode). -/
def cleanLeaves : JVal → Bool
  | .obj ms => cleanMembers ms
  | .arr es => cleanElems es
  | _ => true

def cleanMembers : JMembers → Bool
  | .nil => true
  | .cons _ (.str s) rest => noBackslash s && cleanMembers rest
  | .cons _ v rest => cleanLeaves v && cleanMembers rest

def cleanElems : JElems → Bool
  | .nil => true
  | .cons (.str s) rest => noBackslash s && cleanElems rest
  | .cons v rest => cleanLeaves v && cleanElems rest

end

/-- Uppercase 4-digit hex text of a 16-bit value. -/
def toHex4 (v : Nat) : List Nat :=
  [hexDigitUpper (v / 4096 % 16), hexDigitUpper (v / 256 % 16),
   hexDigitUpper (v / 16 % 16), hexDigitUpper (v % 16)]

/-- Invariant of the `parseLongest` scan after the offsets below `i` have
been visited: an empty best means no visited candidate produced a
non-empty re-emission, and a held best is the earliest candidate of
maximal re-emitted length among the visited ones. -/
def longestInv (data : List Nat) (opts : Options) (i : Nat) :
    Option (List Nat) → Prop
  | none => ∀ j, j < i → isCand data j = true →
      ∀ o', candOut data opts j = some o' → o'.length = 0
  | some o => ∃ j, j < i ∧ isCand data j = true ∧ candOut data opts j = some o ∧
      (∀ k, k < i → isCand data k = true → ∀ o', candOut data opts k = some o' →
        o'.length ≤ o.length) ∧
      (∀ k, k < j → isCand data k = true → ∀ o', candOut data opts k = some o' →
        o'.length < o.length)

/-! Canonical serialization of a value, mirroring the parser's re-emission:
no whitespace, keys and string leaves quoted verbatim, members and elements
separated by commas.  Used to state the depth-limit law for every value
shape. -/

mutual

/-- Canonical byte serialization of a value (identical to the parser's
re-emission of itself). -/
def emitVal : JVal → List Nat
  | .str s => 34 :: s ++ [34]
  | .num s => s
  | .boolean b => if b then [116, 114, 117, 101] else [102, 97, 108, 115, 101]
  | .null => [110, 117, 108, 108]
  | .obj ms => 123 :: emitObjBody ms
  | .arr es => 91 :: emitArrBody es

/-- Bytes of an object after the opening brace. -/
def emitObjBody : JMembers → List Nat
  | .nil => [125]
  | .cons k v ms => (34 :: k ++ 34 :: 58 :: emitVal v) ++ emitMembersLoop ms

/-- Bytes of an object after its first member: comma-led members, then the
closing brace (the loop part of `parseObject`). -/
def emitMembersLoop : JMembers → List Nat
  | .nil => [125]
  | .cons k v ms => 44 :: (34 :: k ++ 34 :: 58 :: emitVal v) ++ emitMembersLoop ms

/-- Bytes of an array after the opening bracket. -/
def emitArrBody : JElems → List Nat
  | .nil => [93]
  | .cons e es => emitVal e ++ emitElemsLoop es

/-- Bytes of an array after its first element: comma-led elements, then the
closing bracket (the loop part of `parseArray`). -/
def emitElemsLoop : JElems → List Nat
  | .nil => [93]
  | .cons e es => 44 :: emitVal e ++ emitElemsLoop es

end

mutual

/-- Nesting depth of a value: 0 for leaves, one more than the deepest
child for objects and arrays (`[]` and `\x7b\x7d` have depth 1). -/
def depthVal : JVal → Nat
  | .str _ => 0
  | .num _ => 0
  | .boolean _ => 0
  | .null => 0
  | .obj ms => 1 + depthMembers ms
  | .arr es => 1 + depthElems es

def depthMembers : JMembers → Nat
  | .nil => 0
  | .cons _ v ms => max (depthVal v) (depthMembers ms)

def depthElems : JElems → Nat
  | .nil => 0
  | .cons e es => max (depthVal e) (depthElems es)

end

/-- String bytes the parser re-emits verbatim and the scanner never takes
for a candidate: printable ASCII without quote, backslash, opening brace or
opening bracket. -/
def wfStrBytes (s : List Nat) : Bool :=
  s.all (fun b => 32 ≤ b && b ≤ 127 && b != 34 && b != 92 && b != 123 && b != 91)

/-- Nonempty all-digit number text. -/
def wfNumBytes (s : List Nat) : Bool :=
  !s.isEmpty && s.all (fun b => 48 ≤ b && b ≤ 57)

mutual

/-- Well-formed value for the canonical serialization: string leaves and
keys over `wfStrBytes`, digit-run numbers, anything for the other leaves. -/
def wfVal : JVal → Bool
  | .str s => wfStrBytes s
  | .num s => wfNumBytes s
  | .boolean _ => true
  | .null => true
  | .obj ms => wfMembers ms
  | .arr es => wfElems es

def wfMembers : JMembers → Bool
  | .nil => true
  | .cons k v ms => wfStrBytes k && wfVal v && wfMembers ms

def wfElems : JElems → Bool
  | .nil => true
  | .cons e es => wfVal e && wfElems es

end

/-- Objects and arrays: the values whose serialization starts with an
opening brace or bracket. -/
def isContainer : JVal → Bool
  | .obj _ => true
  | .arr _ => true
  | _ => false

/-- Bytes holding no opening brace and no opening bracket: no offset of
such a run is a candidate for the scan. -/
def braceFreeBytes (s : List Nat) : Bool := s.all (fun b => b != 123 && b != 91)

/-- Every opening brace or bracket of `l` starts the serialization of a
well-formed container of depth at most `D`, followed by at least `t` more
bytes.  Instantiated with the full scanned input, this says every scan
candidate parses a complete sub-value lying inside the planted value. -/
def subEmissionsAt (D t : Nat) (l : List Nat) : Prop :=
  ∀ j b, l.get? j = some b → b = 123 ∨ b = 91 →
    ∃ u r, wfVal u = true ∧ isContainer u = true ∧ depthVal u ≤ D ∧
      l.drop j = emitVal u ++ r ∧ t ≤ r.length

/-! Helper lemmas. -/

theorem hexDigitUpper_val (n : Nat) (h : n < 16) : hexVal (hexDigitUpper n) = n := by
  simp only [hexVal, hexDigitUpper]
  split_ifs <;> simp_all <;> omega

theorem hexDigitUpper_isHex (n : Nat) (h : n < 16) : isHexDigit (hexDigitUpper n) = true := by
  simp only [isHexDigit, hexDigitUpper]
  split_ifs <;> simp_all <;> omega

theorem parseHex4_toHex4 (v : Nat) (h : v < 65536) : parseHex4 (toHex4 v) = some v := by
  have h1 : v / 4096 % 16 < 16 := Nat.mod_lt _ (by norm_num)
  have h2 : v / 256 % 16 < 16 := Nat.mod_lt _ (by norm_num)
  have h3 : v / 16 % 16 < 16 := Nat.mod_lt _ (by norm_num)
  have h4 : v % 16 < 16 := Nat.mod_lt _ (by norm_num)
  simp only [toHex4, parseHex4, hexDigitUpper_isHex _ h1, hexDigitUpper_isHex _ h2,
    hexDigitUpper_isHex _ h3, hexDigitUpper_isHex _ h4, Bool.and_self, if_true,
    hexDigitUpper_val _ h1, hexDigitUpper_val _ h2, hexDigitUpper_val _ h3,
    hexDigitUpper_val _ h4]
  congr 1
  omega

theorem toHex4_isHex (v : Nat) : (toHex4 v).all isHexDigit = true := by
  have h1 : v / 4096 % 16 < 16 := Nat.mod_lt _ (by norm_num)
  have h2 : v / 256 % 16 < 16 := Nat.mod_lt _ (by norm_num)
  have h3 : v / 16 % 16 < 16 := Nat.mod_lt _ (by norm_num)
  have h4 : v % 16 < 16 := Nat.mod_lt _ (by norm_num)
  simp [toHex4, List.all, hexDigitUpper_isHex _ h1, hexDigitUpper_isHex _ h2,
    hexDigitUpper_isHex _ h3, hexDigitUpper_isHex _ h4]

theorem decodeUnicodeEscape_toHex4 (v : Nat) (h : v < 65536) :
    decodeUnicodeEscape (toHex4 v) = .ok v := by
  have hlen : (toHex4 v).length = 4 := by simp [toHex4]
  simp only [decodeUnicodeEscape, hlen, toHex4_isHex, parseHex4_toHex4 v h]
  norm_num

theorem land_1023_eq_mod (h : Nat) : h &&& 0x3FF = h % 1024 := by
  have : (0x3FF : Nat) = 2 ^ 10 - 1 := by norm_num
  rw [this, Nat.and_pow_two_sub_one_eq_mod]

/-!
C9. The surrogate-combination formula.  `decodeSurrogatePair` (unicode
utility file) uses the subtraction form of the spec, `decodeEscapeSequences`
(unmarshal.go) the bit-mask form; on surrogate inputs they agree, and the
grinning-face example decodes to U+1F600.
-/

/-- C9: for every high surrogate h immediately followed by a low surrogate
l, the decoded combined code point equals 0x10000 + ((h - 0xD800) << 10) +
(l - 0xDC00); the mask form used by the leaf re-decoder computes the same
value; and extracting `{"t":"😀"}` delivers field t as the single
code point U+1F600 (UTF-8 bytes F0 9F 98 80), also through the residual
leaf re-decoder. -/
theorem surrogate_pair_formula :
    (∀ h l : Nat, isHighSurrogate h = true → isLowSurrogate l = true →
      decodeSurrogatePair h l = 0x10000 + ((h - 0xD800) <<< 10) + (l - 0xDC00)
      ∧ 0x10000 + ((h &&& 0x3FF) <<< 10) + (l &&& 0x3FF) = decodeSurrogatePair h l)
    ∧ obsField (unmarshalModel emojiEx defaultOptions) [116] = some [240, 159, 152, 128]
    ∧ decodeEscapeSequences [92, 117, 68, 56, 51, 68, 92, 117, 68, 69, 48, 48] =
        [240, 159, 152, 128] := by
  refine ⟨fun h l hh hl => ?_, rfl, rfl⟩
  have hh' : 0xD800 ≤ h ∧ h ≤ 0xDBFF := by
    simpa [isHighSurrogate, Bool.and_eq_true, decide_eq_true_eq] using hh
  have hl' : 0xDC00 ≤ l ∧ l ≤ 0xDFFF := by
    simpa [isLowSurrogate, Bool.and_eq_true, decide_eq_true_eq] using hl
  have hd : decodeSurrogatePair h l = 0x10000 + ((h - 0xD800) <<< 10) + (l - 0xDC00) := by
    simp [decodeSurrogatePair, hh, hl]
  refine ⟨hd, ?_⟩
  rw [hd, land_1023_eq_mod h, land_1023_eq_mod l, Nat.shiftLeft_eq, Nat.shiftLeft_eq]
  have e1 : h % 1024 = h - 0xD800 := by omega
  have e2 : l % 1024 = l - 0xDC00 := by omega
  rw [e1, e2]

/-- Witness for C9 at the concrete surrogate pair D83D/DE00. -/
theorem surrogate_pair_formula_witness :
    decodeSurrogatePair 0xD83D 0xDE00 =
      0x10000 + ((0xD83D - 0xD800) <<< 10) + (0xDE00 - 0xDC00) :=
  ((surrogate_pair_formula.1 0xD83D 0xDE00 (by decide) (by decide)).1)

/-!
C10. Explicitly passing the default option values is indistinguishable
from passing no options: `applyOptions` compares nothing to "was an option
passed", only the resulting record matters, and `WithMaxDepth 1000` /
`WithBufferSize 4096` rebuild exactly the default record, so the fast path
stays enabled and `hasCustomOptions` stays false.
-/

/-- C10: `Unmarshal(data, v, WithMaxDepth(1000), WithBufferSize(4096))`
behaves identically to `Unmarshal(data, v)`: the option records coincide,
so the fast path is still attempted and the scan still swallows
per-candidate depth errors (`hasCustomOptions` is false). -/
theorem explicit_default_options_identity :
    applyOptions [withMaxDepth 1000, withBufferSize 4096] = applyOptions []
    ∧ hasCustomOptions (applyOptions [withMaxDepth 1000, withBufferSize 4096]) = false
    ∧ (∀ data, unmarshalModel data (applyOptions [withMaxDepth 1000, withBufferSize 4096]) =
        unmarshalModel data (applyOptions []))
    ∧ (∀ data, parseLongest data (applyOptions [withMaxDepth 1000, withBufferSize 4096]) =
        parseLongest data (applyOptions [])) :=
  ⟨rfl, rfl, fun _ => rfl, fun _ => rfl⟩

/-!
C2. The fast path changes observable results.  On the clean input
`{"a":"\\n"}` the fast path (standard deserializer) delivers the
RFC-correct two characters backslash, n, while the robust path re-decodes
the leaf a second time and would deliver a newline: the two paths disagree,
so the fast path is not observationally transparent.
-/

/-- C2: on `{"a":"\\n"}` (default configuration, trimmed input unchanged,
starts with a brace) the fast path is taken and yields field a = [92, 110],
while the robust extraction path on the same input yields field a = [10];
the fast path therefore changes the observable result. -/
theorem fast_path_divergence :
    trimSpace escEx = escEx
    ∧ escEx.get? 0 = some 123
    ∧ unmarshalModel escEx defaultOptions = .ok (.obj (.cons [97] (.str [92, 110]) .nil))
    ∧ unmarshalRobust escEx defaultOptions = .ok (.obj (.cons [97] (.str [10]) .nil))
    ∧ obsField (unmarshalModel escEx defaultOptions) [97] ≠
        obsField (unmarshalRobust escEx defaultOptions) [97] :=
  ⟨rfl, rfl, rfl, rfl, by decide⟩

/-!
C4. A lone high surrogate escape is NOT rejected by extraction: the
structural parser only validates the four hex digits and re-emits the
escape, and the leaf re-decoder writes lone surrogates as U+FFFD.  Only
the standalone escape decoder `processEscape` — which the extraction
pipeline never calls — rejects it with an Escape error.
-/

/-- C4 counterexample: extracting `x {"t":"\uD800"}` (robust path) is not
rejected: extraction succeeds and field t is delivered as the U+FFFD
replacement bytes. -/
theorem lone_surrogate_accepted_counterexample :
    unmarshalModel loneSurEx defaultOptions =
      .ok (.obj (.cons [116] (.str [239, 191, 189]) .nil))
    ∧ obsField (unmarshalModel loneSurEx defaultOptions) [116] = some [239, 191, 189] :=
  ⟨rfl, rfl⟩

/-- C4 amended: the escape decoder `processEscape` rejects a lone high
surrogate with an Escape error, but the extraction pipeline does not:
the structural parser re-emits the escape unrejected (shown on the
counterexample input) and the leaf re-decoder `decodeEscapeSequences`
turns the lone surrogate into U+FFFD instead of an error. -/
theorem lone_surrogate_amended :
    (∀ h : Nat, 0xD800 ≤ h → h ≤ 0xDBFF →
      processEscape (92 :: 117 :: toHex4 h) = .error (escErr ("incomplete surrogate pair"))
      ∧ decodeEscapeSequences (92 :: 117 :: toHex4 h) = [239, 191, 189])
    ∧ parseLongest loneSurEx defaultOptions =
        .ok [123, 34, 116, 34, 58, 34, 92, 117, 68, 56, 48, 48, 34, 125] := by
  refine ⟨fun h h1 h2 => ?_, rfl⟩
  have hsl : slice4 (92 :: 117 :: toHex4 h) 2 = toHex4 h := by simp [slice4, toHex4]
  have hdec := decodeUnicodeEscape_toHex4 h (by omega)
  have hph := parseHex4_toHex4 h (by omega)
  have hhs : isHighSurrogate h = true := by
    simp only [isHighSurrogate, Bool.and_eq_true, decide_eq_true_eq]; omega
  have hinv : isValidUnicodeCodePoint h = false := by
    simp only [isValidUnicodeCodePoint, isSurrogate, Bool.and_eq_false_iff,
      Bool.not_eq_false', Bool.and_eq_true, decide_eq_true_eq]
    right; omega
  have hlen : (92 :: 117 :: toHex4 h : List Nat).length = 6 := by simp [toHex4]
  constructor
  · have hne : hasEscapeSequences (92 :: 117 :: toHex4 h) = true := by
      simp [hasEscapeSequences]
    rw [processEscape, if_neg (by simp [hlen]), if_neg (by simp [hne]), hlen]
    show processEscapeLoopF (6 + 1) _ 0 = _
    rw [processEscapeLoopF]
    simp only [hsl, hdec, hhs, hlen]
    norm_num
  · rw [decodeEscapeSequences, hlen]
    show decEscLoopF (6 + 1) _ 0 = _
    rw [decEscLoopF]
    simp only [hsl, hph, hlen]
    norm_num
    have htail : decEscLoopF 6 (92 :: 117 :: toHex4 h) 6 = [] := by
      show decEscLoopF (5 + 1) _ 6 = []
      rw [decEscLoopF]
      simp [toHex4]
    rw [htail]
    simp [encodeUTF8Rune, hinv]

/-- Witness for C4 at the concrete lone high surrogate D800. -/
theorem lone_surrogate_amended_witness :
    processEscape (92 :: 117 :: toHex4 0xD800) =
      .error (escErr ("incomplete surrogate pair")) :=
  (lone_surrogate_amended.1 0xD800 (by decide) (by decide)).1

/-! Helper lemmas for the canonical nested-array family. -/

theorem nest_length (N : Nat) : (nestBytes N).length = 2 * N := by
  simp [nestBytes]; omega

theorem nest_get (N i : Nat) :
    (nestBytes N).get? i =
      if i < N then some 91 else if i < 2 * N then some 93 else none := by
  simp only [nestBytes, List.get?_eq_getElem?, List.getElem?_append,
    List.getElem?_replicate, List.length_replicate]
  split_ifs <;> first | rfl | omega

theorem skipWS_stop {data : List Nat} {pos b : Nat} (f : Nat) (hf : 1 ≤ f)
    (hb : data.get? pos = some b) (hw : isWS b = false) :
    skipWhitespaceF f data pos = .ok pos := by
  obtain ⟨g, rfl⟩ : ∃ g, f = g + 1 := ⟨f - 1, by omega⟩
  rw [List.get?_eq_getElem?] at hb
  simp [skipWhitespaceF, List.get?_eq_getElem?, hb, hw]

theorem parseArray_nest (N : Nat) (m bs : Int) :
    ∀ k, 1 ≤ k → k ≤ N → ∀ f d, 3 * k + 2 ≤ f →
      parseArrayF f (nestBytes N) (N - k) d ⟨m, bs⟩ =
        if ((d + k : Nat) : Int) < m then
          .ok (List.replicate k 91 ++ List.replicate k 93, N + k)
        else .error depthErr := by
  intro k
  induction k with
  | zero => intro h1; exact absurd h1 (by norm_num)
  | succ k ih =>
    intro _ h2 f d hf
    obtain ⟨f1, rfl⟩ : ∃ g, f = g + 1 := ⟨f - 1, by omega⟩
    rw [parseArrayF]
    by_cases hm : ((d + 1 : Nat) : Int) ≥ m
    · rw [if_pos hm, if_neg (by push_cast at hm ⊢; omega)]
    · rw [if_neg hm]
      have hp : (nestBytes N).get? (N - (k + 1)) = some 91 := by
        rw [nest_get, if_pos (by omega)]
      rw [show N - (k + 1) + 1 = N - k from by omega]
      by_cases hk : k = 0
      · subst hk
        have hq : (nestBytes N).get? (N - 0) = some 93 := by
          rw [nest_get, if_neg (by omega), if_pos (by omega)]
        have hsk : skipWhitespaceF f1 (nestBytes N) (N - 0) = .ok (N - 0) :=
          skipWS_stop f1 (by omega) hq (by decide)
        simp only [hp, hsk, hq]
        norm_num
        rw [if_pos (by push_cast at hm ⊢; omega)]
      · have hk1 : 1 ≤ k := by omega
        have hq : (nestBytes N).get? (N - k) = some 91 := by
          rw [nest_get, if_pos (by omega)]
        have hsk : skipWhitespaceF f1 (nestBytes N) (N - k) = .ok (N - k) :=
          skipWS_stop f1 (by omega) hq (by decide)
        obtain ⟨f2, rfl⟩ : ∃ g, f1 = g + 1 := ⟨f1 - 1, by omega⟩
        have h_el : parseElementF (f2 + 1) (nestBytes N) (N - k) (d + 1) ⟨m, bs⟩ =
            if ((d + 1 + k : Nat) : Int) < m then
              .ok (List.replicate k 91 ++ List.replicate k 93, N + k)
            else .error depthErr := by
          rw [parseElementF]
          have hsk2 : skipWhitespaceF f2 (nestBytes N) (N - k) = .ok (N - k) :=
            skipWS_stop f2 (by omega) hq (by decide)
          simp only [hsk2, hq]
          norm_num
          exact ih hk1 (by omega) f2 (d + 1) (by omega)
        have hq2 : (nestBytes N).get? (N + k) = some 93 := by
          rw [nest_get, if_neg (by omega), if_pos (by omega)]
        have hloop : parseArrayLoopF (f2 + 1) (nestBytes N) (N + k) (d + 1) ⟨m, bs⟩ =
            .ok ([93], N + k + 1) := by
          rw [parseArrayLoopF]
          have hsk3 : skipWhitespaceF f2 (nestBytes N) (N + k) = .ok (N + k) :=
            skipWS_stop f2 (by omega) hq2 (by decide)
          simp only [hsk3, hq2]
          norm_num
        simp only [hp, hsk, hq, h_el, hloop]
        norm_num
        by_cases hm2 : (d : Int) + 1 + (k : Int) < m
        · rw [if_pos hm2, if_pos (show (d : Int) + ((k : Int) + 1) < m by omega)]
          simp only [hloop]
          rw [List.replicate_succ, List.replicate_succ']
          simp [List.append_assoc]
          omega
        · rw [if_neg hm2, if_neg (show ¬((d : Int) + ((k : Int) + 1) < m) by omega)]

theorem parseNext_nest (N : Nat) (m bs : Int) (i : Nat) (hN : 1 ≤ N) (hi : i < N) :
    parseNextF (fuelFor (nestBytes N)) (nestBytes N) i ⟨m, bs⟩ =
      if ((N - i : Nat) : Int) < m then
        .ok (List.replicate (N - i) 91 ++ List.replicate (N - i) 93, N + (N - i))
      else .error depthErr := by
  have hfuel : fuelFor (nestBytes N) = 16 * N + 16 := by
    simp [fuelFor, nest_length]; omega
  have hq : (nestBytes N).get? i = some 91 := by rw [nest_get, if_pos hi]
  rw [parseNextF, hfuel]
  have hfind : findJSONStartF (16 * N + 16) (nestBytes N) i = .ok (91, i) := by
    obtain ⟨g, hg⟩ : ∃ g, 16 * N + 16 = g + 1 := ⟨16 * N + 15, by omega⟩
    rw [hg, findJSONStartF]
    simp only [skipWS_stop g (by omega) hq (by decide), hq]
    norm_num
  rw [hfind]
  show parseArrayF (16 * N + 16) (nestBytes N) i 0 ⟨m, bs⟩ = _
  have e : i = N - (N - i) := by omega
  conv_lhs => rw [e]
  rw [parseArray_nest N m bs (N - i) (by omega) (by omega) (16 * N + 16) 0 (by omega)]
  norm_num

theorem tryParse_nest (N : Nat) (m bs : Int) (i : Nat) (hN : 1 ≤ N) (hi : i < N) :
    tryParseFromPosition (nestBytes N) i ⟨m, bs⟩ =
      if ((N - i : Nat) : Int) < m then
        .ok (List.replicate (N - i) 91 ++ List.replicate (N - i) 93, N + (N - i))
      else .error depthErr := by
  rw [tryParseFromPosition, if_neg (by rw [nest_length]; omega)]
  exact parseNext_nest N m bs i hN hi

theorem nestLoop_keep (N : Nat) (m bs : Int) (hN : 1 ≤ N) (hm : (N : Int) < m) :
    ∀ f i, 1 ≤ i → i ≤ 2 * N → 2 * N + 1 - i ≤ f →
      parseLongestLoopF f (nestBytes N) ⟨m, bs⟩ i (some (nestBytes N)) =
        .ok (some (nestBytes N)) := by
  intro f
  induction f with
  | zero => intro i h1 h2 h3; omega
  | succ f ih =>
    intro i h1 h2 h3
    rw [parseLongestLoopF]
    by_cases hi : i < 2 * N
    · rw [if_pos (by rw [nest_length]; omega)]
      by_cases hiN : i < N
      · have hq : (nestBytes N).get? i = some 91 := by rw [nest_get, if_pos hiN]
        have htp : tryParseFromPosition (nestBytes N) i ⟨m, bs⟩ =
            .ok (List.replicate (N - i) 91 ++ List.replicate (N - i) 93, N + (N - i)) := by
          rw [tryParse_nest N m bs i hN hiN,
            if_pos (show ((N - i : Nat) : Int) < m by omega)]
        simp only [hq, htp]
        norm_num
        rw [if_neg (show ¬(bestLen (some (nestBytes N)) < N - i + (N - i)) by
          simp [bestLen, nest_length]; omega)]
        exact ih (i + 1) (by omega) (by omega) (by omega)
      · have hq : (nestBytes N).get? i = some 93 := by
          rw [nest_get, if_neg hiN, if_pos hi]
        rw [hq]
        norm_num
        exact ih (i + 1) (by omega) (by omega) (by omega)
    · rw [if_neg (by rw [nest_length]; omega)]

/-!
C1. Depth discipline on the canonical depth-N family.  The parser
increments the depth on entry and fails when the incremented depth already
reaches the configured maximum, so a value nested to depth N parses only
when `maxDepth ≥ N + 1`; at `maxDepth = N` extraction fails with the
Syntax depth error (and, the limit being non-default, the scan aborts).
-/

/-- C1 counterexample: `[]` is nested to depth 1 and `maxDepth = 1 ≥ 1`,
yet batch extraction fails with the Syntax depth-exceeded error, refuting
"succeeds iff maxDepth ≥ N". -/
theorem depth_limit_boundary_counterexample :
    parseLongest (nestBytes 1) ⟨1, 4096⟩ = .error depthErr ∧ (1 : Int) ≤ 1 :=
  ⟨by decide, by norm_num⟩

/-! Scan-loop invariant lemmas for the longest-match search. -/

theorem isCand_lt {data : List Nat} {j : Nat} (h : isCand data j = true) :
    j < data.length := by
  by_contra hc
  have hnone : data.get? j = none := by rw [List.get?_eq_none]; omega
  rw [List.get?_eq_getElem?] at hnone
  simp [isCand, List.get?_eq_getElem?, hnone] at h

theorem longestInv_start (data : List Nat) (opts : Options) :
    longestInv data opts 0 none := by
  intro j hj
  omega

theorem longestInv_atEnd {data : List Nat} {opts : Options} {i : Nat}
    {best : Option (List Nat)} (h : longestInv data opts i best)
    (hi : data.length ≤ i) : longestInv data opts data.length best := by
  cases best with
  | none => exact fun j hj => h j (by omega)
  | some o =>
    obtain ⟨j, hj, hc, ho, hmax, hstrict⟩ := h
    exact ⟨j, isCand_lt hc, hc, ho, fun k hk => hmax k (by omega), hstrict⟩

theorem longestInv_skip {data : List Nat} {opts : Options} {i : Nat}
    {best : Option (List Nat)} (h : longestInv data opts i best)
    (hc : isCand data i = false) : longestInv data opts (i + 1) best := by
  cases best with
  | none =>
    intro j hj hcj o' ho
    rcases Nat.lt_or_ge j i with hlt | hge
    · exact h j hlt hcj o' ho
    · have : j = i := by omega
      subst this
      rw [hcj] at hc
      cases hc
  | some o =>
    obtain ⟨j, hj, hcj, ho, hmax, hstrict⟩ := h
    refine ⟨j, by omega, hcj, ho, ?_, hstrict⟩
    intro k hk hck o' ho'
    rcases Nat.lt_or_ge k i with hlt | hge
    · exact hmax k hlt hck o' ho'
    · have : k = i := by omega
      subst this
      rw [hck] at hc
      cases hc

theorem longestInv_fail {data : List Nat} {opts : Options} {i : Nat}
    {best : Option (List Nat)} (h : longestInv data opts i best)
    (hc : candOut data opts i = none) : longestInv data opts (i + 1) best := by
  cases best with
  | none =>
    intro j hj hcj o' ho
    rcases Nat.lt_or_ge j i with hlt | hge
    · exact h j hlt hcj o' ho
    · have : j = i := by omega
      subst this
      rw [ho] at hc
      cases hc
  | some o =>
    obtain ⟨j, hj, hcj, ho, hmax, hstrict⟩ := h
    refine ⟨j, by omega, hcj, ho, ?_, hstrict⟩
    intro k hk hck o' ho'
    rcases Nat.lt_or_ge k i with hlt | hge
    · exact hmax k hlt hck o' ho'
    · have : k = i := by omega
      subst this
      rw [ho'] at hc
      cases hc

theorem longestInv_update {data : List Nat} {opts : Options} {i : Nat}
    {best : Option (List Nat)} {out : List Nat}
    (h : longestInv data opts i best) (hcand : isCand data i = true)
    (hout : candOut data opts i = some out) (hgt : bestLen best < out.length) :
    longestInv data opts (i + 1) (some out) := by
  refine ⟨i, by omega, hcand, hout, ?_, ?_⟩
  · intro k hk hck o' ho'
    rcases Nat.lt_or_ge k i with hlt | hge
    · cases best with
      | none =>
        have := h k hlt hck o' ho'
        omega
      | some o =>
        obtain ⟨j, hj, hcj, ho, hmax, hstrict⟩ := h
        have := hmax k hlt hck o' ho'
        simp only [bestLen] at hgt
        omega
    · have : k = i := by omega
      subst this
      rw [ho'] at hout
      cases hout
      omega
  · intro k hk hck o' ho'
    cases best with
    | none =>
      have := h k hk hck o' ho'
      simp only [bestLen] at hgt
      omega
    | some o =>
      obtain ⟨j, hj, hcj, ho, hmax, hstrict⟩ := h
      have := hmax k (by omega) hck o' ho'
      simp only [bestLen] at hgt
      omega

theorem longestInv_keep {data : List Nat} {opts : Options} {i : Nat}
    {best : Option (List Nat)} {out : List Nat}
    (h : longestInv data opts i best) (hcand : isCand data i = true)
    (hout : candOut data opts i = some out) (hng : ¬ bestLen best < out.length) :
    longestInv data opts (i + 1) best := by
  cases best with
  | none =>
    intro j hj hcj o' ho
    rcases Nat.lt_or_ge j i with hlt | hge
    · exact h j hlt hcj o' ho
    · have : j = i := by omega
      subst this
      rw [ho] at hout
      cases hout
      simp only [bestLen] at hng
      omega
  | some o =>
    obtain ⟨j, hj, hcj, ho, hmax, hstrict⟩ := h
    refine ⟨j, by omega, hcj, ho, ?_, hstrict⟩
    intro k hk hck o' ho'
    rcases Nat.lt_or_ge k i with hlt | hge
    · exact hmax k hlt hck o' ho'
    · have : k = i := by omega
      subst this
      rw [ho'] at hout
      cases hout
      simp only [bestLen] at hng
      omega

theorem longestLoop_spec (data : List Nat) (opts : Options)
    (H : hasCustomOptions opts = false ∨ ∀ j, candDepthErr data opts j = false) :
    ∀ f i best, data.length < f + i → 1 ≤ f → longestInv data opts i best →
      ∃ best', parseLongestLoopF f data opts i best = .ok best' ∧
        longestInv data opts data.length best' := by
  intro f
  induction f with
  | zero => intro i best h1 h2; omega
  | succ f ih =>
    intro i best h1 _ hinv
    rw [parseLongestLoopF]
    by_cases hi : i < data.length
    · rw [if_pos hi]
      have hfuel : data.length < f + (i + 1) := by omega
      have hf1 : 1 ≤ f := by omega
      split
      next b hgy =>
        have hgyE : data[i]? = some b := by rw [← List.get?_eq_getElem?]; exact hgy
        by_cases hbc : (b == 123 || b == 91) = true
        · rw [if_pos hbc]
          have hcand : isCand data i = true := by
            simp [isCand, List.get?_eq_getElem?, hgyE, hbc]
          split
          next out len2 htp =>
            have hout : candOut data opts i = some out := by simp [candOut, htp]
            by_cases hgt : bestLen best < out.length
            · rw [if_pos hgt]
              exact ih (i + 1) (some out) hfuel hf1
                (longestInv_update hinv hcand hout hgt)
            · rw [if_neg hgt]
              exact ih (i + 1) best hfuel hf1
                (longestInv_keep hinv hcand hout hgt)
          next e htp =>
            have hout : candOut data opts i = none := by simp [candOut, htp]
            have hcond : ¬ ((hasCustomOptions opts && isDepthError e) = true) := by
              rcases H with hcust | hdep
              · simp [hcust]
              · have := hdep i
                simp only [candDepthErr, htp] at this
                simp [this]
            rw [if_neg hcond]
            exact ih (i + 1) best hfuel hf1 (longestInv_fail hinv hout)
        · rw [if_neg hbc]
          simp only [Bool.not_eq_true] at hbc
          have hcand : isCand data i = false := by
            simp [isCand, List.get?_eq_getElem?, hgyE, hbc]
          exact ih (i + 1) best hfuel hf1 (longestInv_skip hinv hcand)
      next hgy =>
        have hcand : isCand data i = false := by
          simp [isCand, List.get?_eq_getElem?, ← List.get?_eq_getElem?, hgy]
        exact ih (i + 1) best hfuel hf1 (longestInv_skip hinv hcand)
    · rw [if_neg hi]
      exact ⟨best, rfl, longestInv_atEnd hinv (by omega)⟩

/-!
C5. Longest match with earliest-offset tie break.  Provided the scan is
not aborted by the fast-fail rule (default configuration, or no candidate
fails with the depth error — claim C6 covers the aborting case), the
returned bytes are the re-emission of a candidate of maximal re-emitted
length, and every candidate at an earlier offset re-emits strictly fewer
bytes (ties resolve to the earliest offset).
-/

/-- C5: if some candidate offset (holding an opening brace or bracket)
parses to a complete (non-empty) value, `parseLongest` returns the
re-emission of a candidate whose re-emitted length is maximal among all
candidates, and candidates at strictly earlier offsets all have strictly
smaller re-emitted length. -/
theorem longest_match_argmax (data : List Nat) (opts : Options)
    (H : hasCustomOptions opts = false ∨ ∀ j, candDepthErr data opts j = false)
    (i0 : Nat) (o0 : List Nat) (hc0 : isCand data i0 = true)
    (ho0 : candOut data opts i0 = some o0) (hne : o0 ≠ []) :
    ∃ j o, parseLongest data opts = .ok o ∧ isCand data j = true ∧
      candOut data opts j = some o ∧
      (∀ k o', isCand data k = true → candOut data opts k = some o' →
        o'.length ≤ o.length) ∧
      (∀ k, k < j → ∀ o', isCand data k = true → candOut data opts k = some o' →
        o'.length < o.length) := by
  obtain ⟨best', hloop, hinv⟩ :=
    longestLoop_spec data opts H (data.length + 1) 0 none (by omega) (by omega)
      (longestInv_start data opts)
  cases best' with
  | none =>
    exfalso
    have := hinv i0 (isCand_lt hc0) hc0 o0 ho0
    have : o0 = [] := List.length_eq_zero.mp this
    exact hne this
  | some o =>
    obtain ⟨j, hj, hcj, ho, hmax, hstrict⟩ := hinv
    refine ⟨j, o, ?_, hcj, ho, ?_, ?_⟩
    · rw [parseLongest, hloop]
    · intro k o' hck ho'
      exact hmax k (isCand_lt hck) hck o' ho'
    · intro k hk o' hck ho'
      exact hstrict k hk hck o' ho'

/-- Witness for C5 on `x [] [1,2]`: both arrays are candidates; the
longest (`[1,2]`) is returned. -/
theorem longest_match_argmax_witness :
    ∃ j o, parseLongest [120, 32, 91, 93, 32, 91, 49, 44, 50, 93] defaultOptions = .ok o ∧
      isCand [120, 32, 91, 93, 32, 91, 49, 44, 50, 93] j = true ∧
      candOut [120, 32, 91, 93, 32, 91, 49, 44, 50, 93] defaultOptions j = some o ∧
      (∀ k o', isCand [120, 32, 91, 93, 32, 91, 49, 44, 50, 93] k = true →
        candOut [120, 32, 91, 93, 32, 91, 49, 44, 50, 93] defaultOptions k = some o' →
        o'.length ≤ o.length) ∧
      (∀ k, k < j → ∀ o', isCand [120, 32, 91, 93, 32, 91, 49, 44, 50, 93] k = true →
        candOut [120, 32, 91, 93, 32, 91, 49, 44, 50, 93] defaultOptions k = some o' →
        o'.length < o.length) :=
  longest_match_argmax [120, 32, 91, 93, 32, 91, 49, 44, 50, 93] defaultOptions
    (Or.inl (by decide)) 2 [91, 93] (by decide) (by decide) (by decide)

theorem longestLoop_abort (data : List Nat) (opts : Options) (i0 : Nat) (e : Err)
    (hcust : hasCustomOptions opts = true)
    (hc0 : isCand data i0 = true)
    (htp0 : tryParseFromPosition data i0 opts = .error e)
    (hde : isDepthError e = true)
    (hearlier : ∀ k, k < i0 → isCand data k = true → candDepthErr data opts k = false) :
    ∀ f i, i ≤ i0 → data.length < f + i → 1 ≤ f →
      ∀ best, parseLongestLoopF f data opts i best = .error e := by
  intro f
  induction f with
  | zero => intro i h1 h2 h3; omega
  | succ f ih =>
    intro i hii0 h1 _ best
    have hi0len : i0 < data.length := isCand_lt hc0
    rw [parseLongestLoopF, if_pos (by omega)]
    have hfuel : data.length < f + (i + 1) := by omega
    by_cases hi0 : i = i0
    · subst hi0
      split
      next b hgy =>
        have hgyE : data[i]? = some b := by rw [← List.get?_eq_getElem?]; exact hgy
        have hbc : (b == 123 || b == 91) = true := by
          have := hc0
          simp only [isCand, List.get?_eq_getElem?] at this
          rw [hgyE] at this
          exact this
        rw [if_pos hbc]
        simp only [htp0]
        rw [if_pos (by simp [hcust, hde])]
      next hgy =>
        have : isCand data i = false := by
          simp only [isCand, List.get?_eq_getElem?]
          rw [← List.get?_eq_getElem?, hgy]
        rw [this] at hc0
        cases hc0
    · have hii0' : i < i0 := by omega
      have hf1 : 1 ≤ f := by omega
      split
      next b hgy =>
        by_cases hbc : (b == 123 || b == 91) = true
        · rw [if_pos hbc]
          have hgyE : data[i]? = some b := by rw [← List.get?_eq_getElem?]; exact hgy
          have hcand : isCand data i = true := by
            simp [isCand, List.get?_eq_getElem?, hgyE, hbc]
          split
          next out len2 htp =>
            by_cases hgt : bestLen best < out.length
            · rw [if_pos hgt]
              exact ih (i + 1) (by omega) hfuel hf1 (some out)
            · rw [if_neg hgt]
              exact ih (i + 1) (by omega) hfuel hf1 best
          next e2 htp =>
            have hnd : isDepthError e2 = false := by
              have := hearlier i hii0' hcand
              simp only [candDepthErr, htp] at this
              exact this
            rw [if_neg (by simp [hnd])]
            exact ih (i + 1) (by omega) hfuel hf1 best
        · rw [if_neg hbc]
          exact ih (i + 1) (by omega) hfuel hf1 best
      next hgy =>
        exact ih (i + 1) (by omega) hfuel hf1 best

/-!
C6. The fast-fail rule of `parseLongest`: with non-default configuration
the first depth-exceeded candidate aborts the whole scan with that error
(even when a valid candidate was already held as best), while with the
default configuration every per-candidate failure — depth errors included
— is swallowed and the scan continues, so the only error the scan itself
can report is InvalidJSON("no valid JSON found").
-/

/-- C6: (abort) with custom configuration, the first candidate (in scan
order) that fails with the depth error makes `parseLongest` return that
error immediately; (swallow) with default configuration `parseLongest`
never surfaces a per-candidate error: its only possible error is
InvalidJSON("no valid JSON found"). -/
theorem depth_error_fast_fail :
    (∀ data opts i0 e, hasCustomOptions opts = true → isCand data i0 = true →
      tryParseFromPosition data i0 opts = .error e → isDepthError e = true →
      (∀ k, k < i0 → isCand data k = true → candDepthErr data opts k = false) →
      parseLongest data opts = .error e)
    ∧ (∀ data opts e, hasCustomOptions opts = false →
        parseLongest data opts = .error e → e = invErr ("no valid JSON found")) := by
  constructor
  · intro data opts i0 e hcust hc0 htp0 hde hearlier
    rw [parseLongest, longestLoop_abort data opts i0 e hcust hc0 htp0 hde hearlier
      (data.length + 1) 0 (by omega) (by omega) (by omega) none]
  · intro data opts e hcust heq
    obtain ⟨best', hloop, _⟩ := longestLoop_spec data opts (Or.inl hcust)
      (data.length + 1) 0 none (by omega) (by omega) (longestInv_start data opts)
    rw [parseLongest, hloop] at heq
    cases best' with
    | some o => simp at heq
    | none =>
      simp only [] at heq
      exact (Except.error.inj heq).symm

/-- Witness for C6: on `[[]]` with maxDepth 1 (custom), candidate 0 fails
with the depth error and the whole extraction aborts with it; and a
default-configuration instance of the swallow rule on pure noise. -/
theorem depth_error_fast_fail_witness :
    parseLongest [91, 91, 93, 93] ⟨1, 4096⟩ = .error depthErr ∧
    invErr ("no valid JSON found") = invErr ("no valid JSON found") :=
  ⟨depth_error_fast_fail.1 [91, 91, 93, 93] ⟨1, 4096⟩ 0 depthErr (by decide) (by decide)
      (by decide) (by decide) (fun k hk _ => absurd hk (by omega)),
   depth_error_fast_fail.2 [120] defaultOptions (invErr ("no valid JSON found"))
      (by decide) (by decide)⟩

/-! Fixed-point lemmas for the leaf re-decoding pass. -/

theorem get?_lt {s : List Nat} {i : Nat} {b : Nat} (h : s.get? i = some b) :
    i < s.length := by
  by_contra hc
  rw [List.get?_eq_none.mpr (by omega)] at h
  cases h

theorem get?_getElem {s : List Nat} {i : Nat} {b : Nat} (h : s.get? i = some b)
    (hlt : i < s.length) : s[i] = b := by
  rw [List.get?_eq_getElem?, List.getElem?_eq_getElem hlt] at h
  exact Option.some.inj h

theorem decEscLoop_id (s : List Nat) (hnb : noBackslash s = true) :
    ∀ f i, s.length - i < f → decEscLoopF f s i = s.drop i := by
  intro f
  induction f with
  | zero => intro i h; omega
  | succ f ih =>
    intro i h
    rw [decEscLoopF]
    split
    next hgy =>
      rw [Eq.comm, List.drop_eq_nil_iff_le]
      have := List.get?_eq_none.mp hgy
      omega
    next b hgy =>
      have hlt := get?_lt hgy
      have hb : b ≠ 92 := by
        have hmem := List.get?_mem hgy
        have := (List.all_eq_true.mp hnb) b hmem
        simpa using this
      rw [if_neg (by simp [hb])]
      rw [ih (i + 1) (by omega)]
      rw [List.drop_eq_getElem_cons hlt, get?_getElem hgy hlt]

theorem decodeEsc_id (s : List Nat) (hnb : noBackslash s = true) :
    decodeEscapeSequences s = s := by
  rw [decodeEscapeSequences, decEscLoop_id s hnb (s.length + 1) 0 (by omega)]
  rfl

mutual

theorem escNorm_clean : ∀ v : JVal, cleanLeaves v = true → escNormalize v = v
  | .str _, _ => rfl
  | .num _, _ => rfl
  | .boolean _, _ => rfl
  | .null, _ => rfl
  | .obj ms, h => by
    have hm : cleanMembers ms = true := h
    show JVal.obj (escNormMembers ms) = JVal.obj ms
    rw [escNormMembers_clean ms hm]
  | .arr es, h => by
    have he : cleanElems es = true := h
    show JVal.arr (escNormElems es) = JVal.arr es
    rw [escNormElems_clean es he]

theorem escNormMembers_clean : ∀ ms : JMembers, cleanMembers ms = true →
    escNormMembers ms = ms
  | .nil, _ => rfl
  | .cons k (.str s) rest, h => by
    have h1 : noBackslash s = true ∧ cleanMembers rest = true := by
      simpa [cleanMembers] using h
    show JMembers.cons k (.str (decodeEscapeSequences s)) (escNormMembers rest) =
      JMembers.cons k (.str s) rest
    rw [decodeEsc_id s h1.1, escNormMembers_clean rest h1.2]
  | .cons k (.num s) rest, h => by
    have h1 : cleanMembers rest = true := by simpa [cleanMembers, cleanLeaves] using h
    show JMembers.cons k (escNormalize (.num s)) (escNormMembers rest) =
      JMembers.cons k (.num s) rest
    rw [escNormMembers_clean rest h1]
    rfl
  | .cons k (.boolean b) rest, h => by
    have h1 : cleanMembers rest = true := by simpa [cleanMembers, cleanLeaves] using h
    show JMembers.cons k (escNormalize (.boolean b)) (escNormMembers rest) =
      JMembers.cons k (.boolean b) rest
    rw [escNormMembers_clean rest h1]
    rfl
  | .cons k .null rest, h => by
    have h1 : cleanMembers rest = true := by simpa [cleanMembers, cleanLeaves] using h
    show JMembers.cons k (escNormalize .null) (escNormMembers rest) =
      JMembers.cons k .null rest
    rw [escNormMembers_clean rest h1]
    rfl
  | .cons k (.obj ms2) rest, h => by
    have h1 : cleanLeaves (.obj ms2) = true ∧ cleanMembers rest = true := by
      simpa [cleanMembers] using h
    show JMembers.cons k (escNormalize (.obj ms2)) (escNormMembers rest) =
      JMembers.cons k (.obj ms2) rest
    rw [escNorm_clean (.obj ms2) h1.1, escNormMembers_clean rest h1.2]
  | .cons k (.arr es2) rest, h => by
    have h1 : cleanLeaves (.arr es2) = true ∧ cleanMembers rest = true := by
      simpa [cleanMembers] using h
    show JMembers.cons k (escNormalize (.arr es2)) (escNormMembers rest) =
      JMembers.cons k (.arr es2) rest
    rw [escNorm_clean (.arr es2) h1.1, escNormMembers_clean rest h1.2]

theorem escNormElems_clean : ∀ es : JElems, cleanElems es = true →
    escNormElems es = es
  | .nil, _ => rfl
  | .cons (.str s) rest, h => by
    have h1 : noBackslash s = true ∧ cleanElems rest = true := by
      simpa [cleanElems] using h
    show JElems.cons (.str (decodeEscapeSequences s)) (escNormElems rest) =
      JElems.cons (.str s) rest
    rw [decodeEsc_id s h1.1, escNormElems_clean rest h1.2]
  | .cons (.num s) rest, h => by
    have h1 : cleanElems rest = true := by simpa [cleanElems, cleanLeaves] using h
    show JElems.cons (escNormalize (.num s)) (escNormElems rest) =
      JElems.cons (.num s) rest
    rw [escNormElems_clean rest h1]
    rfl
  | .cons (.boolean b) rest, h => by
    have h1 : cleanElems rest = true := by simpa [cleanElems, cleanLeaves] using h
    show JElems.cons (escNormalize (.boolean b)) (escNormElems rest) =
      JElems.cons (.boolean b) rest
    rw [escNormElems_clean rest h1]
    rfl
  | .cons .null rest, h => by
    have h1 : cleanElems rest = true := by simpa [cleanElems, cleanLeaves] using h
    show JElems.cons (escNormalize .null) (escNormElems rest) =
      JElems.cons .null rest
    rw [escNormElems_clean rest h1]
    rfl
  | .cons (.obj ms2) rest, h => by
    have h1 : cleanLeaves (.obj ms2) = true ∧ cleanElems rest = true := by
      simpa [cleanElems] using h
    show JElems.cons (escNormalize (.obj ms2)) (escNormElems rest) =
      JElems.cons (.obj ms2) rest
    rw [escNorm_clean (.obj ms2) h1.1, escNormElems_clean rest h1.2]
  | .cons (.arr es2) rest, h => by
    have h1 : cleanLeaves (.arr es2) = true ∧ cleanElems rest = true := by
      simpa [cleanElems] using h
    show JElems.cons (escNormalize (.arr es2)) (escNormElems rest) =
      JElems.cons (.arr es2) rest
    rw [escNorm_clean (.arr es2) h1.1, escNormElems_clean rest h1.2]

end

/-!
C3. Single-decode does not hold on the batch path.  On the robust path
`Unmarshal` applies `decodeEscapeSequences` to every string leaf of the
already RFC-decoded value, so a leaf whose single decode still contains a
backslash is decoded twice; leaves whose single decode is backslash-free
are delivered exactly once decoded, and the streaming decoder never
applies the second pass.
-/

/-- C3 counterexample: extracting `x {"a":"\\n"}` delivers field a as the
single byte 10 (newline), while the RFC 8259-correct decoding of the
source string `"\\n"` is the two bytes 92, 110: the escape is decoded
twice on the batch path. -/
theorem leaf_double_decode_counterexample :
    obsField (unmarshalModel escExNoisy defaultOptions) [97] = some [10]
    ∧ stdStringF 16 [34, 92, 92, 110, 34] 0 = .ok ([92, 110], 5)
    ∧ some [10] ≠ (some [92, 110] : Option (List Nat)) :=
  ⟨rfl, rfl, by decide⟩

/-- C3 amended: every string leaf delivered by the robust batch path is
`decodeEscapeSequences` of the corresponding leaf of the singly-decoded
(RFC-correct) value — a second decode pass; when such a leaf is backslash
free the second pass is the identity and each escape is decoded exactly
once (a sufficient condition only: the second pass also fixes some
backslash-holding leaves, e.g. the unrecognized residue `\x` is copied
verbatim); the streaming decoder delivers the singly-decoded value
as-is. -/
theorem leaf_decode_amended :
    (∀ s : List Nat, noBackslash s = true → decodeEscapeSequences s = s)
    ∧ (∀ v : JVal, cleanLeaves v = true → escNormalize v = v)
    ∧ (∀ data opts jsonBytes v, parseLongest data opts = .ok jsonBytes →
        stdParse jsonBytes = .ok v →
        unmarshalRobust data opts = .ok (escNormalize v)
        ∧ (cleanLeaves v = true → unmarshalRobust data opts = .ok v))
    ∧ (∀ data pos opts out p v, parseNextF (fuelFor data) data pos opts = .ok (out, p) →
        stdParse out = .ok v → decoderDecode data pos opts = .ok (v, p))
    ∧ decodeEscapeSequences [92, 120] = [92, 120] := by
  refine ⟨decodeEsc_id, escNorm_clean, ?_, ?_, by decide⟩
  · intro data opts jsonBytes v hpl hsp
    have hbase : unmarshalRobust data opts = .ok (escNormalize v) := by
      simp only [unmarshalRobust, hpl, hsp]
    exact ⟨hbase, fun hcl => by rw [hbase, escNorm_clean v hcl]⟩
  · intro data pos opts out p v hpn hsp
    simp only [decoderDecode, hpn, hsp]

/-- Witness for C3 on the clean-leaf side: extracting `x {"a":"1"}` (leaf
without backslashes) delivers the leaf decoded exactly once. -/
theorem leaf_decode_amended_witness :
    unmarshalRobust [120, 32, 123, 34, 97, 34, 58, 34, 49, 34, 125] defaultOptions =
      .ok (.obj (.cons [97] (.str [49]) .nil)) :=
  ((leaf_decode_amended.2.2.1 [120, 32, 123, 34, 97, 34, 58, 34, 49, 34, 125]
      defaultOptions [123, 34, 97, 34, 58, 34, 49, 34, 125]
      (.obj (.cons [97] (.str [49]) .nil)) (by decide) (by rfl)).2 (by rfl))

/-! Round-trip lemmas for the escape encoder/decoder pair. -/

theorem drop_cons_split {data : List Nat} {i x : Nat} {t : List Nat}
    (h : data.drop i = x :: t) : data.get? i = some x ∧ data.drop (i + 1) = t := by
  constructor
  · have h0 : (data.drop i).get? 0 = some x := by rw [h]; rfl
    rw [List.get?_drop] at h0
    simpa using h0
  · have h1 : data.drop (i + 1) = (data.drop i).drop 1 := by
      rw [List.drop_drop, Nat.add_comm]
    rw [h1, h]
    rfl

theorem encodeEscapeByte_ne_nil (b : Nat) : encodeEscapeByte b ≠ [] := by
  simp only [encodeEscapeByte, hexUpperNoPad]
  split_ifs <;> simp

theorem encodeEscape_nil_iff (s : List Nat) : encodeEscape s = [] ↔ s = [] := by
  cases s with
  | nil => simp [encodeEscape]
  | cons b rest =>
    simp only [encodeEscape]
    constructor
    · intro h
      exact absurd (List.append_eq_nil.mp h).1 (encodeEscapeByte_ne_nil b)
    · intro h
      cases h

theorem encodeEscape_no92 (s : List Nat)
    (h : hasEscapeSequences (encodeEscape s) = false) : encodeEscape s = s := by
  induction s with
  | nil => rfl
  | cons b rest ih =>
    have hsplit : (encodeEscapeByte b).all (fun c => c ≠ 92) = true ∧
        hasEscapeSequences (encodeEscape rest) = false := by
      simp only [encodeEscape, hasEscapeSequences, List.any_append,
        Bool.or_eq_false_iff] at h
      refine ⟨?_, by simp [hasEscapeSequences, h.2]⟩
      rw [List.all_eq_true]
      intro c hc
      have := h.1
      rw [List.any_eq_false] at this
      simpa using this c hc
    have hb : encodeEscapeByte b = [b] := by
      have h92 := hsplit.1
      rw [encodeEscapeByte] at h92 ⊢
      split_ifs at h92 ⊢ <;> simp_all
    rw [encodeEscape, hb, ih hsplit.2]
    rfl

theorem processLoop_enc : ∀ s : List Nat,
    (∀ b ∈ s, 32 ≤ b ∨ b = 8 ∨ b = 9 ∨ b = 10 ∨ b = 12 ∨ b = 13) →
    ∀ f i data, data.drop i = encodeEscape s → s.length < f →
      processEscapeLoopF f data i = .ok s := by
  intro s
  induction s with
  | nil =>
    intro _ f i data hdrop hf
    obtain ⟨f1, rfl⟩ : ∃ g, f = g + 1 := ⟨f - 1, by omega⟩
    have hnone : data.get? i = none := by
      rw [List.get?_eq_none]
      have : data.drop i = [] := hdrop
      rw [List.drop_eq_nil_iff_le] at this
      omega
    rw [processEscapeLoopF]
    simp only [hnone]
  | cons b rest ih =>
    intro hdom f i data hdrop hf
    obtain ⟨f1, rfl⟩ : ∃ g, f = g + 1 := ⟨f - 1, by omega⟩
    have hdomr : ∀ c ∈ rest, 32 ≤ c ∨ c = 8 ∨ c = 9 ∨ c = 10 ∨ c = 12 ∨ c = 13 :=
      fun c hc => hdom c (List.mem_cons_of_mem b hc)
    have hdb := hdom b (List.mem_cons_self b rest)
    rw [encodeEscape] at hdrop
    rw [processEscapeLoopF]
    by_cases h34 : b = 34
    · subst h34
      have he : encodeEscapeByte 34 = [92, 34] := rfl
      rw [he] at hdrop
      obtain ⟨h0, hd1⟩ := drop_cons_split hdrop
      obtain ⟨h1, hd2⟩ := drop_cons_split hd1
      simp only [h0, h1]
      norm_num
      rw [ih hdomr f1 (i + 1 + 1) data hd2 (by simp only [List.length_cons] at hf; omega)]
    · by_cases h92 : b = 92
      · subst h92
        have he : encodeEscapeByte 92 = [92, 92] := rfl
        rw [he] at hdrop
        obtain ⟨h0, hd1⟩ := drop_cons_split hdrop
        obtain ⟨h1, hd2⟩ := drop_cons_split hd1
        simp only [h0, h1]
        norm_num
        rw [ih hdomr f1 (i + 1 + 1) data hd2 (by simp only [List.length_cons] at hf; omega)]
      · by_cases h8 : b = 8
        · subst h8
          have he : encodeEscapeByte 8 = [92, 98] := rfl
          rw [he] at hdrop
          obtain ⟨h0, hd1⟩ := drop_cons_split hdrop
          obtain ⟨h1, hd2⟩ := drop_cons_split hd1
          simp only [h0, h1]
          norm_num
          rw [ih hdomr f1 (i + 1 + 1) data hd2 (by simp only [List.length_cons] at hf; omega)]
        · by_cases h12 : b = 12
          · subst h12
            have he : encodeEscapeByte 12 = [92, 102] := rfl
            rw [he] at hdrop
            obtain ⟨h0, hd1⟩ := drop_cons_split hdrop
            obtain ⟨h1, hd2⟩ := drop_cons_split hd1
            simp only [h0, h1]
            norm_num
            rw [ih hdomr f1 (i + 1 + 1) data hd2 (by simp only [List.length_cons] at hf; omega)]
          · by_cases h10 : b = 10
            · subst h10
              have he : encodeEscapeByte 10 = [92, 110] := rfl
              rw [he] at hdrop
              obtain ⟨h0, hd1⟩ := drop_cons_split hdrop
              obtain ⟨h1, hd2⟩ := drop_cons_split hd1
              simp only [h0, h1]
              norm_num
              rw [ih hdomr f1 (i + 1 + 1) data hd2 (by simp only [List.length_cons] at hf; omega)]
            · by_cases h13 : b = 13
              · subst h13
                have he : encodeEscapeByte 13 = [92, 114] := rfl
                rw [he] at hdrop
                obtain ⟨h0, hd1⟩ := drop_cons_split hdrop
                obtain ⟨h1, hd2⟩ := drop_cons_split hd1
                simp only [h0, h1]
                norm_num
                rw [ih hdomr f1 (i + 1 + 1) data hd2 (by simp only [List.length_cons] at hf; omega)]
              · by_cases h9 : b = 9
                · subst h9
                  have he : encodeEscapeByte 9 = [92, 116] := rfl
                  rw [he] at hdrop
                  obtain ⟨h0, hd1⟩ := drop_cons_split hdrop
                  obtain ⟨h1, hd2⟩ := drop_cons_split hd1
                  simp only [h0, h1]
                  norm_num
                  rw [ih hdomr f1 (i + 1 + 1) data hd2 (by simp only [List.length_cons] at hf; omega)]
                · have hge : 32 ≤ b := by omega
                  have he : encodeEscapeByte b = [b] := by
                    rw [encodeEscapeByte]
                    split_ifs <;>
                      first
                        | rfl
                        | (exfalso; simp_all only [beq_iff_eq] <;> omega)
                  rw [he] at hdrop
                  obtain ⟨h0, hd1⟩ := drop_cons_split hdrop
                  simp only [h0]
                  rw [if_pos (by simp [h92])]
                  rw [ih hdomr f1 (i + 1) data hd1 (by simp only [List.length_cons] at hf; omega)]

/-!
C8. Round-trip law of the escape codec: encoding a string with
`encodeEscape` and decoding the result with `processEscape` reproduces the
original string, for any string over printable bytes and the five
short-escaped control characters — which covers all eight standard escape
characters and the text of arbitrary `\uXXXX`/surrogate-pair sequences.
-/

/-- C8: for every string whose bytes are printable (≥ 0x20, covering the
quote, backslash and solidus) or among the short-escaped controls
backspace, tab, line feed, form feed, carriage return — in particular any
string made of the eight standard-escape characters and literal
`\uXXXX`/surrogate-pair text — decoding the encoding returns the original
string exactly. -/
theorem escape_roundtrip (s : List Nat)
    (hdom : ∀ b ∈ s, 32 ≤ b ∨ b = 8 ∨ b = 9 ∨ b = 10 ∨ b = 12 ∨ b = 13) :
    processEscape (encodeEscape s) = .ok s := by
  rw [processEscape]
  by_cases hnil : (encodeEscape s).length == 0
  · rw [if_pos hnil]
    have : encodeEscape s = [] := by
      cases h : encodeEscape s with
      | nil => rfl
      | cons x t => rw [h] at hnil; simp at hnil
    rw [this, (encodeEscape_nil_iff s).mp this]
  · rw [if_neg hnil]
    by_cases hesc : hasEscapeSequences (encodeEscape s)
    · rw [if_neg (by simp [hesc])]
      exact processLoop_enc s hdom ((encodeEscape s).length + 1) 0 (encodeEscape s)
        (by rfl) (by
          have : s.length ≤ (encodeEscape s).length := by
            clear hnil hesc
            induction s with
            | nil => simp [encodeEscape]
            | cons b rest ih2 =>
              rw [encodeEscape]
              simp only [List.length_append, List.length_cons]
              have hb := encodeEscapeByte_ne_nil b
              have : 1 ≤ (encodeEscapeByte b).length := by
                cases hx : encodeEscapeByte b with
                | nil => exact absurd hx hb
                | cons y t => simp
              have := ih2 (fun c hc => hdom c (List.mem_cons_of_mem b hc))
              omega
          omega)
    · rw [if_pos (by simp [hesc])]
      rw [encodeEscape_no92 s (by simpa using hesc)]

/-- Witness for C8 on a string holding all eight standard-escape
characters followed by the literal text of the surrogate-pair escape
`😀`. -/
theorem escape_roundtrip_witness :
    processEscape (encodeEscape
      [34, 92, 47, 8, 12, 10, 13, 9, 92, 117, 68, 56, 51, 68, 92, 117, 68, 69, 48, 48]) =
      .ok [34, 92, 47, 8, 12, 10, 13, 9, 92, 117, 68, 56, 51, 68, 92, 117, 68, 69, 48, 48] :=
  escape_roundtrip
    [34, 92, 47, 8, 12, 10, 13, 9, 92, 117, 68, 56, 51, 68, 92, 117, 68, 69, 48, 48]
    (by decide)

/-! Monotonicity of the scanner cursor: every parsing function returns a
position at or beyond its starting position. -/

theorem skipWS_mono : ∀ f data pos p, skipWhitespaceF f data pos = .ok p → pos ≤ p := by
  intro f
  induction f with
  | zero => intro data pos p h; simp [skipWhitespaceF] at h
  | succ f ih =>
    intro data pos p h
    rw [skipWhitespaceF] at h
    split at h
    · exact absurd h (by simp)
    next b hb =>
      split_ifs at h with hws
      · have := ih data (pos + 1) p h
        omega
      · simp only [Except.ok.injEq] at h
        omega

theorem skipWS_ws : ∀ f data pos p, skipWhitespaceF f data pos = .ok p →
    ∀ j, pos ≤ j → j < p → ∀ c, data.get? j = some c → isWS c = true := by
  intro f
  induction f with
  | zero => intro data pos p h; simp [skipWhitespaceF] at h
  | succ f ih =>
    intro data pos p h j hj1 hj2 c hc
    rw [skipWhitespaceF] at h
    split at h
    · exact absurd h (by simp)
    next b hb =>
      split_ifs at h with hws
      · rcases Nat.eq_or_lt_of_le hj1 with rfl | hlt
        · rw [hb] at hc
          cases hc
          exact hws
        · exact ih data (pos + 1) p h j (by omega) hj2 c hc
      · simp only [Except.ok.injEq] at h
        omega

theorem expectLit_mono : ∀ lit data pos emsg out p,
    expectLit data pos lit emsg = .ok (out, p) → pos ≤ p := by
  intro lit
  induction lit with
  | nil =>
    intro data pos emsg out p h
    simp only [expectLit, Except.ok.injEq, Prod.mk.injEq] at h
    omega
  | cons c rest ih =>
    intro data pos emsg out p h
    rw [expectLit] at h
    repeat' split at h
    all_goals
      first
        | (rename_i o1 p1 heq
           have hm := ih _ _ _ o1 p1 heq
           simp only [Except.ok.injEq, Prod.mk.injEq] at h
           omega)
        | (simp only [Except.ok.injEq, Prod.mk.injEq] at h; omega)
        | simp at h

theorem parseBoolean_mono {data : List Nat} {pos : Nat} {out : List Nat} {p : Nat}
    (h : parseBooleanF data pos = .ok (out, p)) : pos ≤ p := by
  rw [parseBooleanF] at h
  repeat' split at h
  all_goals
    first
      | exact expectLit_mono _ data pos _ out p h
      | simp at h

theorem parseNull_mono {data : List Nat} {pos : Nat} {out : List Nat} {p : Nat}
    (h : parseNullF data pos = .ok (out, p)) : pos ≤ p :=
  expectLit_mono _ data pos _ out p h

theorem parseNumber_mono : ∀ f data pos out p,
    parseNumberF f data pos = .ok (out, p) → pos ≤ p := by
  intro f
  induction f with
  | zero => intro data pos out p h; simp [parseNumberF] at h
  | succ f ih =>
    intro data pos out p h
    rw [parseNumberF] at h
    repeat' split at h
    all_goals
      first
        | (rename_i o1 p1 heq
           have hm := ih _ _ o1 p1 heq
           simp only [Except.ok.injEq, Prod.mk.injEq] at h
           omega)
        | (simp only [Except.ok.injEq, Prod.mk.injEq] at h; omega)
        | simp at h

theorem parseStringLoop_mono : ∀ f data pos out p,
    parseStringLoopF f data pos = .ok (out, p) → pos ≤ p := by
  intro f
  induction f with
  | zero => intro data pos out p h; simp [parseStringLoopF] at h
  | succ f ih =>
    intro data pos out p h
    rw [parseStringLoopF] at h
    cases hget : data.get? pos with
    | none => rw [hget] at h; exact absurd h (fun hc => Except.noConfusion hc)
    | some b =>
      simp only [hget] at h
      by_cases h34 : (b == 34) = true
      · rw [if_pos h34] at h
        simp only [Except.ok.injEq, Prod.mk.injEq] at h
        omega
      · rw [if_neg h34] at h
        by_cases h92 : (b == 92) = true
        · rw [if_pos h92] at h
          cases hget2 : data.get? (pos + 1) with
          | none => simp only [hget2] at h; exact Except.noConfusion h
          | some c =>
            simp only [hget2] at h
            by_cases hc0 : (c == 34) = true
            · rw [if_pos hc0] at h
              cases hrec : parseStringLoopF f data (pos + 2) with
              | error e => simp only [hrec] at h; exact Except.noConfusion h
              | ok v =>
                obtain ⟨o, p1⟩ := v
                simp only [hrec, Except.ok.injEq, Prod.mk.injEq] at h
                have hm := ih data (pos + 2) o p1 hrec
                omega
            · rw [if_neg hc0] at h
              by_cases hc1 : (c == 92) = true
              · rw [if_pos hc1] at h
                cases hrec : parseStringLoopF f data (pos + 2) with
                | error e => simp only [hrec] at h; exact Except.noConfusion h
                | ok v =>
                  obtain ⟨o, p1⟩ := v
                  simp only [hrec, Except.ok.injEq, Prod.mk.injEq] at h
                  have hm := ih data (pos + 2) o p1 hrec
                  omega
              · rw [if_neg hc1] at h
                by_cases hc2 : (c == 47) = true
                · rw [if_pos hc2] at h
                  cases hrec : parseStringLoopF f data (pos + 2) with
                  | error e => simp only [hrec] at h; exact Except.noConfusion h
                  | ok v =>
                    obtain ⟨o, p1⟩ := v
                    simp only [hrec, Except.ok.injEq, Prod.mk.injEq] at h
                    have hm := ih data (pos + 2) o p1 hrec
                    omega
                · rw [if_neg hc2] at h
                  by_cases hc3 : (c == 98) = true
                  · rw [if_pos hc3] at h
                    cases hrec : parseStringLoopF f data (pos + 2) with
                    | error e => simp only [hrec] at h; exact Except.noConfusion h
                    | ok v =>
                      obtain ⟨o, p1⟩ := v
                      simp only [hrec, Except.ok.injEq, Prod.mk.injEq] at h
                      have hm := ih data (pos + 2) o p1 hrec
                      omega
                  · rw [if_neg hc3] at h
                    by_cases hc4 : (c == 102) = true
                    · rw [if_pos hc4] at h
                      cases hrec : parseStringLoopF f data (pos + 2) with
                      | error e => simp only [hrec] at h; exact Except.noConfusion h
                      | ok v =>
                        obtain ⟨o, p1⟩ := v
                        simp only [hrec, Except.ok.injEq, Prod.mk.injEq] at h
                        have hm := ih data (pos + 2) o p1 hrec
                        omega
                    · rw [if_neg hc4] at h
                      by_cases hc5 : (c == 110) = true
                      · rw [if_pos hc5] at h
                        cases hrec : parseStringLoopF f data (pos + 2) with
                        | error e => simp only [hrec] at h; exact Except.noConfusion h
                        | ok v =>
                          obtain ⟨o, p1⟩ := v
                          simp only [hrec, Except.ok.injEq, Prod.mk.injEq] at h
                          have hm := ih data (pos + 2) o p1 hrec
                          omega
                      · rw [if_neg hc5] at h
                        by_cases hc6 : (c == 114) = true
                        · rw [if_pos hc6] at h
                          cases hrec : parseStringLoopF f data (pos + 2) with
                          | error e => simp only [hrec] at h; exact Except.noConfusion h
                          | ok v =>
                            obtain ⟨o, p1⟩ := v
                            simp only [hrec, Except.ok.injEq, Prod.mk.injEq] at h
                            have hm := ih data (pos + 2) o p1 hrec
                            omega
                        · rw [if_neg hc6] at h
                          by_cases hc7 : (c == 116) = true
                          · rw [if_pos hc7] at h
                            cases hrec : parseStringLoopF f data (pos + 2) with
                            | error e => simp only [hrec] at h; exact Except.noConfusion h
                            | ok v =>
                              obtain ⟨o, p1⟩ := v
                              simp only [hrec, Except.ok.injEq, Prod.mk.injEq] at h
                              have hm := ih data (pos + 2) o p1 hrec
                              omega
                          · rw [if_neg hc7] at h
                            by_cases hcu : (c == 117) = true
                            · rw [if_pos hcu] at h
                              cases hhex : readHex4 data (pos + 2) with
                              | error e => simp only [hhex] at h; exact Except.noConfusion h
                              | ok hs =>
                                simp only [hhex] at h
                                cases hrec : parseStringLoopF f data (pos + 6) with
                                | error e => simp only [hrec] at h; exact Except.noConfusion h
                                | ok v =>
                                  obtain ⟨o, p1⟩ := v
                                  simp only [hrec, Except.ok.injEq, Prod.mk.injEq] at h
                                  have hm := ih data (pos + 6) o p1 hrec
                                  omega
                            · rw [if_neg hcu] at h
                              exact Except.noConfusion h
        · rw [if_neg h92] at h
          by_cases h128 : 128 ≤ b
          · rw [if_pos h128] at h
            cases hu : utf8SeqLen b with
            | none => simp only [hu] at h; exact Except.noConfusion h
            | some n =>
              simp only [hu] at h
              cases hcont : readContinuation data (pos + 1) (n - 1) with
              | error e => simp only [hcont] at h; exact Except.noConfusion h
              | ok conts =>
                simp only [hcont] at h
                cases hrec : parseStringLoopF f data (pos + n) with
                | error e => simp only [hrec] at h; exact Except.noConfusion h
                | ok v =>
                  obtain ⟨o, p1⟩ := v
                  simp only [hrec, Except.ok.injEq, Prod.mk.injEq] at h
                  have hm := ih data (pos + n) o p1 hrec
                  omega
          · rw [if_neg h128] at h
            by_cases h32 : b < 32
            · rw [if_pos h32] at h
              cases hrec : parseStringLoopF f data (pos + 1) with
              | error e => simp only [hrec] at h; exact Except.noConfusion h
              | ok v =>
                obtain ⟨o, p1⟩ := v
                simp only [hrec, Except.ok.injEq, Prod.mk.injEq] at h
                have hm := ih data (pos + 1) o p1 hrec
                omega
            · rw [if_neg h32] at h
              cases hrec : parseStringLoopF f data (pos + 1) with
              | error e => simp only [hrec] at h; exact Except.noConfusion h
              | ok v =>
                obtain ⟨o, p1⟩ := v
                simp only [hrec, Except.ok.injEq, Prod.mk.injEq] at h
                have hm := ih data (pos + 1) o p1 hrec
                omega

theorem parseString_mono {f : Nat} {data : List Nat} {pos : Nat} {out : List Nat} {p : Nat}
    (h : parseStringF f data pos = .ok (out, p)) : pos ≤ p := by
  rw [parseStringF] at h
  cases hget : data.get? pos with
  | none => rw [hget] at h; exact absurd h (fun hc => Except.noConfusion hc)
  | some b =>
    simp only [hget] at h
    by_cases h34 : (b == 34) = true
    · rw [if_pos h34] at h
      cases hrec : parseStringLoopF f data (pos + 1) with
      | error e => simp only [hrec] at h; exact Except.noConfusion h
      | ok v =>
        obtain ⟨o, p1⟩ := v
        simp only [hrec, Except.ok.injEq, Prod.mk.injEq] at h
        have hm := parseStringLoop_mono f data (pos + 1) o p1 hrec
        omega
    · rw [if_neg h34] at h
      exact Except.noConfusion h


/-- Positions only advance in the mutually recursive value parsers. -/
theorem parse_mono : ∀ f,
    (∀ data pos depth opts out p,
      parseObjectF f data pos depth opts = .ok (out, p) → pos ≤ p) ∧
    (∀ data pos depth opts out p,
      parseObjectLoopF f data pos depth opts = .ok (out, p) → pos ≤ p) ∧
    (∀ data pos depth opts out p,
      parseArrayF f data pos depth opts = .ok (out, p) → pos ≤ p) ∧
    (∀ data pos depth opts out p,
      parseArrayLoopF f data pos depth opts = .ok (out, p) → pos ≤ p) ∧
    (∀ data pos depth opts out p,
      parseKeyValuePairF f data pos depth opts = .ok (out, p) → pos ≤ p) ∧
    (∀ data pos depth opts out p,
      parseElementF f data pos depth opts = .ok (out, p) → pos ≤ p) := by
  intro f
  induction f with
  | zero =>
    refine ⟨?_, ?_, ?_, ?_, ?_, ?_⟩ <;>
      (intro data pos depth opts out p h
       simp [parseObjectF, parseObjectLoopF, parseArrayF, parseArrayLoopF,
             parseKeyValuePairF, parseElementF] at h)
  | succ f ih =>
    obtain ⟨ihO, ihOL, ihA, ihAL, ihKV, ihE⟩ := ih
    refine ⟨?_, ?_, ?_, ?_, ?_, ?_⟩
    · intro data pos depth opts out p h
      rw [parseObjectF] at h
      by_cases hd : ((depth + 1 : Nat) : Int) ≥ opts.maxDepth
      · rw [if_pos hd] at h; exact Except.noConfusion h
      · rw [if_neg hd] at h
        cases hget : data.get? pos with
        | none => simp only [hget] at h; exact Except.noConfusion h
        | some b =>
          simp only [hget] at h
          by_cases hb : (b == 123) = true
          · rw [if_pos hb] at h
            cases hws : skipWhitespaceF f data (pos + 1) with
            | error e => simp only [hws] at h; exact Except.noConfusion h
            | ok p1 =>
              simp only [hws] at h
              have hw := skipWS_mono f data (pos + 1) p1 hws
              cases hget2 : data.get? p1 with
              | none => simp only [hget2] at h; exact Except.noConfusion h
              | some c =>
                simp only [hget2] at h
                by_cases hc : (c == 125) = true
                · rw [if_pos hc] at h
                  simp only [Except.ok.injEq, Prod.mk.injEq] at h
                  omega
                · rw [if_neg hc] at h
                  cases hkv : parseKeyValuePairF f data p1 (depth + 1) opts with
                  | error e => simp only [hkv] at h; exact Except.noConfusion h
                  | ok v =>
                    obtain ⟨kv, p2⟩ := v
                    simp only [hkv] at h
                    have h1 := ihKV data p1 (depth + 1) opts kv p2 hkv
                    cases hol : parseObjectLoopF f data p2 (depth + 1) opts with
                    | error e => simp only [hol] at h; exact Except.noConfusion h
                    | ok w =>
                      obtain ⟨rest, p3⟩ := w
                      simp only [hol, Except.ok.injEq, Prod.mk.injEq] at h
                      have h2 := ihOL data p2 (depth + 1) opts rest p3 hol
                      omega
          · rw [if_neg hb] at h; exact Except.noConfusion h
    · intro data pos depth opts out p h
      rw [parseObjectLoopF] at h
      cases hws : skipWhitespaceF f data pos with
      | error e => simp only [hws] at h; exact Except.noConfusion h
      | ok p1 =>
        simp only [hws] at h
        have hw := skipWS_mono f data pos p1 hws
        cases hget : data.get? p1 with
        | none => simp only [hget] at h; exact Except.noConfusion h
        | some c =>
          simp only [hget] at h
          by_cases hc : (c == 125) = true
          · rw [if_pos hc] at h
            simp only [Except.ok.injEq, Prod.mk.injEq] at h
            omega
          · rw [if_neg hc] at h
            by_cases hc2 : (c == 44) = true
            · rw [if_pos hc2] at h
              cases hkv : parseKeyValuePairF f data (p1 + 1) depth opts with
              | error e => simp only [hkv] at h; exact Except.noConfusion h
              | ok v =>
                obtain ⟨kv, p2⟩ := v
                simp only [hkv] at h
                have h1 := ihKV data (p1 + 1) depth opts kv p2 hkv
                cases hol : parseObjectLoopF f data p2 depth opts with
                | error e => simp only [hol] at h; exact Except.noConfusion h
                | ok w =>
                  obtain ⟨rest, p3⟩ := w
                  simp only [hol, Except.ok.injEq, Prod.mk.injEq] at h
                  have h2 := ihOL data p2 depth opts rest p3 hol
                  omega
            · rw [if_neg hc2] at h; exact Except.noConfusion h
    · intro data pos depth opts out p h
      rw [parseArrayF] at h
      by_cases hd : ((depth + 1 : Nat) : Int) ≥ opts.maxDepth
      · rw [if_pos hd] at h; exact Except.noConfusion h
      · rw [if_neg hd] at h
        cases hget : data.get? pos with
        | none => simp only [hget] at h; exact Except.noConfusion h
        | some b =>
          simp only [hget] at h
          by_cases hb : (b == 91) = true
          · rw [if_pos hb] at h
            cases hws : skipWhitespaceF f data (pos + 1) with
            | error e => simp only [hws] at h; exact Except.noConfusion h
            | ok p1 =>
              simp only [hws] at h
              have hw := skipWS_mono f data (pos + 1) p1 hws
              cases hget2 : data.get? p1 with
              | none => simp only [hget2] at h; exact Except.noConfusion h
              | some c =>
                simp only [hget2] at h
                by_cases hc : (c == 93) = true
                · rw [if_pos hc] at h
                  simp only [Except.ok.injEq, Prod.mk.injEq] at h
                  omega
                · rw [if_neg hc] at h
                  cases hel : parseElementF f data p1 (depth + 1) opts with
                  | error e => simp only [hel] at h; exact Except.noConfusion h
                  | ok v =>
                    obtain ⟨el, p2⟩ := v
                    simp only [hel] at h
                    have h1 := ihE data p1 (depth + 1) opts el p2 hel
                    cases hal : parseArrayLoopF f data p2 (depth + 1) opts with
                    | error e => simp only [hal] at h; exact Except.noConfusion h
                    | ok w =>
                      obtain ⟨rest, p3⟩ := w
                      simp only [hal, Except.ok.injEq, Prod.mk.injEq] at h
                      have h2 := ihAL data p2 (depth + 1) opts rest p3 hal
                      omega
          · rw [if_neg hb] at h; exact Except.noConfusion h
    · intro data pos depth opts out p h
      rw [parseArrayLoopF] at h
      cases hws : skipWhitespaceF f data pos with
      | error e => simp only [hws] at h; exact Except.noConfusion h
      | ok p1 =>
        simp only [hws] at h
        have hw := skipWS_mono f data pos p1 hws
        cases hget : data.get? p1 with
        | none => simp only [hget] at h; exact Except.noConfusion h
        | some c =>
          simp only [hget] at h
          by_cases hc : (c == 93) = true
          · rw [if_pos hc] at h
            simp only [Except.ok.injEq, Prod.mk.injEq] at h
            omega
          · rw [if_neg hc] at h
            by_cases hc2 : (c == 44) = true
            · rw [if_pos hc2] at h
              cases hel : parseElementF f data (p1 + 1) depth opts with
              | error e => simp only [hel] at h; exact Except.noConfusion h
              | ok v =>
                obtain ⟨el, p2⟩ := v
                simp only [hel] at h
                have h1 := ihE data (p1 + 1) depth opts el p2 hel
                cases hal : parseArrayLoopF f data p2 depth opts with
                | error e => simp only [hal] at h; exact Except.noConfusion h
                | ok w =>
                  obtain ⟨rest, p3⟩ := w
                  simp only [hal, Except.ok.injEq, Prod.mk.injEq] at h
                  have h2 := ihAL data p2 depth opts rest p3 hal
                  omega
            · rw [if_neg hc2] at h; exact Except.noConfusion h
    · intro data pos depth opts out p h
      rw [parseKeyValuePairF] at h
      cases hws : skipWhitespaceF f data pos with
      | error e => simp only [hws] at h; exact Except.noConfusion h
      | ok p1 =>
        simp only [hws] at h
        have hw := skipWS_mono f data pos p1 hws
        cases hstr : parseStringF f data p1 with
        | error e => simp only [hstr] at h; exact Except.noConfusion h
        | ok v =>
          obtain ⟨key, p2⟩ := v
          simp only [hstr] at h
          have h1 := parseStringLoop_mono f data (p1 + 1)
          have h1s : p1 ≤ p2 := parseString_mono hstr
          cases hws2 : skipWhitespaceF f data p2 with
          | error e => simp only [hws2] at h; exact Except.noConfusion h
          | ok p3 =>
            simp only [hws2] at h
            have hw2 := skipWS_mono f data p2 p3 hws2
            cases hget : data.get? p3 with
            | none => simp only [hget] at h; exact Except.noConfusion h
            | some c =>
              simp only [hget] at h
              by_cases hc : (c == 58) = true
              · rw [if_pos hc] at h
                cases hws3 : skipWhitespaceF f data (p3 + 1) with
                | error e => simp only [hws3] at h; exact Except.noConfusion h
                | ok p4 =>
                  simp only [hws3] at h
                  have hw3 := skipWS_mono f data (p3 + 1) p4 hws3
                  cases hel : parseElementF f data p4 depth opts with
                  | error e => simp only [hel] at h; exact Except.noConfusion h
                  | ok w =>
                    obtain ⟨v, p5⟩ := w
                    simp only [hel, Except.ok.injEq, Prod.mk.injEq] at h
                    have h2 := ihE data p4 depth opts v p5 hel
                    omega
              · rw [if_neg hc] at h; exact Except.noConfusion h
    · intro data pos depth opts out p h
      rw [parseElementF] at h
      cases hws : skipWhitespaceF f data pos with
      | error e => simp only [hws] at h; exact Except.noConfusion h
      | ok p1 =>
        simp only [hws] at h
        have hw := skipWS_mono f data pos p1 hws
        cases hget : data.get? p1 with
        | none => simp only [hget] at h; exact Except.noConfusion h
        | some b =>
          simp only [hget] at h
          by_cases h1 : (b == 123) = true
          · rw [if_pos h1] at h
            have h2 := ihO data p1 depth opts out p h
            omega
          · rw [if_neg h1] at h
            by_cases h2 : (b == 91) = true
            · rw [if_pos h2] at h
              have h3 := ihA data p1 depth opts out p h
              omega
            · rw [if_neg h2] at h
              by_cases h3 : (b == 34) = true
              · rw [if_pos h3] at h
                have h4 := parseString_mono h
                omega
              · rw [if_neg h3] at h
                by_cases h4 : (b == 116 || b == 102) = true
                · rw [if_pos h4] at h
                  have h5 := parseBoolean_mono h
                  omega
                · rw [if_neg h4] at h
                  by_cases h5 : (b == 110) = true
                  · rw [if_pos h5] at h
                    have h6 := parseNull_mono h
                    omega
                  · rw [if_neg h5] at h
                    by_cases h6 : ((48 ≤ b && b ≤ 57) || b == 45) = true
                    · rw [if_pos h6] at h
                      have h7 := parseNumber_mono f data p1 out p h
                      omega
                    · rw [if_neg h6] at h; exact Except.noConfusion h

/-- `parseValue` only advances the cursor. -/
theorem parseValue_mono {f : Nat} {data : List Nat} {pos sb : Nat} {opts : Options}
    {out : List Nat} {p : Nat}
    (h : parseValueF f data pos sb opts = .ok (out, p)) : pos ≤ p := by
  rw [parseValueF] at h
  by_cases h1 : (sb == 123) = true
  · rw [if_pos h1] at h
    exact (parse_mono f).1 data pos 0 opts out p h
  · rw [if_neg h1] at h
    by_cases h2 : (sb == 91) = true
    · rw [if_pos h2] at h
      exact (parse_mono f).2.2.1 data pos 0 opts out p h
    · rw [if_neg h2] at h; exact Except.noConfusion h

/-- Whitespace bytes are not candidate start bytes. -/
theorem isWS_not_brace {c : Nat} (h : isWS c = true) : c ≠ 123 ∧ c ≠ 91 := by
  simp only [isWS, Bool.or_eq_true, beq_iff_eq] at h
  omega

/-- `findJSONStart` lands on the first opening brace or bracket at or after
the start position: the cursor only moves forward, the returned byte is the
byte at the returned position and is `\x7b` or `[`, and no byte strictly
between the start and the returned position is `\x7b` or `[`. -/
theorem findJSONStart_spec : ∀ f data pos b p, findJSONStartF f data pos = .ok (b, p) →
    pos ≤ p ∧ data.get? p = some b ∧ (b = 123 ∨ b = 91) ∧
    ∀ j, pos ≤ j → j < p → ∀ c, data.get? j = some c → c ≠ 123 ∧ c ≠ 91 := by
  intro f
  induction f with
  | zero => intro data pos b p h; simp [findJSONStartF] at h
  | succ f ih =>
    intro data pos b p h
    rw [findJSONStartF] at h
    cases hws : skipWhitespaceF f data pos with
    | error e => simp only [hws] at h; exact Except.noConfusion h
    | ok p1 =>
      simp only [hws] at h
      have hw := skipWS_mono f data pos p1 hws
      have hwall := skipWS_ws f data pos p1 hws
      cases hget : data.get? p1 with
      | none => simp only [hget] at h; exact Except.noConfusion h
      | some b0 =>
        simp only [hget] at h
        by_cases hb : (b0 == 123 || b0 == 91) = true
        · rw [if_pos hb] at h
          simp only [Except.ok.injEq, Prod.mk.injEq] at h
          obtain ⟨hb0, hp1⟩ := h
          subst hb0; subst hp1
          simp only [Bool.or_eq_true, beq_iff_eq] at hb
          refine ⟨hw, hget, hb, ?_⟩
          intro j hj1 hj2 c hc
          exact isWS_not_brace (hwall j hj1 hj2 c hc)
        · rw [if_neg hb] at h
          obtain ⟨hmono, hat, hbr, hnoise⟩ := ih data (p1 + 1) b p h
          simp only [Bool.or_eq_true, beq_iff_eq, not_or] at hb
          refine ⟨by omega, hat, hbr, ?_⟩
          intro j hj1 hj2 c hc
          by_cases hjlt : j < p1
          · exact isWS_not_brace (hwall j hj1 hjlt c hc)
          · by_cases hjeq : j = p1
            · subst hjeq
              rw [hget] at hc
              cases hc
              omega
            · exact hnoise j (by omega) hj2 c hc


/- ------------------------------------------------------------------
C7. Streaming decode: first-occurrence order and monotone cursor.
------------------------------------------------------------------ -/

/-- C7: every successful `parseNext` call returns the value parsed from the
first candidate start (opening brace or bracket) at or after the current
position — no byte strictly before that start is a candidate — and the
cursor only moves forward (`pos ≤ s ≤ p2`), so successive calls return
values strictly in first-occurrence order and never revisit earlier input;
in particular, streaming over `junk ("a":1 in braces) noise [1,2] end`
yields the object at cursor 12, then the array at cursor 24, then end of
input, with the cursor strictly increasing across the calls. -/
theorem streaming_first_match_order :
    (∀ f data pos opts out p2, parseNextF f data pos opts = .ok (out, p2) →
      ∃ b s, data.get? s = some b ∧ (b = 123 ∨ b = 91) ∧ pos ≤ s ∧ s ≤ p2 ∧
        (∀ j, pos ≤ j → j < s → ∀ c, data.get? j = some c → c ≠ 123 ∧ c ≠ 91) ∧
        parseValueF f data s b opts = .ok (out, p2)) ∧
    parseNextF (fuelFor streamEx) streamEx 0 defaultOptions =
      .ok ([123, 34, 97, 34, 58, 49, 125], 12) ∧
    parseNextF (fuelFor streamEx) streamEx 12 defaultOptions =
      .ok ([91, 49, 44, 50, 93], 24) ∧
    parseNextF (fuelFor streamEx) streamEx 24 defaultOptions = .error .ioEOF ∧
    (0 : Nat) < 12 ∧ (12 : Nat) < 24 := by
  refine ⟨?_, by rfl, by rfl, by rfl, by omega, by omega⟩
  intro f data pos opts out p2 h
  rw [parseNextF] at h
  cases hf : findJSONStartF f data pos with
  | error e => simp only [hf] at h; exact Except.noConfusion h
  | ok v =>
    obtain ⟨b, s⟩ := v
    simp only [hf] at h
    obtain ⟨hmono, hat, hbr, hnoise⟩ := findJSONStart_spec f data pos b s hf
    exact ⟨b, s, hat, hbr, hmono, parseValue_mono h, hnoise, h⟩

/-- Witness for C7's general conjunct at the concrete stream: the first
call on the example stream parses from offset 5, the first opening brace. -/
theorem streaming_first_match_order_witness :
    parseNextF (fuelFor streamEx) streamEx 0 defaultOptions =
      .ok ([123, 34, 97, 34, 58, 49, 125], 12) ∧
    ∃ b s, streamEx.get? s = some b ∧ (b = 123 ∨ b = 91) ∧ 0 ≤ s ∧ s ≤ 12 ∧
      (∀ j, 0 ≤ j → j < s → ∀ c, streamEx.get? j = some c → c ≠ 123 ∧ c ≠ 91) ∧
      parseValueF (fuelFor streamEx) streamEx s b defaultOptions =
        .ok ([123, 34, 97, 34, 58, 49, 125], 12) :=
  ⟨by rfl,
   streaming_first_match_order.1 (fuelFor streamEx) streamEx 0 defaultOptions
     [123, 34, 97, 34, 58, 49, 125] 12 (by rfl)⟩


/-! Token-level lemmas for parsing the canonical serialization in place. -/

theorem drop_append_right {data xs r : List Nat} {pos : Nat}
    (h : data.drop pos = xs ++ r) : data.drop (pos + xs.length) = r := by
  have h1 : data.drop (pos + xs.length) = (data.drop pos).drop xs.length := by
    rw [List.drop_drop, Nat.add_comm]
  rw [h1, h, List.drop_left]

theorem head?_of_drop {data r : List Nat} {pos : Nat} (h : data.drop pos = r) :
    data.get? pos = r.head? := by
  have h0 : (data.drop pos).get? 0 = data.get? (pos + 0) := List.get?_drop data pos 0
  rw [h] at h0
  cases r with
  | nil => simpa using h0.symm
  | cons a t => simpa using h0.symm

theorem skipWS_err : ∀ f data pos e, skipWhitespaceF f data pos = .error e →
    e = .ioEOF ∨ e = .outOfFuel := by
  intro f
  induction f with
  | zero =>
    intro data pos e h
    simp only [skipWhitespaceF] at h
    exact Or.inr (Except.error.inj h).symm
  | succ f ih =>
    intro data pos e h
    rw [skipWhitespaceF] at h
    split at h
    · exact Or.inl (Except.error.inj h).symm
    next b hb =>
      split at h
      · exact ih data (pos + 1) e h
      · exact absurd h (by simp)

theorem findJSONStart_err : ∀ f data pos e, findJSONStartF f data pos = .error e →
    e = .ioEOF ∨ e = .outOfFuel := by
  intro f
  induction f with
  | zero =>
    intro data pos e h
    simp only [findJSONStartF] at h
    exact Or.inr (Except.error.inj h).symm
  | succ f ih =>
    intro data pos e h
    rw [findJSONStartF] at h
    split at h
    next e2 hws => exact (Except.error.inj h) ▸ skipWS_err f data pos e2 hws
    next p hws =>
      split at h
      · exact Or.inl (Except.error.inj h).symm
      next b hb =>
        split at h
        · exact absurd h (by simp)
        · exact ih data (p + 1) e h

theorem expectLit_match : ∀ lit data pos rest emsg, data.drop pos = lit ++ rest →
    expectLit data pos lit emsg = .ok (lit, pos + lit.length) := by
  intro lit
  induction lit with
  | nil =>
    intro data pos rest emsg h
    simp [expectLit]
  | cons c cs ih =>
    intro data pos rest emsg h
    rw [List.cons_append] at h
    obtain ⟨hget, hdrop⟩ := drop_cons_split h
    rw [expectLit]
    simp only [hget]
    rw [if_pos (by simp)]
    rw [ih data (pos + 1) rest emsg hdrop]
    simp only [Except.ok.injEq, Prod.mk.injEq, List.length_cons]
    exact ⟨by trivial, by omega⟩

theorem parseNumber_digits : ∀ s : List Nat, (∀ b ∈ s, 48 ≤ b ∧ b ≤ 57) →
    ∀ f data pos rest, data.drop pos = s ++ rest →
    (∀ c, rest.head? = some c → isNumChar c = false) →
    s.length + 1 ≤ f →
    parseNumberF f data pos = .ok (s, pos + s.length) := by
  intro s
  induction s with
  | nil =>
    intro _ f data pos rest hdrop hbound hf
    obtain ⟨f1, rfl⟩ : ∃ g, f = g + 1 := ⟨f - 1, by omega⟩
    rw [parseNumberF]
    have hget : data.get? pos = rest.head? := head?_of_drop (by simpa using hdrop)
    cases hr : rest.head? with
    | none =>
      rw [hr] at hget
      simp only [hget, List.length_nil, Nat.add_zero]
    | some c =>
      rw [hr] at hget
      simp only [hget]
      rw [if_neg (by simp [hbound c hr])]
      simp
  | cons b bs ih =>
    intro hdig f data pos rest hdrop hbound hf
    obtain ⟨f1, rfl⟩ : ∃ g, f = g + 1 := ⟨f - 1, by omega⟩
    rw [List.cons_append] at hdrop
    obtain ⟨hget, hdrop1⟩ := drop_cons_split hdrop
    rw [parseNumberF]
    simp only [hget]
    have hb := hdig b (by simp)
    rw [if_pos (by simp [isNumChar]; omega)]
    rw [ih (fun c hc => hdig c (by simp [hc])) f1 data (pos + 1) rest hdrop1 hbound
      (by simp only [List.length_cons] at hf; omega)]
    simp only [Except.ok.injEq, Prod.mk.injEq, List.length_cons]
    exact ⟨by trivial, by omega⟩

theorem parseStringLoop_plain : ∀ k : List Nat,
    (∀ b ∈ k, 32 ≤ b ∧ b ≤ 127 ∧ b ≠ 34 ∧ b ≠ 92) →
    ∀ f data pos rest, data.drop pos = k ++ 34 :: rest → k.length + 2 ≤ f →
    parseStringLoopF f data pos = .ok (k ++ [34], pos + k.length + 1) := by
  intro k
  induction k with
  | nil =>
    intro _ f data pos rest hdrop hf
    obtain ⟨f1, rfl⟩ : ∃ g, f = g + 1 := ⟨f - 1, by omega⟩
    obtain ⟨hget, _⟩ := drop_cons_split (by simpa using hdrop)
    rw [parseStringLoopF]
    simp only [hget]
    rw [if_pos (by simp)]
    simp
  | cons b bs ih =>
    intro hwf f data pos rest hdrop hf
    obtain ⟨f1, rfl⟩ : ∃ g, f = g + 1 := ⟨f - 1, by omega⟩
    rw [List.cons_append] at hdrop
    obtain ⟨hget, hdrop1⟩ := drop_cons_split hdrop
    obtain ⟨h32, h127, h34, h92⟩ := hwf b (by simp)
    rw [parseStringLoopF]
    simp only [hget]
    rw [if_neg (by simp [h34]), if_neg (by simp [h92]),
      if_neg (by omega), if_neg (by omega)]
    rw [ih (fun c hc => hwf c (by simp [hc])) f1 data (pos + 1) rest hdrop1
      (by simp only [List.length_cons] at hf; omega)]
    simp only [Except.ok.injEq, Prod.mk.injEq, List.length_cons, List.cons_append]
    exact ⟨by trivial, by omega⟩

theorem parseString_plain {k : List Nat}
    (hk : ∀ b ∈ k, 32 ≤ b ∧ b ≤ 127 ∧ b ≠ 34 ∧ b ≠ 92)
    {f : Nat} {data : List Nat} {pos : Nat} {rest : List Nat}
    (hdrop : data.drop pos = (34 :: k ++ [34]) ++ rest) (hf : k.length + 2 ≤ f) :
    parseStringF f data pos = .ok (34 :: k ++ [34], pos + k.length + 2) := by
  rw [List.cons_append] at hdrop
  obtain ⟨hget, hdrop1⟩ := drop_cons_split hdrop
  rw [parseStringF]
  simp only [hget]
  rw [if_pos (by simp)]
  have hd2 : data.drop (pos + 1) = k ++ 34 :: rest := by
    rw [hdrop1]; simp
  rw [parseStringLoop_plain k hk f data (pos + 1) rest hd2 hf]
  simp only [Except.ok.injEq, Prod.mk.injEq, List.cons_append]
  exact ⟨by trivial, by omega⟩


/-! Facts about the canonical serialization. -/

theorem wfStr_props {s : List Nat} (h : wfStrBytes s = true) :
    ∀ b ∈ s, 32 ≤ b ∧ b ≤ 127 ∧ b ≠ 34 ∧ b ≠ 92 := by
  intro b hb
  rw [wfStrBytes, List.all_eq_true] at h
  have := h b hb
  simp only [Bool.and_eq_true, decide_eq_true_eq, bne_iff_ne] at this
  exact ⟨this.1.1.1.1.1, this.1.1.1.1.2, this.1.1.1.2, this.1.1.2⟩

theorem wfStr_braceFree {s : List Nat} (h : wfStrBytes s = true) :
    braceFreeBytes s = true := by
  rw [wfStrBytes, List.all_eq_true] at h
  rw [braceFreeBytes, List.all_eq_true]
  intro b hb
  have := h b hb
  simp only [Bool.and_eq_true, bne_iff_ne] at this ⊢
  exact ⟨this.1.2, this.2⟩

theorem wfNum_props {s : List Nat} (h : wfNumBytes s = true) :
    s ≠ [] ∧ ∀ b ∈ s, 48 ≤ b ∧ b ≤ 57 := by
  rw [wfNumBytes, Bool.and_eq_true, List.all_eq_true] at h
  refine ⟨by simpa using h.1, fun b hb => ?_⟩
  have := h.2 b hb
  simp only [Bool.and_eq_true, decide_eq_true_eq] at this
  exact this

theorem digits_braceFree {s : List Nat} (h : ∀ b ∈ s, 48 ≤ b ∧ b ≤ 57) :
    braceFreeBytes s = true := by
  rw [braceFreeBytes, List.all_eq_true]
  intro b hb
  have := h b hb
  simp only [Bool.and_eq_true, bne_iff_ne]
  omega

theorem emit_head (v : JVal) (hwf : wfVal v = true) :
    ∃ b t, emitVal v = b :: t ∧ isWS b = false ∧ b ≠ 93 ∧ b ≠ 125 := by
  cases v with
  | str s => exact ⟨34, s ++ [34], by simp [emitVal], by decide, by decide, by decide⟩
  | num s =>
    obtain ⟨hne, hdig⟩ := wfNum_props hwf
    cases s with
    | nil => exact absurd rfl hne
    | cons d ds =>
      have := hdig d (by simp)
      exact ⟨d, ds, by simp [emitVal], by simp [isWS]; omega, by omega, by omega⟩
  | boolean b =>
    cases b with
    | true =>
      exact ⟨116, [114, 117, 101], by simp [emitVal], by decide, by decide, by decide⟩
    | false =>
      exact ⟨102, [97, 108, 115, 101], by simp [emitVal], by decide, by decide, by decide⟩
  | null => exact ⟨110, [117, 108, 108], by simp [emitVal], by decide, by decide, by decide⟩
  | obj ms => exact ⟨123, emitObjBody ms, by simp [emitVal], by decide, by decide, by decide⟩
  | arr es => exact ⟨91, emitArrBody es, by simp [emitVal], by decide, by decide, by decide⟩

theorem memLoop_boundary (ms : JMembers) (rest : List Nat) :
    ∀ c, (emitMembersLoop ms ++ rest).head? = some c → isNumChar c = false := by
  intro c hc
  cases ms with
  | nil =>
    simp only [emitMembersLoop, List.cons_append, List.head?_cons,
      Option.some.injEq] at hc
    rw [← hc]
    decide
  | cons k v ms2 =>
    simp only [emitMembersLoop, List.cons_append, List.head?_cons,
      Option.some.injEq] at hc
    rw [← hc]
    decide

theorem elemLoop_boundary (es : JElems) (rest : List Nat) :
    ∀ c, (emitElemsLoop es ++ rest).head? = some c → isNumChar c = false := by
  intro c hc
  cases es with
  | nil =>
    simp only [emitElemsLoop, List.cons_append, List.head?_cons,
      Option.some.injEq] at hc
    rw [← hc]
    decide
  | cons e es2 =>
    simp only [emitElemsLoop, List.cons_append, List.head?_cons,
      Option.some.injEq] at hc
    rw [← hc]
    decide


/-! The parser on the canonical serialization: each parse function, run at a
position where the serialization of a well-formed value (member list,
element list) is planted, consumes exactly that serialization and re-emits
it unchanged, succeeding exactly when the configured depth limit strictly
exceeds the depth reached, and failing with the depth error otherwise. -/

theorem parseKV_assemble (k : List Nat) (v : JVal) (data : List Nat) (pos : Nat)
    (Y : List Nat) (dep : Nat) (m bs : Int) (f2 : Nat)
    (hk : wfStrBytes k = true) (hwfv : wfVal v = true)
    (hdrop : data.drop pos = (34 :: (k ++ 34 :: 58 :: emitVal v)) ++ Y)
    (hel : parseElementF f2 data (pos + k.length + 2 + 1) dep ⟨m, bs⟩ =
      if depthVal v = 0 ∨ (dep : Int) + (depthVal v : Int) < m
      then .ok (emitVal v, pos + k.length + 2 + 1 + (emitVal v).length)
      else .error depthErr)
    (hf : k.length + 2 ≤ f2) :
    parseKeyValuePairF (f2 + 1) data pos dep ⟨m, bs⟩ =
      if depthVal v = 0 ∨ (dep : Int) + (depthVal v : Int) < m
      then .ok (34 :: (k ++ 34 :: 58 :: emitVal v),
        pos + k.length + 2 + 1 + (emitVal v).length)
      else .error depthErr := by
  have hd0 : data.drop pos = 34 :: (k ++ 34 :: 58 :: emitVal v ++ Y) := by
    rw [hdrop]; simp
  obtain ⟨hget34, hd1⟩ := drop_cons_split hd0
  have hdropS : data.drop pos = (34 :: k ++ [34]) ++ (58 :: (emitVal v ++ Y)) := by
    rw [hdrop]; simp
  have hstr := parseString_plain (wfStr_props hk) hdropS hf
  have hd2 := drop_append_right hdropS
  have hp2 : pos + (34 :: k ++ [34] : List Nat).length = pos + k.length + 2 := by
    simp; omega
  rw [hp2] at hd2
  obtain ⟨hget58, hd3⟩ := drop_cons_split hd2
  obtain ⟨bv, tv, hbv, hbvWS, hbv93, hbv125⟩ := emit_head v hwfv
  have hd3c : data.drop (pos + k.length + 2 + 1) = bv :: (tv ++ Y) := by
    rw [hd3, hbv]; simp
  obtain ⟨hgetv, _⟩ := drop_cons_split hd3c
  rw [parseKeyValuePairF]
  simp only [skipWS_stop f2 (by omega) hget34 (by decide), hstr,
    skipWS_stop f2 (by omega) hget58 (by decide), hget58]
  rw [if_pos (show ((58 : Nat) == 58) = true from rfl)]
  simp only [skipWS_stop f2 (by omega) hgetv (by rw [hbvWS])]
  by_cases hcv : depthVal v = 0 ∨ (dep : Int) + (depthVal v : Int) < m
  · rw [if_pos hcv] at hel
    simp only [hel]
    rw [if_pos hcv]
    simp only [Except.ok.injEq, Prod.mk.injEq]
    exact ⟨by simp, by trivial⟩
  · rw [if_neg hcv] at hel
    simp only [hel]
    rw [if_neg hcv]

mutual

theorem parseElem_emit : ∀ v : JVal,
    ∀ (data : List Nat) (pos : Nat) (rest : List Nat) (d : Nat) (m bs : Int) (f : Nat),
    wfVal v = true →
    data.drop pos = emitVal v ++ rest →
    (∀ c, rest.head? = some c → isNumChar c = false) →
    8 * (emitVal v).length + 6 ≤ f →
    parseElementF f data pos d ⟨m, bs⟩ =
      (if depthVal v = 0 ∨ (d : Int) + (depthVal v : Int) < m
       then .ok (emitVal v, pos + (emitVal v).length)
       else .error depthErr)
  | .str s => by
    intro data pos rest d m bs f hwf hdrop hbound hf
    have hemit : emitVal (.str s) = 34 :: s ++ [34] := by simp [emitVal]
    rw [hemit] at hdrop hf ⊢
    obtain ⟨f1, rfl⟩ : ∃ g, f = g + 1 := ⟨f - 1, by
      have : (34 :: s ++ [34] : List Nat).length = s.length + 2 := by simp
      omega⟩
    have hd0 : data.drop pos = 34 :: ((s ++ [34]) ++ rest) := by rw [hdrop]; simp
    obtain ⟨hget, _⟩ := drop_cons_split hd0
    have hL : (34 :: s ++ [34] : List Nat).length = s.length + 2 := by simp
    have hps := parseString_plain (wfStr_props (by simpa [wfVal] using hwf)) hdrop
      (show s.length + 2 ≤ f1 by omega)
    rw [if_pos (Or.inl (by simp [depthVal]))]
    rw [parseElementF]
    simp only [skipWS_stop f1 (by omega) hget (by decide), hget]
    rw [if_neg (show ¬(((34 : Nat) == 123) = true) from by decide),
      if_neg (show ¬(((34 : Nat) == 91) = true) from by decide),
      if_pos (show ((34 : Nat) == 34) = true from rfl)]
    rw [hps]
    simp only [Except.ok.injEq, Prod.mk.injEq]
    exact ⟨by trivial, by rw [hL]; omega⟩
  | .num s => by
    intro data pos rest d m bs f hwf hdrop hbound hf
    obtain ⟨hne, hdig⟩ := wfNum_props (by simpa [wfVal] using hwf)
    have hemit : emitVal (.num s) = s := by simp [emitVal]
    rw [hemit] at hdrop hf ⊢
    obtain ⟨d0, ds, rfl⟩ : ∃ a t, s = a :: t := by
      cases s with
      | nil => exact absurd rfl hne
      | cons a t => exact ⟨a, t, rfl⟩
    obtain ⟨f1, rfl⟩ : ∃ g, f = g + 1 := ⟨f - 1, by omega⟩
    have hd0 : data.drop pos = d0 :: (ds ++ rest) := by rw [hdrop]; simp
    obtain ⟨hget, _⟩ := drop_cons_split hd0
    have hdd := hdig d0 (by simp)
    have hnum := parseNumber_digits (d0 :: ds) hdig f1 data pos rest hdrop hbound
      (by simp only [List.length_cons] at hf ⊢; omega)
    rw [if_pos (Or.inl (by simp [depthVal]))]
    rw [parseElementF]
    simp only [skipWS_stop f1 (by omega) hget (by simp [isWS]; omega), hget]
    rw [if_neg (show ¬((d0 == 123) = true) from by simp; omega),
      if_neg (show ¬((d0 == 91) = true) from by simp; omega),
      if_neg (show ¬((d0 == 34) = true) from by simp; omega),
      if_neg (show ¬((d0 == 116 || d0 == 102) = true) from by simp; omega),
      if_neg (show ¬((d0 == 110) = true) from by simp; omega),
      if_pos (show ((48 ≤ d0 && d0 ≤ 57) || d0 == 45) = true from by simp; omega)]
    exact hnum
  | .boolean b => by
    intro data pos rest d m bs f hwf hdrop hbound hf
    cases b with
    | true =>
      have hemit : emitVal (.boolean true) = [116, 114, 117, 101] := by simp [emitVal]
      rw [hemit] at hdrop hf ⊢
      obtain ⟨f1, rfl⟩ : ∃ g, f = g + 1 := ⟨f - 1, by simp at hf; omega⟩
      have hd0 : data.drop pos = 116 :: ([114, 117, 101] ++ rest) := by rw [hdrop]; simp
      obtain ⟨hget, _⟩ := drop_cons_split hd0
      rw [if_pos (Or.inl (by simp [depthVal]))]
      rw [parseElementF]
      simp only [skipWS_stop f1 (by omega) hget (by decide), hget]
      rw [if_neg (show ¬(((116 : Nat) == 123) = true) from by decide),
        if_neg (show ¬(((116 : Nat) == 91) = true) from by decide),
        if_neg (show ¬(((116 : Nat) == 34) = true) from by decide),
        if_pos (show (((116 : Nat) == 116) || 116 == 102) = true from rfl)]
      rw [parseBooleanF]
      simp only [hget]
      rw [if_pos (show (((116 : Nat)) == 116) = true from rfl)]
      exact expectLit_match [116, 114, 117, 101] data pos rest _ hdrop
    | false =>
      have hemit : emitVal (.boolean false) = [102, 97, 108, 115, 101] := by
        simp [emitVal]
      rw [hemit] at hdrop hf ⊢
      obtain ⟨f1, rfl⟩ : ∃ g, f = g + 1 := ⟨f - 1, by simp at hf; omega⟩
      have hd0 : data.drop pos = 102 :: ([97, 108, 115, 101] ++ rest) := by
        rw [hdrop]; simp
      obtain ⟨hget, _⟩ := drop_cons_split hd0
      rw [if_pos (Or.inl (by simp [depthVal]))]
      rw [parseElementF]
      simp only [skipWS_stop f1 (by omega) hget (by decide), hget]
      rw [if_neg (show ¬(((102 : Nat) == 123) = true) from by decide),
        if_neg (show ¬(((102 : Nat) == 91) = true) from by decide),
        if_neg (show ¬(((102 : Nat) == 34) = true) from by decide),
        if_pos (show (((102 : Nat) == 116) || 102 == 102) = true from rfl)]
      rw [parseBooleanF]
      simp only [hget]
      rw [if_neg (show ¬(((102 : Nat)) == 116) = true from by decide),
        if_pos (show (((102 : Nat)) == 102) = true from rfl)]
      exact expectLit_match [102, 97, 108, 115, 101] data pos rest _ hdrop
  | .null => by
    intro data pos rest d m bs f hwf hdrop hbound hf
    have hemit : emitVal .null = [110, 117, 108, 108] := by simp [emitVal]
    rw [hemit] at hdrop hf ⊢
    obtain ⟨f1, rfl⟩ : ∃ g, f = g + 1 := ⟨f - 1, by simp at hf; omega⟩
    have hd0 : data.drop pos = 110 :: ([117, 108, 108] ++ rest) := by rw [hdrop]; simp
    obtain ⟨hget, _⟩ := drop_cons_split hd0
    rw [if_pos (Or.inl (by simp [depthVal]))]
    rw [parseElementF]
    simp only [skipWS_stop f1 (by omega) hget (by decide), hget]
    rw [if_neg (show ¬(((110 : Nat) == 123) = true) from by decide),
      if_neg (show ¬(((110 : Nat) == 91) = true) from by decide),
      if_neg (show ¬(((110 : Nat) == 34) = true) from by decide),
      if_neg (show ¬((((110 : Nat)) == 116 || 110 == 102) = true) from by decide),
      if_pos (show (((110 : Nat)) == 110) = true from rfl)]
    rw [parseNullF]
    exact expectLit_match [110, 117, 108, 108] data pos rest _ hdrop
  | .obj ms => by
    intro data pos rest d m bs f hwf hdrop hbound hf
    obtain ⟨f1, rfl⟩ : ∃ g, f = g + 1 := ⟨f - 1, by omega⟩
    have hd0 : data.drop pos = 123 :: (emitObjBody ms ++ rest) := by
      rw [hdrop]; simp [emitVal]
    obtain ⟨hget, _⟩ := drop_cons_split hd0
    have hobj := parseObj_emit ms data pos rest d m bs f1 (by simpa [wfVal] using hwf)
      hdrop (by omega)
    rw [parseElementF]
    simp only [skipWS_stop f1 (by omega) hget (by decide), hget]
    rw [if_pos (show ((123 : Nat) == 123) = true from rfl)]
    rw [hobj]
    by_cases hc : (d : Int) + (depthVal (JVal.obj ms) : Int) < m
    · rw [if_pos hc, if_pos (Or.inr hc)]
    · rw [if_neg hc,
        if_neg (by simp only [not_or]; exact ⟨by simp [depthVal], hc⟩)]
  | .arr es => by
    intro data pos rest d m bs f hwf hdrop hbound hf
    obtain ⟨f1, rfl⟩ : ∃ g, f = g + 1 := ⟨f - 1, by omega⟩
    have hd0 : data.drop pos = 91 :: (emitArrBody es ++ rest) := by
      rw [hdrop]; simp [emitVal]
    obtain ⟨hget, _⟩ := drop_cons_split hd0
    have harr := parseArr_emit es data pos rest d m bs f1 (by simpa [wfVal] using hwf)
      hdrop (by omega)
    rw [parseElementF]
    simp only [skipWS_stop f1 (by omega) hget (by decide), hget]
    rw [if_neg (show ¬(((91 : Nat) == 123) = true) from by decide),
      if_pos (show ((91 : Nat) == 91) = true from rfl)]
    rw [harr]
    by_cases hc : (d : Int) + (depthVal (JVal.arr es) : Int) < m
    · rw [if_pos hc, if_pos (Or.inr hc)]
    · rw [if_neg hc,
        if_neg (by simp only [not_or]; exact ⟨by simp [depthVal], hc⟩)]

theorem parseObj_emit : ∀ ms : JMembers,
    ∀ (data : List Nat) (pos : Nat) (rest : List Nat) (d : Nat) (m bs : Int) (f : Nat),
    wfMembers ms = true →
    data.drop pos = emitVal (.obj ms) ++ rest →
    8 * (emitVal (.obj ms)).length + 4 ≤ f →
    parseObjectF f data pos d ⟨m, bs⟩ =
      (if (d : Int) + (depthVal (.obj ms) : Int) < m
       then .ok (emitVal (.obj ms), pos + (emitVal (.obj ms)).length)
       else .error depthErr)
  | .nil => by
    intro data pos rest d m bs f hwf hdrop hf
    have hemit : emitVal (.obj .nil) = [123, 125] := by simp [emitVal, emitObjBody]
    rw [hemit] at hdrop hf ⊢
    obtain ⟨f1, rfl⟩ : ∃ g, f = g + 1 := ⟨f - 1, by simp at hf; omega⟩
    have hd0 : data.drop pos = 123 :: (125 :: rest) := by rw [hdrop]; simp
    obtain ⟨hget, hd1⟩ := drop_cons_split hd0
    obtain ⟨hget1, _⟩ := drop_cons_split hd1
    have hdep : depthVal (.obj .nil) = 1 := by simp [depthVal, depthMembers]
    rw [hdep]
    rw [parseObjectF]
    by_cases hd2 : ((d + 1 : Nat) : Int) ≥ m
    · rw [if_pos hd2, if_neg (by push_cast at hd2 ⊢; omega)]
    · rw [if_neg hd2]
      simp only [hget]
      rw [if_pos (show ((123 : Nat) == 123) = true from rfl)]
      simp only [skipWS_stop f1 (by omega) hget1 (by decide), hget1]
      rw [if_pos (show ((125 : Nat) == 125) = true from rfl)]
      rw [if_pos (show (d : Int) + ((1 : Nat) : Int) < m from by push_cast at hd2 ⊢; omega)]
      have hpp : pos + 1 + 1 = pos + ([123, 125] : List Nat).length := by simp
      rw [hpp]
  | .cons k v ms2 => by
    intro data pos rest d m bs f hwf hdrop hf
    obtain ⟨⟨hk, hwfv⟩, hwfm⟩ :
        (wfStrBytes k = true ∧ wfVal v = true) ∧ wfMembers ms2 = true := by
      simpa [wfMembers, Bool.and_eq_true] using hwf
    have hemit : emitVal (.obj (.cons k v ms2)) =
        123 :: ((34 :: (k ++ 34 :: 58 :: emitVal v)) ++ emitMembersLoop ms2) := by
      simp [emitVal, emitObjBody]
    have hlen : (emitVal (.obj (.cons k v ms2))).length =
        1 + (k.length + 3 + (emitVal v).length) + (emitMembersLoop ms2).length := by
      rw [hemit]; simp; omega
    obtain ⟨f1, rfl⟩ : ∃ g, f = g + 1 := ⟨f - 1, by omega⟩
    obtain ⟨f2, rfl⟩ : ∃ g, f1 = g + 1 := ⟨f1 - 1, by omega⟩
    have hd0 : data.drop pos =
        123 :: ((34 :: (k ++ 34 :: 58 :: emitVal v)) ++ (emitMembersLoop ms2 ++ rest)) := by
      rw [hdrop, hemit]; simp
    obtain ⟨hget, hd1⟩ := drop_cons_split hd0
    have hd1c : data.drop (pos + 1) = 34 :: (k ++ 34 :: 58 :: emitVal v ++
        (emitMembersLoop ms2 ++ rest)) := by rw [hd1]; simp
    obtain ⟨hget34, _⟩ := drop_cons_split hd1c
    have hel := parseElem_emit v data (pos + 1 + k.length + 2 + 1)
      (emitMembersLoop ms2 ++ rest) (d + 1) m bs f2 hwfv
      (by
        have hd2 := drop_append_right (show data.drop (pos + 1) =
          (34 :: k ++ [34] ++ [58]) ++ (emitVal v ++ (emitMembersLoop ms2 ++ rest)) from by
            rw [hd1]; simp)
        have hp2 : pos + 1 + (34 :: k ++ [34] ++ [58] : List Nat).length =
            pos + 1 + k.length + 2 + 1 := by simp; omega
        rw [hp2] at hd2
        exact hd2)
      (memLoop_boundary ms2 rest) (by omega)
    have hkv := parseKV_assemble k v data (pos + 1) (emitMembersLoop ms2 ++ rest)
      (d + 1) m bs f2 hk hwfv hd1 hel (by omega)
    rw [parseObjectF]
    by_cases hdc : ((d + 1 : Nat) : Int) ≥ m
    · rw [if_pos hdc,
        if_neg (by simp only [depthVal, depthMembers]; push_cast at hdc ⊢; omega)]
    · rw [if_neg hdc]
      simp only [hget]
      rw [if_pos (show ((123 : Nat) == 123) = true from rfl)]
      simp only [skipWS_stop (f2 + 1) (by omega) hget34 (by decide), hget34]
      rw [if_neg (show ¬(((34 : Nat) == 125) = true) from by decide)]
      by_cases hcv : depthVal v = 0 ∨ ((d + 1 : Nat) : Int) + (depthVal v : Int) < m
      · rw [if_pos hcv] at hkv
        simp only [hkv]
        have hlp := parseMemLoop_emit ms2 data
          (pos + 1 + k.length + 2 + 1 + (emitVal v).length) rest (d + 1) m bs (f2 + 1)
          hwfm
          (by
            have := drop_append_right (show data.drop (pos + 1 + k.length + 2 + 1) =
              emitVal v ++ (emitMembersLoop ms2 ++ rest) from by
                have hd2 := drop_append_right (show data.drop (pos + 1) =
                  (34 :: k ++ [34] ++ [58]) ++ (emitVal v ++ (emitMembersLoop ms2 ++ rest))
                  from by rw [hd1]; simp)
                have hp2 : pos + 1 + (34 :: k ++ [34] ++ [58] : List Nat).length =
                    pos + 1 + k.length + 2 + 1 := by simp; omega
                rw [hp2] at hd2
                exact hd2)
            exact this)
          (by omega)
        by_cases hcl : depthMembers ms2 = 0 ∨
            ((d + 1 : Nat) : Int) + (depthMembers ms2 : Int) < m
        · rw [if_pos hcl] at hlp
          simp only [hlp]
          rw [if_pos (by
            simp only [depthVal, depthMembers]
            rcases hcv with hcv | hcv <;> rcases hcl with hcl | hcl <;>
              push_cast at hdc ⊢ <;> omega)]
          simp only [Except.ok.injEq, Prod.mk.injEq]
          constructor
          · rw [hemit]; simp
          · rw [hlen]; omega
        · rw [if_neg hcl] at hlp
          simp only [hlp]
          rw [if_neg (by
            simp only [depthVal, depthMembers, not_or] at hcl ⊢
            push_cast at hcl ⊢
            omega)]
      · rw [if_neg hcv] at hkv
        simp only [hkv]
        rw [if_neg (by
          simp only [depthVal, depthMembers, not_or] at hcv ⊢
          push_cast at hcv ⊢
          omega)]

theorem parseMemLoop_emit : ∀ ms : JMembers,
    ∀ (data : List Nat) (pos : Nat) (rest : List Nat) (d : Nat) (m bs : Int) (f : Nat),
    wfMembers ms = true →
    data.drop pos = emitMembersLoop ms ++ rest →
    8 * (emitMembersLoop ms).length + 4 ≤ f →
    parseObjectLoopF f data pos d ⟨m, bs⟩ =
      (if depthMembers ms = 0 ∨ (d : Int) + (depthMembers ms : Int) < m
       then .ok (emitMembersLoop ms, pos + (emitMembersLoop ms).length)
       else .error depthErr)
  | .nil => by
    intro data pos rest d m bs f hwf hdrop hf
    have hemit : emitMembersLoop .nil = [125] := by simp [emitMembersLoop]
    rw [hemit] at hdrop hf ⊢
    obtain ⟨f1, rfl⟩ : ∃ g, f = g + 1 := ⟨f - 1, by simp at hf; omega⟩
    have hd0 : data.drop pos = 125 :: rest := by rw [hdrop]; simp
    obtain ⟨hget, _⟩ := drop_cons_split hd0
    rw [if_pos (Or.inl (by simp [depthMembers]))]
    rw [parseObjectLoopF]
    simp only [skipWS_stop f1 (by omega) hget (by decide), hget]
    rw [if_pos (show ((125 : Nat) == 125) = true from rfl)]
    have hpp : pos + 1 = pos + ([125] : List Nat).length := by simp
    rw [hpp]
  | .cons k v ms2 => by
    intro data pos rest d m bs f hwf hdrop hf
    obtain ⟨⟨hk, hwfv⟩, hwfm⟩ :
        (wfStrBytes k = true ∧ wfVal v = true) ∧ wfMembers ms2 = true := by
      simpa [wfMembers, Bool.and_eq_true] using hwf
    have hemit : emitMembersLoop (.cons k v ms2) =
        44 :: ((34 :: (k ++ 34 :: 58 :: emitVal v)) ++ emitMembersLoop ms2) := by
      simp [emitMembersLoop]
    have hlen : (emitMembersLoop (.cons k v ms2)).length =
        1 + (k.length + 3 + (emitVal v).length) + (emitMembersLoop ms2).length := by
      rw [hemit]; simp; omega
    obtain ⟨f1, rfl⟩ : ∃ g, f = g + 1 := ⟨f - 1, by omega⟩
    obtain ⟨f2, rfl⟩ : ∃ g, f1 = g + 1 := ⟨f1 - 1, by omega⟩
    have hd0 : data.drop pos =
        44 :: ((34 :: (k ++ 34 :: 58 :: emitVal v)) ++ (emitMembersLoop ms2 ++ rest)) := by
      rw [hdrop, hemit]; simp
    obtain ⟨hget, hd1⟩ := drop_cons_split hd0
    have hel := parseElem_emit v data (pos + 1 + k.length + 2 + 1)
      (emitMembersLoop ms2 ++ rest) d m bs f2 hwfv
      (by
        have hd2 := drop_append_right (show data.drop (pos + 1) =
          (34 :: k ++ [34] ++ [58]) ++ (emitVal v ++ (emitMembersLoop ms2 ++ rest)) from by
            rw [hd1]; simp)
        have hp2 : pos + 1 + (34 :: k ++ [34] ++ [58] : List Nat).length =
            pos + 1 + k.length + 2 + 1 := by simp; omega
        rw [hp2] at hd2
        exact hd2)
      (memLoop_boundary ms2 rest) (by omega)
    have hkv := parseKV_assemble k v data (pos + 1) (emitMembersLoop ms2 ++ rest)
      d m bs f2 hk hwfv hd1 hel (by omega)
    rw [parseObjectLoopF]
    simp only [skipWS_stop (f2 + 1) (by omega) hget (by decide), hget]
    rw [if_neg (show ¬(((44 : Nat) == 125) = true) from by decide),
      if_pos (show ((44 : Nat) == 44) = true from rfl)]
    by_cases hcv : depthVal v = 0 ∨ (d : Int) + (depthVal v : Int) < m
    · rw [if_pos hcv] at hkv
      simp only [hkv]
      have hlp := parseMemLoop_emit ms2 data
        (pos + 1 + k.length + 2 + 1 + (emitVal v).length) rest d m bs (f2 + 1)
        hwfm
        (by
          exact drop_append_right (show data.drop (pos + 1 + k.length + 2 + 1) =
            emitVal v ++ (emitMembersLoop ms2 ++ rest) from by
              have hd2 := drop_append_right (show data.drop (pos + 1) =
                (34 :: k ++ [34] ++ [58]) ++ (emitVal v ++ (emitMembersLoop ms2 ++ rest))
                from by rw [hd1]; simp)
              have hp2 : pos + 1 + (34 :: k ++ [34] ++ [58] : List Nat).length =
                  pos + 1 + k.length + 2 + 1 := by simp; omega
              rw [hp2] at hd2
              exact hd2))
        (by omega)
      by_cases hcl : depthMembers ms2 = 0 ∨ (d : Int) + (depthMembers ms2 : Int) < m
      · rw [if_pos hcl] at hlp
        simp only [hlp]
        rw [if_pos (by
          simp only [depthMembers]
          rcases hcv with hcv | hcv <;> rcases hcl with hcl | hcl <;> [skip; skip; skip; skip] <;>
            first
            | (left; omega)
            | (right; omega)
            | (rcases Nat.eq_zero_or_pos (max (depthVal v) (depthMembers ms2)) with h0 | h0
               · exact Or.inl h0
               · right; omega))]
        simp only [Except.ok.injEq, Prod.mk.injEq]
        constructor
        · rw [hemit]; simp
        · rw [hlen]; omega
      · rw [if_neg hcl] at hlp
        simp only [hlp]
        rw [if_neg (by
          simp only [depthMembers, not_or] at hcl ⊢
          constructor
          · omega
          · push_cast at hcl ⊢; omega)]
    · rw [if_neg hcv] at hkv
      simp only [hkv]
      rw [if_neg (by
        simp only [depthMembers, not_or] at hcv ⊢
        constructor
        · omega
        · push_cast at hcv ⊢; omega)]

theorem parseArr_emit : ∀ es : JElems,
    ∀ (data : List Nat) (pos : Nat) (rest : List Nat) (d : Nat) (m bs : Int) (f : Nat),
    wfElems es = true →
    data.drop pos = emitVal (.arr es) ++ rest →
    8 * (emitVal (.arr es)).length + 4 ≤ f →
    parseArrayF f data pos d ⟨m, bs⟩ =
      (if (d : Int) + (depthVal (.arr es) : Int) < m
       then .ok (emitVal (.arr es), pos + (emitVal (.arr es)).length)
       else .error depthErr)
  | .nil => by
    intro data pos rest d m bs f hwf hdrop hf
    have hemit : emitVal (.arr .nil) = [91, 93] := by simp [emitVal, emitArrBody]
    rw [hemit] at hdrop hf ⊢
    obtain ⟨f1, rfl⟩ : ∃ g, f = g + 1 := ⟨f - 1, by simp at hf; omega⟩
    have hd0 : data.drop pos = 91 :: (93 :: rest) := by rw [hdrop]; simp
    obtain ⟨hget, hd1⟩ := drop_cons_split hd0
    obtain ⟨hget1, _⟩ := drop_cons_split hd1
    have hdep : depthVal (.arr .nil) = 1 := by simp [depthVal, depthElems]
    rw [hdep]
    rw [parseArrayF]
    by_cases hd2 : ((d + 1 : Nat) : Int) ≥ m
    · rw [if_pos hd2, if_neg (by push_cast at hd2 ⊢; omega)]
    · rw [if_neg hd2]
      simp only [hget]
      rw [if_pos (show ((91 : Nat) == 91) = true from rfl)]
      simp only [skipWS_stop f1 (by omega) hget1 (by decide), hget1]
      rw [if_pos (show ((93 : Nat) == 93) = true from rfl)]
      rw [if_pos (show (d : Int) + ((1 : Nat) : Int) < m from by push_cast at hd2 ⊢; omega)]
      have hpp : pos + 1 + 1 = pos + ([91, 93] : List Nat).length := by simp
      rw [hpp]
  | .cons e es2 => by
    intro data pos rest d m bs f hwf hdrop hf
    obtain ⟨hwfe, hwfes⟩ : wfVal e = true ∧ wfElems es2 = true := by
      simpa [wfElems, Bool.and_eq_true] using hwf
    have hemit : emitVal (.arr (.cons e es2)) =
        91 :: (emitVal e ++ emitElemsLoop es2) := by
      simp [emitVal, emitArrBody]
    have hlen : (emitVal (.arr (.cons e es2))).length =
        1 + (emitVal e).length + (emitElemsLoop es2).length := by
      rw [hemit]; simp; omega
    obtain ⟨f1, rfl⟩ : ∃ g, f = g + 1 := ⟨f - 1, by omega⟩
    have hd0 : data.drop pos = 91 :: (emitVal e ++ (emitElemsLoop es2 ++ rest)) := by
      rw [hdrop, hemit]; simp
    obtain ⟨hget, hd1⟩ := drop_cons_split hd0
    obtain ⟨bv, tv, hbv, hbvWS, hbv93, hbv125⟩ := emit_head e hwfe
    have hd1c : data.drop (pos + 1) = bv :: (tv ++ (emitElemsLoop es2 ++ rest)) := by
      rw [hd1, hbv]; simp
    obtain ⟨hgetE, _⟩ := drop_cons_split hd1c
    have hel := parseElem_emit e data (pos + 1) (emitElemsLoop es2 ++ rest)
      (d + 1) m bs f1 hwfe hd1 (elemLoop_boundary es2 rest) (by omega)
    rw [parseArrayF]
    by_cases hdc : ((d + 1 : Nat) : Int) ≥ m
    · rw [if_pos hdc,
        if_neg (by simp only [depthVal, depthElems]; push_cast at hdc ⊢; omega)]
    · rw [if_neg hdc]
      simp only [hget]
      rw [if_pos (show ((91 : Nat) == 91) = true from rfl)]
      simp only [skipWS_stop f1 (by omega) hgetE (by rw [hbvWS]), hgetE]
      rw [if_neg (show ¬((bv == 93) = true) from by simp [hbv93])]
      by_cases hcv : depthVal e = 0 ∨ ((d + 1 : Nat) : Int) + (depthVal e : Int) < m
      · rw [if_pos hcv] at hel
        simp only [hel]
        have hlp := parseElemLoop_emit es2 data (pos + 1 + (emitVal e).length) rest
          (d + 1) m bs f1 hwfes (drop_append_right hd1) (by omega)
        by_cases hcl : depthElems es2 = 0 ∨
            ((d + 1 : Nat) : Int) + (depthElems es2 : Int) < m
        · rw [if_pos hcl] at hlp
          simp only [hlp]
          rw [if_pos (by
            simp only [depthVal, depthElems]
            rcases hcv with hcv | hcv <;> rcases hcl with hcl | hcl <;>
              push_cast at hdc ⊢ <;> omega)]
          simp only [Except.ok.injEq, Prod.mk.injEq]
          constructor
          · rw [hemit]; simp
          · rw [hlen]; omega
        · rw [if_neg hcl] at hlp
          simp only [hlp]
          rw [if_neg (by
            simp only [depthVal, depthElems, not_or] at hcl ⊢
            push_cast at hcl ⊢
            omega)]
      · rw [if_neg hcv] at hel
        simp only [hel]
        rw [if_neg (by
          simp only [depthVal, depthElems, not_or] at hcv ⊢
          push_cast at hcv ⊢
          omega)]

theorem parseElemLoop_emit : ∀ es : JElems,
    ∀ (data : List Nat) (pos : Nat) (rest : List Nat) (d : Nat) (m bs : Int) (f : Nat),
    wfElems es = true →
    data.drop pos = emitElemsLoop es ++ rest →
    8 * (emitElemsLoop es).length + 4 ≤ f →
    parseArrayLoopF f data pos d ⟨m, bs⟩ =
      (if depthElems es = 0 ∨ (d : Int) + (depthElems es : Int) < m
       then .ok (emitElemsLoop es, pos + (emitElemsLoop es).length)
       else .error depthErr)
  | .nil => by
    intro data pos rest d m bs f hwf hdrop hf
    have hemit : emitElemsLoop .nil = [93] := by simp [emitElemsLoop]
    rw [hemit] at hdrop hf ⊢
    obtain ⟨f1, rfl⟩ : ∃ g, f = g + 1 := ⟨f - 1, by simp at hf; omega⟩
    have hd0 : data.drop pos = 93 :: rest := by rw [hdrop]; simp
    obtain ⟨hget, _⟩ := drop_cons_split hd0
    rw [if_pos (Or.inl (by simp [depthElems]))]
    rw [parseArrayLoopF]
    simp only [skipWS_stop f1 (by omega) hget (by decide), hget]
    rw [if_pos (show ((93 : Nat) == 93) = true from rfl)]
    have hpp : pos + 1 = pos + ([93] : List Nat).length := by simp
    rw [hpp]
  | .cons e es2 => by
    intro data pos rest d m bs f hwf hdrop hf
    obtain ⟨hwfe, hwfes⟩ : wfVal e = true ∧ wfElems es2 = true := by
      simpa [wfElems, Bool.and_eq_true] using hwf
    have hemit : emitElemsLoop (.cons e es2) =
        44 :: (emitVal e ++ emitElemsLoop es2) := by
      simp [emitElemsLoop]
    have hlen : (emitElemsLoop (.cons e es2)).length =
        1 + (emitVal e).length + (emitElemsLoop es2).length := by
      rw [hemit]; simp; omega
    obtain ⟨f1, rfl⟩ : ∃ g, f = g + 1 := ⟨f - 1, by omega⟩
    have hd0 : data.drop pos = 44 :: (emitVal e ++ (emitElemsLoop es2 ++ rest)) := by
      rw [hdrop, hemit]; simp
    obtain ⟨hget, hd1⟩ := drop_cons_split hd0
    have hel := parseElem_emit e data (pos + 1) (emitElemsLoop es2 ++ rest)
      d m bs f1 hwfe hd1 (elemLoop_boundary es2 rest) (by omega)
    rw [parseArrayLoopF]
    simp only [skipWS_stop f1 (by omega) hget (by decide), hget]
    rw [if_neg (show ¬(((44 : Nat) == 93) = true) from by decide),
      if_pos (show ((44 : Nat) == 44) = true from rfl)]
    by_cases hcv : depthVal e = 0 ∨ (d : Int) + (depthVal e : Int) < m
    · rw [if_pos hcv] at hel
      simp only [hel]
      have hlp := parseElemLoop_emit es2 data (pos + 1 + (emitVal e).length) rest
        d m bs f1 hwfes (drop_append_right hd1) (by omega)
      by_cases hcl : depthElems es2 = 0 ∨ (d : Int) + (depthElems es2 : Int) < m
      · rw [if_pos hcl] at hlp
        simp only [hlp]
        rw [if_pos (by
          simp only [depthElems]
          rcases hcv with hcv | hcv <;> rcases hcl with hcl | hcl <;>
            first
            | (left; omega)
            | (right; omega)
            | (rcases Nat.eq_zero_or_pos (max (depthVal e) (depthElems es2)) with h0 | h0
               · exact Or.inl h0
               · right; omega))]
        simp only [Except.ok.injEq, Prod.mk.injEq]
        constructor
        · rw [hemit]; simp
        · rw [hlen]; omega
      · rw [if_neg hcl] at hlp
        simp only [hlp]
        rw [if_neg (by
          simp only [depthElems, not_or] at hcl ⊢
          constructor
          · omega
          · push_cast at hcl ⊢; omega)]
    · rw [if_neg hcv] at hel
      simp only [hel]
      rw [if_neg (by
        simp only [depthElems, not_or] at hcv ⊢
        constructor
        · omega
        · push_cast at hcv ⊢; omega)]

end


/-! Localization of scan candidates inside a canonical serialization: every
opening brace or bracket in it starts the serialization of a well-formed
sub-container. -/

theorem subEmissions_nil (D t : Nat) : subEmissionsAt D t [] := by
  intro j b h
  simp at h

theorem subEmissions_cons {D t : Nat} {b0 : Nat} {l : List Nat}
    (h123 : b0 ≠ 123) (h91 : b0 ≠ 91) (h : subEmissionsAt D t l) :
    subEmissionsAt D t (b0 :: l) := by
  intro j b hget hbr
  cases j with
  | zero =>
    simp only [List.get?] at hget
    cases hget
    rcases hbr with h | h
    · exact absurd h h123
    · exact absurd h h91
  | succ j =>
    simp only [List.get?] at hget
    obtain ⟨u, r, h1, h2, h3, h4, h5⟩ := h j b hget hbr
    exact ⟨u, r, h1, h2, h3, by simpa using h4, h5⟩

theorem subEmissions_append_bf {D t : Nat} {ks l : List Nat}
    (hks : braceFreeBytes ks = true) (h : subEmissionsAt D t l) :
    subEmissionsAt D t (ks ++ l) := by
  induction ks with
  | nil => simpa using h
  | cons b0 ks2 ih =>
    have hb : (b0 != 123 && b0 != 91) = true ∧ braceFreeBytes ks2 = true := by
      simpa [braceFreeBytes] using hks
    have hb2 := hb.1
    simp only [Bool.and_eq_true, bne_iff_ne] at hb2
    simpa using subEmissions_cons hb2.1 hb2.2 (ih hb.2)

mutual

theorem subEmit_val : ∀ v : JVal, ∀ (D t : Nat) (tail : List Nat),
    wfVal v = true → depthVal v ≤ D → subEmissionsAt D t tail → t ≤ tail.length →
    subEmissionsAt D t (emitVal v ++ tail)
  | .str s => by
    intro D t tail hwf hD htail hlen
    have hsh : emitVal (.str s) ++ tail = 34 :: (s ++ (34 :: tail)) := by
      simp [emitVal]
    rw [hsh]
    exact subEmissions_cons (by omega) (by omega)
      (subEmissions_append_bf (wfStr_braceFree (by simpa [wfVal] using hwf))
        (subEmissions_cons (by omega) (by omega) htail))
  | .num s => by
    intro D t tail hwf hD htail hlen
    obtain ⟨hne, hdig⟩ := wfNum_props (by simpa [wfVal] using hwf)
    have hsh : emitVal (.num s) ++ tail = s ++ tail := by simp [emitVal]
    rw [hsh]
    exact subEmissions_append_bf (digits_braceFree hdig) htail
  | .boolean b => by
    intro D t tail hwf hD htail hlen
    cases b with
    | true =>
      have hsh : emitVal (.boolean true) ++ tail = [116, 114, 117, 101] ++ tail := by
        simp [emitVal]
      rw [hsh]
      exact subEmissions_append_bf (by decide) htail
    | false =>
      have hsh : emitVal (.boolean false) ++ tail = [102, 97, 108, 115, 101] ++ tail := by
        simp [emitVal]
      rw [hsh]
      exact subEmissions_append_bf (by decide) htail
  | .null => by
    intro D t tail hwf hD htail hlen
    have hsh : emitVal .null ++ tail = [110, 117, 108, 108] ++ tail := by simp [emitVal]
    rw [hsh]
    exact subEmissions_append_bf (by decide) htail
  | .obj ms => by
    intro D t tail hwf hD htail hlen
    have hbody := subEmit_objBody ms D t tail (by simpa [wfVal] using hwf)
      (by simp only [depthVal] at hD; omega) htail hlen
    intro j b hget hbr
    cases j with
    | zero =>
      refine ⟨.obj ms, tail, hwf, rfl, hD, by simp, hlen⟩
    | succ j =>
      have hsh : emitVal (.obj ms) ++ tail = 123 :: (emitObjBody ms ++ tail) := by
        simp [emitVal]
      rw [hsh] at hget
      simp only [List.get?] at hget
      obtain ⟨u, r, h1, h2, h3, h4, h5⟩ := hbody j b hget hbr
      refine ⟨u, r, h1, h2, h3, ?_, h5⟩
      rw [hsh]
      simpa using h4
  | .arr es => by
    intro D t tail hwf hD htail hlen
    have hbody := subEmit_arrBody es D t tail (by simpa [wfVal] using hwf)
      (by simp only [depthVal] at hD; omega) htail hlen
    intro j b hget hbr
    cases j with
    | zero =>
      refine ⟨.arr es, tail, hwf, rfl, hD, by simp, hlen⟩
    | succ j =>
      have hsh : emitVal (.arr es) ++ tail = 91 :: (emitArrBody es ++ tail) := by
        simp [emitVal]
      rw [hsh] at hget
      simp only [List.get?] at hget
      obtain ⟨u, r, h1, h2, h3, h4, h5⟩ := hbody j b hget hbr
      refine ⟨u, r, h1, h2, h3, ?_, h5⟩
      rw [hsh]
      simpa using h4

theorem subEmit_objBody : ∀ ms : JMembers, ∀ (D t : Nat) (tail : List Nat),
    wfMembers ms = true → depthMembers ms ≤ D → subEmissionsAt D t tail →
    t ≤ tail.length →
    subEmissionsAt D t (emitObjBody ms ++ tail)
  | .nil => by
    intro D t tail hwf hD htail hlen
    have hsh : emitObjBody .nil ++ tail = 125 :: tail := by simp [emitObjBody]
    rw [hsh]
    exact subEmissions_cons (by omega) (by omega) htail
  | .cons k v ms2 => by
    intro D t tail hwf hD htail hlen
    obtain ⟨⟨hk, hwfv⟩, hwfm⟩ :
        (wfStrBytes k = true ∧ wfVal v = true) ∧ wfMembers ms2 = true := by
      simpa [wfMembers, Bool.and_eq_true] using hwf
    have hDv : depthVal v ≤ D := by simp only [depthMembers] at hD; omega
    have hDm : depthMembers ms2 ≤ D := by simp only [depthMembers] at hD; omega
    have hloop := subEmit_memLoop ms2 D t tail hwfm hDm htail hlen
    have hlen2 : t ≤ (emitMembersLoop ms2 ++ tail).length := by
      simp only [List.length_append]; omega
    have hv := subEmit_val v D t (emitMembersLoop ms2 ++ tail) hwfv hDv hloop hlen2
    have hsh : emitObjBody (.cons k v ms2) ++ tail =
        34 :: (k ++ (34 :: (58 :: (emitVal v ++ (emitMembersLoop ms2 ++ tail))))) := by
      simp [emitObjBody]
    rw [hsh]
    exact subEmissions_cons (by omega) (by omega)
      (subEmissions_append_bf (wfStr_braceFree hk)
        (subEmissions_cons (by omega) (by omega)
          (subEmissions_cons (by omega) (by omega) hv)))

theorem subEmit_memLoop : ∀ ms : JMembers, ∀ (D t : Nat) (tail : List Nat),
    wfMembers ms = true → depthMembers ms ≤ D → subEmissionsAt D t tail →
    t ≤ tail.length →
    subEmissionsAt D t (emitMembersLoop ms ++ tail)
  | .nil => by
    intro D t tail hwf hD htail hlen
    have hsh : emitMembersLoop .nil ++ tail = 125 :: tail := by simp [emitMembersLoop]
    rw [hsh]
    exact subEmissions_cons (by omega) (by omega) htail
  | .cons k v ms2 => by
    intro D t tail hwf hD htail hlen
    obtain ⟨⟨hk, hwfv⟩, hwfm⟩ :
        (wfStrBytes k = true ∧ wfVal v = true) ∧ wfMembers ms2 = true := by
      simpa [wfMembers, Bool.and_eq_true] using hwf
    have hDv : depthVal v ≤ D := by simp only [depthMembers] at hD; omega
    have hDm : depthMembers ms2 ≤ D := by simp only [depthMembers] at hD; omega
    have hloop := subEmit_memLoop ms2 D t tail hwfm hDm htail hlen
    have hlen2 : t ≤ (emitMembersLoop ms2 ++ tail).length := by
      simp only [List.length_append]; omega
    have hv := subEmit_val v D t (emitMembersLoop ms2 ++ tail) hwfv hDv hloop hlen2
    have hsh : emitMembersLoop (.cons k v ms2) ++ tail =
        44 :: (34 :: (k ++ (34 :: (58 :: (emitVal v ++ (emitMembersLoop ms2 ++ tail)))))) := by
      simp [emitMembersLoop]
    rw [hsh]
    exact subEmissions_cons (by omega) (by omega)
      (subEmissions_cons (by omega) (by omega)
        (subEmissions_append_bf (wfStr_braceFree hk)
          (subEmissions_cons (by omega) (by omega)
            (subEmissions_cons (by omega) (by omega) hv))))

theorem subEmit_arrBody : ∀ es : JElems, ∀ (D t : Nat) (tail : List Nat),
    wfElems es = true → depthElems es ≤ D → subEmissionsAt D t tail →
    t ≤ tail.length →
    subEmissionsAt D t (emitArrBody es ++ tail)
  | .nil => by
    intro D t tail hwf hD htail hlen
    have hsh : emitArrBody .nil ++ tail = 93 :: tail := by simp [emitArrBody]
    rw [hsh]
    exact subEmissions_cons (by omega) (by omega) htail
  | .cons e es2 => by
    intro D t tail hwf hD htail hlen
    obtain ⟨hwfe, hwfes⟩ : wfVal e = true ∧ wfElems es2 = true := by
      simpa [wfElems, Bool.and_eq_true] using hwf
    have hDe : depthVal e ≤ D := by simp only [depthElems] at hD; omega
    have hDes : depthElems es2 ≤ D := by simp only [depthElems] at hD; omega
    have hloop := subEmit_elemLoop es2 D t tail hwfes hDes htail hlen
    have hlen2 : t ≤ (emitElemsLoop es2 ++ tail).length := by
      simp only [List.length_append]; omega
    have he := subEmit_val e D t (emitElemsLoop es2 ++ tail) hwfe hDe hloop hlen2
    have hsh : emitArrBody (.cons e es2) ++ tail =
        emitVal e ++ (emitElemsLoop es2 ++ tail) := by
      simp [emitArrBody]
    rw [hsh]
    exact he

theorem subEmit_elemLoop : ∀ es : JElems, ∀ (D t : Nat) (tail : List Nat),
    wfElems es = true → depthElems es ≤ D → subEmissionsAt D t tail →
    t ≤ tail.length →
    subEmissionsAt D t (emitElemsLoop es ++ tail)
  | .nil => by
    intro D t tail hwf hD htail hlen
    have hsh : emitElemsLoop .nil ++ tail = 93 :: tail := by simp [emitElemsLoop]
    rw [hsh]
    exact subEmissions_cons (by omega) (by omega) htail
  | .cons e es2 => by
    intro D t tail hwf hD htail hlen
    obtain ⟨hwfe, hwfes⟩ : wfVal e = true ∧ wfElems es2 = true := by
      simpa [wfElems, Bool.and_eq_true] using hwf
    have hDe : depthVal e ≤ D := by simp only [depthElems] at hD; omega
    have hDes : depthElems es2 ≤ D := by simp only [depthElems] at hD; omega
    have hloop := subEmit_elemLoop es2 D t tail hwfes hDes htail hlen
    have hlen2 : t ≤ (emitElemsLoop es2 ++ tail).length := by
      simp only [List.length_append]; omega
    have he := subEmit_val e D t (emitElemsLoop es2 ++ tail) hwfe hDe hloop hlen2
    have hsh : emitElemsLoop (.cons e es2) ++ tail =
        44 :: (emitVal e ++ (emitElemsLoop es2 ++ tail)) := by
      simp [emitElemsLoop]
    rw [hsh]
    exact subEmissions_cons (by omega) (by omega) he

end

theorem subEmissions_of_bf {D t : Nat} {l : List Nat}
    (h : braceFreeBytes l = true) : subEmissionsAt D t l := by
  intro j b hget hbr
  exfalso
  have hmem := List.get?_mem hget
  rw [braceFreeBytes, List.all_eq_true] at h
  have := h b hmem
  simp only [Bool.and_eq_true, bne_iff_ne] at this
  rcases hbr with h1 | h1
  · exact this.1 h1
  · exact this.2 h1


/-! Assembly: candidate parses over `noise ++ value ++ noise` inputs. -/

theorem emit_container_head (u : JVal) (hc : isContainer u = true) :
    ∃ b0 tl, emitVal u = b0 :: tl ∧ (b0 = 123 ∨ b0 = 91) := by
  cases u with
  | obj ms => exact ⟨123, emitObjBody ms, by simp [emitVal], Or.inl rfl⟩
  | arr es => exact ⟨91, emitArrBody es, by simp [emitVal], Or.inr rfl⟩
  | str s => simp [isContainer] at hc
  | num s => simp [isContainer] at hc
  | boolean b => simp [isContainer] at hc
  | null => simp [isContainer] at hc

/-- A candidate parse at a position where a well-formed container's
serialization is planted re-emits exactly that serialization, or fails
with the depth error when the container is too deep for the limit. -/
theorem cand_parse {data : List Nat} {j : Nat} {u : JVal} {r : List Nat} {m bs : Int}
    (hwf : wfVal u = true) (hcont : isContainer u = true)
    (hdrop : data.drop j = emitVal u ++ r) (hj : j < data.length) :
    tryParseFromPosition data j ⟨m, bs⟩ =
      (if (depthVal u : Int) < m
       then .ok (emitVal u, j + (emitVal u).length)
       else .error depthErr) := by
  have hld := congrArg List.length hdrop
  simp only [List.length_drop, List.length_append] at hld
  rw [tryParseFromPosition, if_neg (by omega)]
  have hfuel : fuelFor data = (8 * data.length + 15) + 1 := by
    simp [fuelFor]
  cases u with
  | str s => simp [isContainer] at hcont
  | num s => simp [isContainer] at hcont
  | boolean b => simp [isContainer] at hcont
  | null => simp [isContainer] at hcont
  | obj ms =>
    have hd0 : data.drop j = 123 :: (emitObjBody ms ++ r) := by
      rw [hdrop]; simp [emitVal]
    obtain ⟨hget, _⟩ := drop_cons_split hd0
    have hfind : findJSONStartF (fuelFor data) data j = .ok (123, j) := by
      rw [hfuel, findJSONStartF]
      simp only [skipWS_stop (8 * data.length + 15) (by omega) hget (by decide), hget]
      rw [if_pos (show (((123 : Nat) == 123) || 123 == 91) = true from rfl)]
    rw [parseNextF]
    simp only [hfind]
    rw [parseValueF]
    rw [if_pos (show ((123 : Nat) == 123) = true from rfl)]
    rw [parseObj_emit ms data j r 0 m bs (fuelFor data) (by simpa [wfVal] using hwf)
      hdrop (by rw [hfuel]; omega)]
    by_cases hc2 : (depthVal (JVal.obj ms) : Int) < m
    · rw [if_pos (show ((0 : Nat) : Int) + (depthVal (JVal.obj ms) : Int) < m from by
        push_cast; omega), if_pos hc2]
    · rw [if_neg (show ¬(((0 : Nat) : Int) + (depthVal (JVal.obj ms) : Int) < m) from by
        push_cast; omega), if_neg hc2]
  | arr es =>
    have hd0 : data.drop j = 91 :: (emitArrBody es ++ r) := by
      rw [hdrop]; simp [emitVal]
    obtain ⟨hget, _⟩ := drop_cons_split hd0
    have hfind : findJSONStartF (fuelFor data) data j = .ok (91, j) := by
      rw [hfuel, findJSONStartF]
      simp only [skipWS_stop (8 * data.length + 15) (by omega) hget (by decide), hget]
      rw [if_pos (show (((91 : Nat) == 123) || 91 == 91) = true from rfl)]
    rw [parseNextF]
    simp only [hfind]
    rw [parseValueF]
    rw [if_neg (show ¬(((91 : Nat) == 123) = true) from by decide),
      if_pos (show ((91 : Nat) == 91) = true from rfl)]
    rw [parseArr_emit es data j r 0 m bs (fuelFor data) (by simpa [wfVal] using hwf)
      hdrop (by rw [hfuel]; omega)]
    by_cases hc2 : (depthVal (JVal.arr es) : Int) < m
    · rw [if_pos (show ((0 : Nat) : Int) + (depthVal (JVal.arr es) : Int) < m from by
        push_cast; omega), if_pos hc2]
    · rw [if_neg (show ¬(((0 : Nat) : Int) + (depthVal (JVal.arr es) : Int) < m) from by
        push_cast; omega), if_neg hc2]

/-- Every scan candidate of an input all of whose braces start well-formed
sub-containers parses to exactly that sub-container's serialization. -/
theorem cand_out_full {data : List Nat} {N t : Nat} {m bs : Int}
    (hP : subEmissionsAt N t data) :
    ∀ j, isCand data j = true → ∃ u r, wfVal u = true ∧ isContainer u = true ∧
      depthVal u ≤ N ∧ data.drop j = emitVal u ++ r ∧ t ≤ r.length ∧
      tryParseFromPosition data j ⟨m, bs⟩ =
        (if (depthVal u : Int) < m then .ok (emitVal u, j + (emitVal u).length)
         else .error depthErr) := by
  intro j hc
  have hjlen := isCand_lt hc
  obtain ⟨b, hget, hbr⟩ : ∃ b, data.get? j = some b ∧ (b = 123 ∨ b = 91) := by
    cases hg : data.get? j with
    | none =>
      rw [List.get?_eq_getElem?] at hg
      simp [isCand, List.get?_eq_getElem?, hg] at hc
    | some b =>
      refine ⟨b, rfl, ?_⟩
      have hg2 := hg
      rw [List.get?_eq_getElem?] at hg2
      simp only [isCand, List.get?_eq_getElem?, hg2] at hc
      simpa using hc
  obtain ⟨u, r, h1, h2, h3, h4, h5⟩ := hP j b hget hbr
  exact ⟨u, r, h1, h2, h3, h4, h5, cand_parse h1 h2 h4 hjlen⟩

/-- No offset inside a brace-free prefix is a scan candidate. -/
theorem no_cand_under {pre l2 : List Nat} (h : braceFreeBytes pre = true) :
    ∀ k, k < pre.length → isCand (pre ++ l2) k = false := by
  intro k hk
  cases hg : pre.get? k with
  | none =>
    rw [List.get?_eq_none] at hg
    omega
  | some b =>
    have hbmem := List.get?_mem hg
    rw [braceFreeBytes, List.all_eq_true] at h
    have hb := h b hbmem
    simp only [Bool.and_eq_true, bne_iff_ne] at hb
    have hgk : (pre ++ l2).get? k = some b := by
      rw [List.get?_eq_getElem?, List.getElem?_append_left hk, ← List.get?_eq_getElem?]
      exact hg
    rw [List.get?_eq_getElem?] at hgk
    simp only [isCand, List.get?_eq_getElem?, hgk]
    simp [hb.1, hb.2]

/-- With the limit above the planted value's depth, no candidate anywhere in
the input fails with the depth error. -/
theorem no_depth_errs {data : List Nat} {N t : Nat} {m bs : Int}
    (hP : subEmissionsAt N t data) (hm : (N : Int) < m) :
    ∀ j, candDepthErr data ⟨m, bs⟩ j = false := by
  intro j
  cases htp : tryParseFromPosition data j ⟨m, bs⟩ with
  | ok v => simp [candDepthErr, htp]
  | error e =>
    simp only [candDepthErr, htp]
    rw [tryParseFromPosition] at htp
    split_ifs at htp with hj
    · have he : e = eofErr ("empty data") := (Except.error.inj htp).symm
      rw [he]
      decide
    · rw [parseNextF] at htp
      cases hfind : findJSONStartF (fuelFor data) data j with
      | error e2 =>
        simp only [hfind] at htp
        have he : e = e2 := (Except.error.inj htp).symm
        rcases findJSONStart_err _ _ _ _ hfind with h2 | h2 <;> rw [he, h2] <;> decide
      | ok v2 =>
        obtain ⟨b, p⟩ := v2
        simp only [hfind] at htp
        obtain ⟨_, hat, hbr, _⟩ := findJSONStart_spec (fuelFor data) data j b p hfind
        obtain ⟨u, r, hwfu, hcontu, hdu, hdropu, _⟩ := hP p b hat hbr
        exfalso
        have hld := congrArg List.length hdropu
        simp only [List.length_drop, List.length_append] at hld
        have hfuel : 8 * (emitVal u).length + 4 ≤ fuelFor data := by
          simp only [fuelFor]; omega
        cases u with
        | str s => simp [isContainer] at hcontu
        | num s => simp [isContainer] at hcontu
        | boolean b2 => simp [isContainer] at hcontu
        | null => simp [isContainer] at hcontu
        | obj ms =>
          have hd0 : data.drop p = 123 :: (emitObjBody ms ++ r) := by
            rw [hdropu]; simp [emitVal]
          obtain ⟨hget, _⟩ := drop_cons_split hd0
          have hb123 : b = 123 := by
            rw [hat] at hget
            exact Option.some.inj hget
          subst hb123
          rw [parseValueF] at htp
          rw [if_pos (show ((123 : Nat) == 123) = true from rfl)] at htp
          rw [parseObj_emit ms data p r 0 m bs (fuelFor data)
            (by simpa [wfVal] using hwfu) hdropu hfuel] at htp
          rw [if_pos (show ((0 : Nat) : Int) + (depthVal (JVal.obj ms) : Int) < m from by
            push_cast; omega)] at htp
          exact Except.noConfusion htp
        | arr es =>
          have hd0 : data.drop p = 91 :: (emitArrBody es ++ r) := by
            rw [hdropu]; simp [emitVal]
          obtain ⟨hget, _⟩ := drop_cons_split hd0
          have hb91 : b = 91 := by
            rw [hat] at hget
            exact Option.some.inj hget
          subst hb91
          rw [parseValueF] at htp
          rw [if_neg (show ¬(((91 : Nat) == 123) = true) from by decide),
            if_pos (show ((91 : Nat) == 91) = true from rfl)] at htp
          rw [parseArr_emit es data p r 0 m bs (fuelFor data)
            (by simpa [wfVal] using hwfu) hdropu hfuel] at htp
          rw [if_pos (show ((0 : Nat) : Int) + (depthVal (JVal.arr es) : Int) < m from by
            push_cast; omega)] at htp
          exact Except.noConfusion htp

/-!
C1. Depth discipline for every well-formed value shape, with noise.  The
parser increments the depth on entry and fails when the incremented depth
already reaches the configured maximum, so a value nested to depth N
parses only when `maxDepth ≥ N + 1`; at `maxDepth = N` extraction fails
with the Syntax depth error (the limit then being non-default, the scan
aborts on the first candidate).
-/

/-- C1 amended: for every well-formed JSON value (any mix of objects,
arrays, strings, numbers, booleans and nulls) of nesting depth N ≤ 50 in
canonical serialization, planted between arbitrary noise runs free of
opening braces and brackets, batch extraction with configured maximum
depth m succeeds — returning exactly the value's serialization — iff
`m ≥ N + 1` (the limit must strictly exceed the nesting depth), and
otherwise fails with the Syntax error "maximum nesting depth exceeded". -/
theorem depth_limit_strict_bound (v : JVal) (noise1 noise2 : List Nat) (m bs : Int)
    (hwf : wfVal v = true) (hcont : isContainer v = true) (hN : depthVal v ≤ 50)
    (hn1 : braceFreeBytes noise1 = true) (hn2 : braceFreeBytes noise2 = true) :
    parseLongest (noise1 ++ emitVal v ++ noise2) ⟨m, bs⟩ =
      (if (depthVal v : Int) + 1 ≤ m then .ok (emitVal v) else .error depthErr) := by
  rw [List.append_assoc]
  have hdropv : (noise1 ++ (emitVal v ++ noise2)).drop noise1.length =
      emitVal v ++ noise2 := List.drop_left noise1 (emitVal v ++ noise2)
  have hP : subEmissionsAt (depthVal v) noise2.length (noise1 ++ (emitVal v ++ noise2)) :=
    subEmissions_append_bf hn1
      (subEmit_val v (depthVal v) noise2.length noise2 hwf le_rfl
        (subEmissions_of_bf hn2) le_rfl)
  obtain ⟨b0, tl, hb0, hbr0⟩ := emit_container_head v hcont
  have hlen_data : (noise1 ++ (emitVal v ++ noise2)).length =
      noise1.length + (emitVal v).length + noise2.length := by
    simp [List.length_append]; omega
  have hlen_pos : 1 ≤ (emitVal v).length := by rw [hb0]; simp
  have hd0 : (noise1 ++ (emitVal v ++ noise2)).drop noise1.length =
      b0 :: (tl ++ noise2) := by rw [hdropv, hb0]; simp
  obtain ⟨hget0, _⟩ := drop_cons_split hd0
  have hget0e := hget0
  rw [List.get?_eq_getElem?] at hget0e
  have hcand0 : isCand (noise1 ++ (emitVal v ++ noise2)) noise1.length = true := by
    simp only [isCand, List.get?_eq_getElem?, hget0e]
    rcases hbr0 with h | h <;> rw [h] <;> rfl
  have htp0 := @cand_parse (noise1 ++ (emitVal v ++ noise2)) noise1.length v noise2 m bs
    hwf hcont hdropv
    (show noise1.length < (noise1 ++ (emitVal v ++ noise2)).length by omega)
  by_cases hm : (depthVal v : Int) + 1 ≤ m
  · have hmlt : (depthVal v : Int) < m := by omega
    have hout0 : candOut (noise1 ++ (emitVal v ++ noise2)) ⟨m, bs⟩ noise1.length =
        some (emitVal v) := by
      simp [candOut, htp0, if_pos hmlt]
    obtain ⟨best', hloop, hinv⟩ := longestLoop_spec (noise1 ++ (emitVal v ++ noise2))
      ⟨m, bs⟩ (Or.inr (no_depth_errs hP hmlt))
      ((noise1 ++ (emitVal v ++ noise2)).length + 1) 0 none (by omega) (by omega)
      (longestInv_start _ _)
    cases best' with
    | none =>
      exfalso
      have hz := hinv noise1.length (by omega) hcand0 (emitVal v) hout0
      omega
    | some o =>
      obtain ⟨jstar, hjlt, hcj, hoj, hmax, hstrict⟩ := hinv
      have hle : (emitVal v).length ≤ o.length :=
        hmax noise1.length (by omega) hcand0 (emitVal v) hout0
      obtain ⟨u, r, hwfu, hcontu, hdu, hdropu, hrlen, htpu⟩ :=
        @cand_out_full (noise1 ++ (emitVal v ++ noise2)) (depthVal v) noise2.length m bs
          hP jstar hcj
      have hou : candOut (noise1 ++ (emitVal v ++ noise2)) ⟨m, bs⟩ jstar =
          some (emitVal u) := by
        simp [candOut, htpu, if_pos (show (depthVal u : Int) < m from by
          have : (depthVal u : Int) ≤ (depthVal v : Int) := by exact_mod_cast hdu
          omega)]
      have ho_eq : o = emitVal u := by
        rw [hoj] at hou
        exact Option.some.inj hou
      have hjge : noise1.length ≤ jstar := by
        by_contra hlt
        push_neg at hlt
        have hz := @no_cand_under noise1 (emitVal v ++ noise2) hn1 jstar hlt
        rw [hz] at hcj
        cases hcj
      have hlenu := congrArg List.length hdropu
      simp only [List.length_drop, List.length_append] at hlenu
      have hjeq : jstar = noise1.length := by
        by_contra hne
        have hgt : noise1.length < jstar := by omega
        have hjin : jstar < (noise1 ++ (emitVal v ++ noise2)).length := isCand_lt hcj
        have hlt2 : (emitVal u).length < (emitVal v).length := by omega
        rw [ho_eq] at hle
        omega
      subst hjeq
      have hoeq2 : o = emitVal v := by
        rw [hout0] at hoj
        exact (Option.some.inj hoj).symm
      subst hoeq2
      rw [parseLongest]
      simp only [hloop]
      rw [if_pos hm]
  · have hmle : ¬ ((depthVal v : Int) < m) := by omega
    have htp0e : tryParseFromPosition (noise1 ++ (emitVal v ++ noise2)) noise1.length
        ⟨m, bs⟩ = .error depthErr := by rw [htp0, if_neg hmle]
    have hcust : hasCustomOptions ⟨m, bs⟩ = true := by
      simp only [hasCustomOptions, Bool.or_eq_true, bne_iff_ne]
      left
      intro hcontra
      rw [hcontra] at hmle
      push_cast at hmle
      omega
    have habort := longestLoop_abort (noise1 ++ (emitVal v ++ noise2)) ⟨m, bs⟩
      noise1.length depthErr hcust hcand0 htp0e (by decide)
      (fun k hk hck => by
        have hz := @no_cand_under noise1 (emitVal v ++ noise2) hn1 k hk
        rw [hz] at hck
        cases hck)
      ((noise1 ++ (emitVal v ++ noise2)).length + 1) 0 (by omega) (by omega) (by omega)
      none
    rw [parseLongest]
    simp only [habort]
    rw [if_neg hm]

/-- Witness for C1 at the value `[{"k":"hi"},2]` (depth 2) with noise on
both sides: with maxDepth 3 extraction succeeds with exactly the value's
bytes, with maxDepth 2 it fails with the depth error. -/
theorem depth_limit_strict_bound_witness :
    parseLongest ([110, 111] ++ emitVal (.arr (.cons (.obj (.cons [107]
        (.str [104, 105]) .nil)) (.cons (.num [50]) .nil))) ++ [32, 101]) ⟨3, 4096⟩ =
      (if (depthVal (.arr (.cons (.obj (.cons [107] (.str [104, 105]) .nil))
          (.cons (.num [50]) .nil))) : Int) + 1 ≤ 3
       then .ok (emitVal (.arr (.cons (.obj (.cons [107] (.str [104, 105]) .nil))
          (.cons (.num [50]) .nil))))
       else .error depthErr) ∧
    parseLongest ([110, 111] ++ emitVal (.arr (.cons (.obj (.cons [107]
        (.str [104, 105]) .nil)) (.cons (.num [50]) .nil))) ++ [32, 101]) ⟨2, 4096⟩ =
      (if (depthVal (.arr (.cons (.obj (.cons [107] (.str [104, 105]) .nil))
          (.cons (.num [50]) .nil))) : Int) + 1 ≤ 2
       then .ok (emitVal (.arr (.cons (.obj (.cons [107] (.str [104, 105]) .nil))
          (.cons (.num [50]) .nil))))
       else .error depthErr) :=
  ⟨depth_limit_strict_bound _ [110, 111] [32, 101] 3 4096 (by decide) (by decide)
      (by decide) (by decide) (by decide),
   depth_limit_strict_bound _ [110, 111] [32, 101] 2 4096 (by decide) (by decide)
      (by decide) (by decide) (by decide)⟩

end Jsonex


